import Mathlib

/-!
# N-Queens by min-conflicts: a shallow embedding of `queens.cpp`

The C++ program keeps its board in global vectors (`queen`, `col_counts`,
`d1_counts`, `d2_counts`) next to the global `N`.  Here the globals are the
fields of `Board` and every function passes the board explicitly.

* `unsigned` is a 32-bit word: arithmetic is on `Nat` with an explicit
  reduction modulo `W = 2^32` (`uadd`, `usub`).
* `v.at(i)` throws `std::out_of_range`; nothing in the program catches it, so a
  throwing access ends the run.  Functions return `Option`, with `none` for a
  throwing access (and for the undefined behaviour of an unchecked `v[i]` out
  of range, of a distribution with an empty range, or of `% 0`).
* The pseudo-random engine is an arbitrary stream of raw draws `rnd : Nat → Nat`;
  a distribution over `[lo, hi]` maps the raw draw into its range.
* The loops of `main` have no bound in the source: their models take a `fuel`
  argument and return `none` when it runs out.  All other loops run for the
  number of iterations the source gives them.
-/

namespace Queens

/-! ## Machine words -/

/-- The modulus of `unsigned` (32 bits). -/
abbrev W : Nat := 4294967296

/-- Unsigned addition. -/
def uadd (a b : Nat) : Nat := (a + b) % W

/-- Unsigned subtraction (wraps around below zero). -/
def usub (a b : Nat) : Nat := (a + (W - b % W)) % W

/-! ## Board state -/

/-- The global state of the program. -/
structure Board where
  /-- the global `N`: number of rows, columns and queens -/
  N : Nat
  /-- the vector `queen`: `queen[r] == c` places a queen at `(r, c)` -/
  queen : List Nat
  /-- the vector `col_counts` -/
  col_counts : List Nat
  /-- the vector `d1_counts` (anti-diagonals) -/
  d1_counts : List Nat
  /-- the vector `d2_counts` (diagonals) -/
  d2_counts : List Nat
deriving DecidableEq, Repr

/-- The statement `v.at(i)++`. -/
def at_incr (v : List Nat) (i : Nat) : Option (List Nat) :=
  match v[i]? with
  | none => none
  | some c => some (v.set i (uadd c 1))

/-- The statement `v.at(i)--`. -/
def at_decr (v : List Nat) (i : Nat) : Option (List Nat) :=
  match v[i]? with
  | none => none
  | some c => some (v.set i (usub c 1))

/-- The statement `if (v.at(i) != 0) v.at(i)--`. -/
def at_decr_guarded (v : List Nat) (i : Nat) : Option (List Nat) :=
  match v[i]? with
  | none => none
  | some c => if c ≠ 0 then some (v.set i (usub c 1)) else some v

/-- The statement `std::swap(queen[row1], queen[row2])` (unchecked accesses). -/
def swap_queen (q : List Nat) (row1 row2 : Nat) : Option (List Nat) :=
  match q[row1]?, q[row2]? with
  | some c1, some c2 => some ((q.set row1 c2).set row2 c1)
  | _, _ => none

/-- The index expression `row + col` of an anti-diagonal counter. -/
def d1_index (row col : Nat) : Nat := uadd row col

/-- The index expression `N - 1 + row - col` of a diagonal counter. -/
def d2_index (N row col : Nat) : Nat := usub (uadd (usub N 1) row) col

/-! ## Conflict evaluation from the counters -/

/-- The function `total_conflicts(row1, row2)`. -/
def total_conflicts (b : Board) (row1 row2 : Nat) : Option Nat :=
  match b.queen[row1]?, b.queen[row2]? with
  | some q1, some q2 =>
    match b.d1_counts[d1_index row1 q2]?, b.d1_counts[d1_index row2 q1]?,
          b.d2_counts[d2_index b.N row1 q2]?, b.d2_counts[d2_index b.N row2 q1]? with
    | some a1, some a2, some m1, some m2 =>
      let conflicts := usub (uadd (uadd (uadd a1 a2) m1) m2) 4
      let conflicts := if uadd row1 q1 = uadd row2 q2 then uadd conflicts 1 else conflicts
      let conflicts := if usub row1 q1 = usub row2 q2 then uadd conflicts 1 else conflicts
      some conflicts
    | _, _, _, _ => none
  | _, _ => none

/-- The function `partial_conflicts(i)`. -/
def partial_conflicts (b : Board) (i : Nat) : Option Nat :=
  match b.queen[i]? with
  | none => none
  | some q =>
    match b.d1_counts[d1_index i q]?, b.d2_counts[d2_index b.N i q]? with
    | some a, some m => some (usub (uadd a m) 2)
    | _, _ => none

/-! ## Swaps -/

/-- The function `partial_swap(row1, row2)`. -/
def partial_swap (b : Board) (row1 row2 : Nat) : Option Board :=
  match b.queen[row2]? with
  | none => none
  | some q2 =>
    match at_incr b.d1_counts (d1_index row1 q2) with
    | none => none
    | some d1 =>
      match at_incr b.d2_counts (d2_index b.N row1 q2) with
      | none => none
      | some d2 =>
        match swap_queen b.queen row1 row2 with
        | none => none
        | some q => some { b with queen := q, d1_counts := d1, d2_counts := d2 }

/-- The function `undo_partial_swap(row1, row2)`. -/
def undo_partial_swap (b : Board) (row1 row2 : Nat) : Option Board :=
  match swap_queen b.queen row1 row2 with
  | none => none
  | some q =>
    match q[row2]? with
    | none => none
    | some q2 =>
      match at_decr b.d1_counts (d1_index row1 q2) with
      | none => none
      | some d1 =>
        match at_decr b.d2_counts (d2_index b.N row1 q2) with
        | none => none
        | some d2 => some { b with queen := q, d1_counts := d1, d2_counts := d2 }

/-- The function `swap_colummns(row1, row2)`. -/
def swap_colummns (b : Board) (row1 row2 : Nat) : Option Board :=
  match b.queen[row1]?, b.queen[row2]? with
  | some q1, some q2 =>
    -- decrement counts at old positions
    (at_decr_guarded b.d1_counts (d1_index row1 q1)).bind fun d1 =>
    (at_decr_guarded d1 (d1_index row2 q2)).bind fun d1 =>
    (at_decr_guarded b.d2_counts (d2_index b.N row1 q1)).bind fun d2 =>
    (at_decr_guarded d2 (d2_index b.N row2 q2)).bind fun d2 =>
    -- increment counts at revised positions
    (at_incr d1 (d1_index row1 q2)).bind fun d1 =>
    (at_incr d1 (d1_index row2 q1)).bind fun d1 =>
    (at_incr d2 (d2_index b.N row1 q2)).bind fun d2 =>
    (at_incr d2 (d2_index b.N row2 q1)).bind fun d2 =>
    -- perform the swap
    (swap_queen b.queen row1 row2).bind fun q =>
    some { b with queen := q, d1_counts := d1, d2_counts := d2 }
  | _, _ => none

/-! ## Full recount -/

/-- The function `_count_column_conflicts(counts, violations)`: the loop over
the remaining entries of `queen`. -/
def _count_column_conflicts : List Nat → List Nat → Nat → Option (List Nat × Nat)
  | [], counts, violations => some (counts, violations)
  | col :: rest, counts, violations =>
    match counts[col]? with
    | none => none
    | some c =>
      _count_column_conflicts rest (counts.set col (uadd c 1))
        (if c ≠ 0 then uadd violations 1 else violations)

/-- The function `_count_diagonal1_conflicts(counts, violations)`: the loop over
the remaining entries of `queen`, with the running `row`. -/
def _count_diagonal1_conflicts : List Nat → Nat → List Nat → Nat → Option (List Nat × Nat)
  | [], _, counts, violations => some (counts, violations)
  | col :: rest, row, counts, violations =>
    match counts[uadd col row]? with
    | none => none
    | some c =>
      _count_diagonal1_conflicts rest (uadd row 1) (counts.set (uadd col row) (uadd c 1))
        (if c ≠ 0 then uadd violations 1 else violations)

/-- The function `_count_diagonal2_conflicts(counts, violations)`: the loop over
the remaining entries of `queen`, with `offset = N - 1` and the running `row`. -/
def _count_diagonal2_conflicts (offset : Nat) :
    List Nat → Nat → List Nat → Nat → Option (List Nat × Nat)
  | [], _, counts, violations => some (counts, violations)
  | col :: rest, row, counts, violations =>
    match counts[usub (uadd offset col) row]? with
    | none => none
    | some c =>
      _count_diagonal2_conflicts offset rest (uadd row 1)
        (counts.set (usub (uadd offset col) row) (uadd c 1))
        (if c ≠ 0 then uadd violations 1 else violations)

/-- The statement `std::fill(begin(v), end(v), x)`. -/
def fill (v : List Nat) (x : Nat) : List Nat := List.replicate v.length x

/-- The function `count_all_conflicts_multi()`.  The three worker threads own
disjoint counter vectors and only read `queen`, so they are run one after the
other; a worker that throws ends the program. -/
def count_all_conflicts_multi (b : Board) : Option (Board × Nat) :=
  match _count_column_conflicts b.queen (fill b.col_counts 0) 0,
        _count_diagonal1_conflicts b.queen 0 (fill b.d1_counts 0) 0,
        _count_diagonal2_conflicts (usub b.N 1) b.queen 0 (fill b.d2_counts 0) 0 with
  | some (cc, col_violations), some (d1, d1_violations), some (d2, d2_violations) =>
    some ({ b with col_counts := cc, d1_counts := d1, d2_counts := d2 },
          uadd (uadd col_violations d1_violations) d2_violations)
  | _, _, _ => none

/-! ## The move selector -/

/-- The loop of `min_conflicts_assignment(row1)`: `n` iterations remain and the
loop variable is `row2`.  The result holds `lowest_violations`, `best_swap`, and
(as a record of the run, not part of the program state) the list of the rows for
which `total_conflicts` was called, in order. -/
def min_conflicts_scan (b : Board) (row1 : Nat) :
    Nat → Nat → Nat → Nat → List Nat → Option (Nat × Nat × List Nat)
  | 0, _, lowest_violations, best_swap, examined =>
    some (lowest_violations, best_swap, examined)
  | n + 1, row2, lowest_violations, best_swap, examined =>
    if row1 = row2 then
      min_conflicts_scan b row1 n (uadd row2 1) lowest_violations best_swap examined
    else
      match total_conflicts b row1 row2 with
      | none => none
      | some new_violations =>
        if new_violations < lowest_violations then
          if new_violations = 0 then some (new_violations, row2, examined ++ [row2])
          else min_conflicts_scan b row1 n (uadd row2 1) new_violations row2 (examined ++ [row2])
        else
          min_conflicts_scan b row1 n (uadd row2 1) lowest_violations best_swap
            (examined ++ [row2])

/-- The function `min_conflicts_assignment(row1)`; both locals start at
`-1`, the largest `unsigned`. -/
def min_conflicts_assignment (b : Board) (row1 : Nat) : Option (Board × Nat) :=
  match min_conflicts_scan b row1 b.N 0 (usub 0 1) (usub 0 1) [] with
  | none => none
  | some (lowest_violations, best_swap, _) =>
    if best_swap ≠ usub 0 1 then
      match swap_colummns b row1 best_swap with
      | none => none
      | some b1 => some (b1, lowest_violations)
    else some (b, lowest_violations)

/-! ## Initial placement -/

/-- A draw `rand_row(random_engine)` of a `std::uniform_int_distribution<int>`
with parameters `(lo, hi)`; `raw` is what the engine supplies.  The parameters
are `int`s: an empty range is undefined behaviour, and so is taken to be a
parameter that does not fit an `int`. -/
def rand_row (lo hi raw : Nat) : Option Nat :=
  if lo ≤ hi ∧ hi < 2147483648 then some (lo + raw % (hi - lo + 1)) else none

/-- The first loop of `initial_placement` (at most `3 * N` tentative swaps):
`n` iterations remain, `k` draws were made so far, `lo` is the lower parameter
of `rand_row` (the upper one is always `N - 1`).  Returns the board, `row1` and
the number of draws made. -/
def placement_search (rnd : Nat → Nat) :
    Nat → Nat → Nat → Board → Nat → Option (Board × Nat × Nat)
  | 0, k, _, b, row1 => some (b, row1, k)
  | n + 1, k, lo, b, row1 =>
    match rand_row lo (usub b.N 1) (rnd k) with
    | none => none
    | some row2 =>
      match partial_swap b row1 row2 with
      | none => none
      | some b1 =>
        match partial_conflicts b1 row1 with
        | none => none
        | some c =>
          if c = 0 then
            if uadd row1 1 = usub b1.N 1 then some (b1, uadd row1 1, k + 1)
            else placement_search rnd n (k + 1) (uadd row1 1) b1 (uadd row1 1)
          else
            match undo_partial_swap b1 row1 row2 with
            | none => none
            | some b2 => placement_search rnd n (k + 1) lo b2 row1

/-- The second loop of `initial_placement` (forced assignment of the rows from
`row1` on): `n` iterations remain, `k` draws were made so far, `i` is the loop
variable. -/
def placement_force (rnd : Nat → Nat) : Nat → Nat → Board → Nat → Option Board
  | 0, _, b, _ => some b
  | n + 1, k, b, i =>
    match rand_row i (usub b.N 1) (rnd k) with
    | none => none
    | some j =>
      match swap_colummns b i j with
      | none => none
      | some b1 =>
        match b1.queen[i]? with
        | none => none
        | some qi =>
          match at_incr b1.d1_counts (d1_index i qi),
                at_incr b1.d2_counts (d2_index b1.N i qi) with
          | some d1, some d2 =>
            placement_force rnd n (k + 1) { b1 with d1_counts := d1, d2_counts := d2 } (uadd i 1)
          | _, _ => none

/-- The function `initial_placement()`, drawing from the stream `rnd`.  Returns
the board and `row1`. -/
def initial_placement (rnd : Nat → Nat) (b : Board) : Option (Board × Nat) :=
  -- `queen.at(i) = i` for `i` from `0` up to `N`
  if b.N ≤ b.queen.length then
    let b0 : Board :=
      { b with queen := List.range b.N ++ b.queen.drop b.N
               col_counts := fill b.col_counts 1
               d1_counts := fill b.d1_counts 0
               d2_counts := fill b.d2_counts 0 }
    match placement_search rnd ((3 * b.N) % W) 0 0 b0 0 with
    | none => none
    | some (b1, row1, k) =>
      match placement_force rnd (usub b.N row1) k b1 row1 with
      | none => none
      | some b2 => some (b2, row1)
  else none

/-! ## The restart controller -/

/-- The scan `do { r = (r + 1) % (N - 1); } while (partial_conflicts(r) == 0)`
of `main`, for at most `fuel` rounds. -/
def find_conflicted_row (b : Board) : Nat → Nat → Option Nat
  | 0, _ => none
  | fuel + 1, r =>
    if usub b.N 1 = 0 then none
    else
      match partial_conflicts b (uadd r 1 % usub b.N 1) with
      | none => none
      | some c =>
        if c = 0 then find_conflicted_row b fuel (uadd r 1 % usub b.N 1)
        else some (uadd r 1 % usub b.N 1)

/-- The repair loop `while (attempt < 2000 && new_conflicts != 0)` of `main`,
for at most `fuel` rounds (and `fuel` rounds of every row scan). -/
def repair (fuel0 : Nat) (old_conflicts : Nat) : Nat → Board → Nat → Nat → Nat → Option Board
  | 0, _, _, _, _ => none
  | fuel + 1, b, r, attempt, new_conflicts =>
    if attempt < 2000 ∧ new_conflicts ≠ 0 then
      match find_conflicted_row b fuel0 r with
      | none => none
      | some r1 =>
        match min_conflicts_assignment b r1 with
        | none => none
        | some (b1, _) =>
          match count_all_conflicts_multi b1 with
          | none => none
          | some (b2, new1) =>
            if new1 = 0 then some b2
            else if new1 ≥ old_conflicts then
              repair fuel0 old_conflicts fuel b2 r1
                (uadd (uadd attempt 1) (uadd 1 ((usub new1 old_conflicts * 2) % W))) new1
            else repair fuel0 old_conflicts fuel b2 r1 (uadd attempt 1) new1
    else some b

/-- The restart loop `do { ... } while (count_all_conflicts_multi() != 0)` of
`main`, for at most `fuel` restarts; `seeds t` is the stream of the engine that
the `t`-th call of `initial_placement` creates.  Returns the final board and
`restarts`. -/
def search (seeds : Nat → Nat → Nat) : Nat → Nat → Nat → Board → Option (Board × Nat)
  | 0, _, _, _ => none
  | fuel + 1, t, restarts, b =>
    match initial_placement (seeds t) b with
    | none => none
    | some (b1, row1) =>
      match count_all_conflicts_multi b1 with
      | none => none
      | some (b2, new_conflicts) =>
        match repair (fuel + 1) new_conflicts (fuel + 1) b2 (usub row1 1) 0 new_conflicts with
        | none => none
        | some b3 =>
          match count_all_conflicts_multi b3 with
          | none => none
          | some (b4, c) =>
            if c ≠ 0 then search seeds fuel (t + 1) (uadd restarts 1) b4
            else some (b4, uadd restarts 1)

/-- The vectors as `main` sizes them (`resize` value-initialises to `0`). -/
def fresh (N : Nat) : Board :=
  { N := N
    queen := List.replicate N 0
    col_counts := List.replicate N 0
    d1_counts := List.replicate (usub (2 * N % W) 1) 0
    d2_counts := List.replicate (usub (2 * N % W) 1) 0 }

/-- The core of `main` for a parsed `N`: `none` inside stands for the report
"No solutions" (`N` is 2 or 3, the search is not entered); otherwise the final
board and the restart count. -/
def main (seeds : Nat → Nat → Nat) (fuel : Nat) (N : Nat) : Option (Option (Board × Nat)) :=
  if N = 2 ∨ N = 3 then some none
  else
    match search seeds fuel 0 (usub 0 1) (fresh N) with
    | none => none
    | some res => some (some res)

/-! ## Specification vocabulary

What the claims talk about, stated on the assignment alone (no counters). -/

/-- The keys met by a loop over the assignment that starts at row `s`:
`f (s + i) queen[i]` for each position `i`, in order. -/
def keysFrom (f : Nat → Nat → Nat) : Nat → List Nat → List Nat
  | _, [] => []
  | s, c :: rest => f s c :: keysFrom f (s + 1) rest

/-- The number of rows `r` with `queen[r] = c`. -/
def rows_on_col (q : List Nat) (c : Nat) : Nat :=
  (List.range q.length).countP fun r => q.getD r 0 = c

/-- The number of rows `r` with `r + queen[r] = k`. -/
def rows_on_d1 (q : List Nat) (k : Nat) : Nat :=
  (List.range q.length).countP fun r => r + q.getD r 0 = k

/-- The number of rows `r` with `(N - 1) + r - queen[r] = k`. -/
def rows_on_d2 (N : Nat) (q : List Nat) (k : Nat) : Nat :=
  (List.range q.length).countP fun r => N - 1 + r - q.getD r 0 = k

/-- The number of rows `r` with `(N - 1) + queen[r] - r = k`: the diagonals
numbered from the other end. -/
def rows_on_d2_mirrored (N : Nat) (q : List Nat) (k : Nat) : Nat :=
  (List.range q.length).countP fun r => N - 1 + q.getD r 0 - r = k

/-- The vectors have the sizes `main` gives them. -/
def Board.sized (b : Board) : Prop :=
  b.queen.length = b.N ∧ b.col_counts.length = b.N ∧
  b.d1_counts.length = 2 * b.N - 1 ∧ b.d2_counts.length = 2 * b.N - 1

instance (b : Board) : Decidable b.sized := by unfold Board.sized; infer_instance

/-- Every column value of the assignment is below `N`. -/
def Board.cols_in_range (b : Board) : Prop := ∀ c ∈ b.queen, c < b.N

instance (b : Board) : Decidable b.cols_in_range := by
  unfold Board.cols_in_range; infer_instance

/-- The column counter agrees with the assignment. -/
def Board.col_consistent (b : Board) : Prop :=
  ∀ c, c < b.col_counts.length → b.col_counts.getD c 0 = rows_on_col b.queen c

/-- The anti-diagonal counter agrees with the assignment. -/
def Board.d1_consistent (b : Board) : Prop :=
  ∀ k, k < b.d1_counts.length → b.d1_counts.getD k 0 = rows_on_d1 b.queen k

/-- The diagonal counter agrees with the assignment, a diagonal being numbered
`(N - 1) + row - col` as in `total_conflicts`, `partial_conflicts` and the swaps. -/
def Board.d2_consistent (b : Board) : Prop :=
  ∀ k, k < b.d2_counts.length → b.d2_counts.getD k 0 = rows_on_d2 b.N b.queen k

instance (b : Board) : Decidable b.col_consistent := by
  unfold Board.col_consistent; infer_instance

instance (b : Board) : Decidable b.d1_consistent := by
  unfold Board.d1_consistent; infer_instance

instance (b : Board) : Decidable b.d2_consistent := by
  unfold Board.d2_consistent; infer_instance

/-- All three counters agree with the assignment. -/
def Board.consistent (b : Board) : Prop :=
  b.col_consistent ∧ b.d1_consistent ∧ b.d2_consistent

instance (b : Board) : Decidable b.consistent := by
  unfold Board.consistent; infer_instance

/-- A valid placement: no two distinct rows share a column, an anti-diagonal
(`row + col`) or a main diagonal (`row - col`). -/
def valid_placement (q : List Nat) : Prop :=
  ∀ j, j < q.length → ∀ i, i < j →
    q.getD i 0 ≠ q.getD j 0 ∧ i + q.getD i 0 ≠ j + q.getD j 0 ∧
    (i : Int) - (q.getD i 0 : Int) ≠ (j : Int) - (q.getD j 0 : Int)

instance (q : List Nat) : Decidable (valid_placement q) := by
  unfold valid_placement; infer_instance

/-- The occupied columns. -/
def col_lines (q : List Nat) : Finset Nat :=
  (Finset.range q.length).image fun r => q.getD r 0

/-- The occupied anti-diagonals, named by `row + col`. -/
def d1_lines (q : List Nat) : Finset Nat :=
  (Finset.range q.length).image fun r => r + q.getD r 0

/-- The occupied main diagonals, named by `row - col`. -/
def d2_lines (q : List Nat) : Finset Int :=
  (Finset.range q.length).image fun (r : Nat) => (r : Int) - (q.getD r 0 : Int)

/-- The sum, over the occupied lines of a family, of the occupancy less one;
`key r` names the line of row `r`. -/
def excess {α : Type} [DecidableEq α] (n : Nat) (key : Nat → α) : Nat :=
  ∑ d in (Finset.range n).image key, (((Finset.range n).filter fun r => key r = d).card - 1)


/-- The number of rows other than `i` on the anti-diagonal of row `i`. -/
def others_on_d1 (q : List Nat) (i : Nat) : Nat :=
  (List.range q.length).countP fun r => r ≠ i ∧ r + q.getD r 0 = i + q.getD i 0

/-- The number of rows other than `i` on the main diagonal of row `i`. -/
def others_on_d2 (q : List Nat) (i : Nat) : Nat :=
  (List.range q.length).countP fun r =>
    r ≠ i ∧ (r : Int) - (q.getD r 0 : Int) = (i : Int) - (q.getD i 0 : Int)

/-- The board `b'` has the `N` and the vector sizes of `b`. -/
def Board.same_shape (b b' : Board) : Prop :=
  b'.N = b.N ∧ b'.queen.length = b.queen.length ∧
  b'.col_counts.length = b.col_counts.length ∧
  b'.d1_counts.length = b.d1_counts.length ∧ b'.d2_counts.length = b.d2_counts.length

/-- A periodic assignment on four columns: row 0 in column 1, and every other
row `r` in column `(4 - r % 4) % 4`.  Many rows share each line of it. -/
def crowded_col (r : Nat) : Nat := if r = 0 then 1 else (4 - r % 4) % 4

/-- The `N`-board that holds the periodic assignment `crowded_col`, with cleared
counters. -/
def crowded_board (N : Nat) : Board :=
  { N := N
    queen := (List.range N).map crowded_col
    col_counts := List.replicate N 0
    d1_counts := List.replicate (2 * N - 1) 0
    d2_counts := List.replicate (2 * N - 1) 0 }

/-- Every entry of the two diagonal counters is an `unsigned` value. -/
def Board.words (b : Board) : Prop :=
  (∀ x ∈ b.d1_counts, x < W) ∧ (∀ x ∈ b.d2_counts, x < W)

instance (b : Board) : Decidable b.words := by unfold Board.words; infer_instance

/-- The rows `0, ..., f - 1` of the assignment are pairwise conflict-free: no
two of them share a column, an anti-diagonal or a main diagonal. -/
def prefix_free (q : List Nat) (f : Nat) : Prop :=
  ∀ j, j < f → ∀ i, i < j →
    q.getD i 0 ≠ q.getD j 0 ∧ i + q.getD i 0 ≠ j + q.getD j 0 ∧
    (i : Int) - (q.getD i 0 : Int) ≠ (j : Int) - (q.getD j 0 : Int)

instance (q : List Nat) (f : Nat) : Decidable (prefix_free q f) := by
  unfold prefix_free; infer_instance

/-- One round of the repair loop of `main`, the body of
`while (attempt < 2000 && new_conflicts != 0)`: the board, `r`, `attempt` and
`new_conflicts` at the end of the round (`fuel0` bounds the row scan). -/
def repair_round (fuel0 old_conflicts : Nat) (b : Board) (r attempt : Nat) :
    Option (Board × Nat × Nat × Nat) :=
  match find_conflicted_row b fuel0 r with
  | none => none
  | some r1 =>
    match min_conflicts_assignment b r1 with
    | none => none
    | some (b1, _) =>
      match count_all_conflicts_multi b1 with
      | none => none
      | some (b2, new1) =>
        if new1 = 0 then some (b2, r1, uadd attempt 1, new1)
        else if new1 ≥ old_conflicts then
          some (b2, r1, uadd (uadd attempt 1) (uadd 1 ((usub new1 old_conflicts * 2) % W)), new1)
        else some (b2, r1, uadd attempt 1, new1)

/-- Whether the guard of `if (v.at(i) != 0) v.at(i)--` finds a zero entry, so
that the decrement is skipped (counted as 1) or not (0). -/
def guard_skips (v : List Nat) (i : Nat) : Nat := if v[i]? = some 0 then 1 else 0

/-- The guarded decrements of `swap_colummns(row1, row2)` that are skipped
because they find a zero entry: how many of the two on `d1_counts`, and how many
of the two on `d2_counts`. -/
def swap_colummns_skips (b : Board) (row1 row2 : Nat) : Option (Nat × Nat) :=
  match b.queen[row1]?, b.queen[row2]? with
  | some q1, some q2 =>
    (at_decr_guarded b.d1_counts (d1_index row1 q1)).bind fun d1 =>
    (at_decr_guarded d1 (d1_index row2 q2)).bind fun _ =>
    (at_decr_guarded b.d2_counts (d2_index b.N row1 q1)).bind fun d2 =>
    (at_decr_guarded d2 (d2_index b.N row2 q2)).bind fun _ =>
    some (guard_skips b.d1_counts (d1_index row1 q1) + guard_skips d1 (d1_index row2 q2),
          guard_skips b.d2_counts (d2_index b.N row1 q1) +
          guard_skips d2 (d2_index b.N row2 q2))
  | _, _ => none

/-! ## Word arithmetic, lists and the tally loop -/

theorem getD_set_eq (cs : List Nat) (k k' x : Nat) (hk : k < cs.length) :
    (cs.set k x).getD k' 0 = if k' = k then x else cs.getD k' 0 := by
  simp only [List.getD_eq_getElem?_getD, List.getElem?_set]
  by_cases h : k = k'
  · subst h; simp [hk]
  · have h' : ¬ k' = k := fun e => h e.symm
    simp [h, h']

theorem uadd_lt {a b : Nat} (h : a + b < W) : uadd a b = a + b := by
  unfold uadd; exact Nat.mod_eq_of_lt h

theorem tally_spec (ks : List Nat) : ∀ (cs : List Nat) (v : Nat),
    (∀ k ∈ ks, k < cs.length) → (∀ k, cs.getD k 0 + ks.count k < W) → v + ks.length < W →
    ∃ cs' v', _count_column_conflicts ks cs v = some (cs', v') ∧ cs'.length = cs.length ∧
      (∀ k, cs'.getD k 0 = cs.getD k 0 + ks.count k) ∧
      v' + (ks.toFinset.filter (fun k => cs.getD k 0 = 0)).card = v + ks.length := by
  induction ks with
  | nil => intro cs v _ _ _; exact ⟨cs, v, rfl, rfl, by simp, by simp⟩
  | cons k ks ih =>
    intro cs v hlen hcnt hv
    have hk : k < cs.length := hlen k (List.mem_cons_self _ _)
    have hc1 : cs.getD k 0 + 1 ≤ cs.getD k 0 + (k :: ks).count k := by simp
    have hck : cs.getD k 0 + 1 < W := lt_of_le_of_lt hc1 (hcnt k)
    have hget : cs[k]? = some (cs.getD k 0) := by
      simp [List.getD_eq_getElem?_getD, List.getElem?_eq_getElem hk]
    have hv1 : (if cs.getD k 0 ≠ 0 then uadd v 1 else v) + ks.length < W := by
      have : uadd v 1 = v + 1 := uadd_lt (by simp at hv; omega)
      split <;> simp at hv <;> omega
    obtain ⟨cs', v', hrun, hl, hval, hcard⟩ :=
      ih (cs.set k (cs.getD k 0 + 1)) (if cs.getD k 0 ≠ 0 then uadd v 1 else v)
        (fun k' hk' => by simpa using hlen k' (List.mem_cons_of_mem _ hk'))
        (fun k' => by
          have := hcnt k'
          rw [getD_set_eq _ _ _ _ hk]
          rw [List.count_cons] at this
          by_cases e : k' = k
          · subst e; simp at this ⊢; omega
          · have e' : ¬ (k == k') = true := by simpa using fun h => e h.symm
            simp [e, e'] at this ⊢; omega)
        hv1
    refine ⟨cs', v', ?_, by simpa using hl, ?_, ?_⟩
    · simp only [_count_column_conflicts, hget, uadd_lt hck]
      exact hrun
    · intro k'
      rw [hval k', getD_set_eq _ _ _ _ hk, List.count_cons]
      by_cases e : k' = k
      · subst e; simp; omega
      · have e' : ¬ (k == k') = true := by simpa using fun h => e h.symm
        simp [e, e']
    · have hF : (ks.toFinset.filter (fun k' => (cs.set k (cs.getD k 0 + 1)).getD k' 0 = 0)) =
          (((k :: ks).toFinset).filter (fun k' => cs.getD k' 0 = 0)).erase k := by
        ext x
        simp only [Finset.mem_filter, Finset.mem_erase, List.mem_toFinset, List.mem_cons,
          getD_set_eq _ _ _ _ hk]
        by_cases e : x = k
        · simp [e]
        · simp [e]
      rw [hF] at hcard
      have hlen1 : (k :: ks).length = ks.length + 1 := rfl
      by_cases hc0 : cs.getD k 0 = 0
      · have hmem : k ∈ ((k :: ks).toFinset).filter (fun k' => cs.getD k' 0 = 0) :=
          Finset.mem_filter.mpr ⟨by simp, hc0⟩
        have := Finset.card_erase_add_one hmem
        rw [if_neg (not_not.mpr hc0)] at hcard
        omega
      · have hmem : k ∉ ((k :: ks).toFinset).filter (fun k' => cs.getD k' 0 = 0) :=
          fun h => hc0 (Finset.mem_filter.mp h).2
        rw [Finset.erase_eq_of_not_mem hmem, if_pos hc0] at hcard
        have : uadd v 1 = v + 1 := uadd_lt (by omega)
        omega

theorem keysFrom_eq_map (f : Nat → Nat → Nat) (q : List Nat) : ∀ s,
    keysFrom f s q = (List.range q.length).map (fun i => f (s + i) (q.getD i 0)) := by
  induction q with
  | nil => intro s; rfl
  | cons c rest ih =>
    intro s
    rw [keysFrom, ih, List.length_cons, List.range_succ_eq_map, List.map_cons, List.map_map]
    simp only [List.getD_cons_zero, Nat.add_zero, List.cons.injEq, true_and]
    apply List.map_congr_left
    intro i _
    simp only [Function.comp, List.getD_cons_succ]
    congr 1
    omega

theorem toFinset_map_range (g : Nat → Nat) (n : Nat) :
    ((List.range n).map g).toFinset = (Finset.range n).image g := by
  ext x
  simp only [List.mem_toFinset, List.mem_map, List.mem_range, Finset.mem_image, Finset.mem_range]

theorem count_map_range (g : Nat → Nat) (n k : Nat) :
    ((List.range n).map g).count k = (List.range n).countP (fun r => g r = k) := by
  rw [List.count_eq_countP, List.countP_map]
  apply List.countP_congr
  intro r _
  simp

theorem getD_replicate_zero (m k : Nat) : (List.replicate m 0).getD k 0 = 0 := by
  rw [List.getD_eq_getElem?_getD]
  by_cases h : k < m
  · simp [List.getElem?_replicate, h]
  · simp [List.getElem?_replicate, h]

theorem tally_zero (f : Nat → Nat → Nat) (q : List Nat) (m : Nat)
    (hk : ∀ i, i < q.length → f i (q.getD i 0) < m) (hlen : q.length < W) :
    ∃ cs' v', _count_column_conflicts (keysFrom f 0 q) (List.replicate m 0) 0 = some (cs', v') ∧
      cs'.length = m ∧
      (∀ k, cs'.getD k 0 = (List.range q.length).countP (fun r => f r (q.getD r 0) = k)) ∧
      v' + ((Finset.range q.length).image (fun r => f r (q.getD r 0))).card = q.length := by
  have hkeys : keysFrom f 0 q = (List.range q.length).map (fun i => f i (q.getD i 0)) := by
    rw [keysFrom_eq_map]; simp
  have hl : (keysFrom f 0 q).length = q.length := by rw [hkeys]; simp
  obtain ⟨cs', v', hrun, hlen', hval, hcard⟩ := tally_spec (keysFrom f 0 q) (List.replicate m 0) 0
    (by
      intro k hk'
      rw [hkeys, List.mem_map] at hk'
      obtain ⟨i, hi, rfl⟩ := hk'
      simpa using hk i (List.mem_range.mp hi))
    (by
      intro k
      rw [getD_replicate_zero]
      have := List.count_le_length k (keysFrom f 0 q)
      omega)
    (by omega)
  refine ⟨cs', v', hrun, by simpa using hlen', ?_, ?_⟩
  · intro k
    rw [hval k, getD_replicate_zero, hkeys, count_map_range]
    simp
  · have hfil : (keysFrom f 0 q).toFinset.filter (fun k => (List.replicate m 0).getD k 0 = 0) =
        (keysFrom f 0 q).toFinset := by
      apply Finset.filter_true_of_mem
      intro k _
      exact getD_replicate_zero m k
    rw [hfil, hl, hkeys, toFinset_map_range] at hcard
    omega
theorem usub_le {a b : Nat} (hb : b ≤ a) (ha : a < W) : usub a b = a - b := by
  unfold usub
  have hbW : b % W = b := Nat.mod_eq_of_lt (lt_of_le_of_lt hb ha)
  rw [hbW]
  have : a + (W - b) = (a - b) + W := by omega
  rw [this, Nat.add_mod_right]
  exact Nat.mod_eq_of_lt (by omega)

theorem d1_as_tally (q : List Nat) : ∀ (s : Nat) (cs : List Nat) (v : Nat),
    (∀ c ∈ q, c + (s + q.length) < W) →
    _count_diagonal1_conflicts q s cs v =
      _count_column_conflicts (keysFrom (fun r c => c + r) s q) cs v := by
  induction q with
  | nil => intro s cs v _; rfl
  | cons col rest ih =>
    intro s cs v h
    have hc := h col (List.mem_cons_self _ _)
    simp only [List.length_cons] at hc
    have e1 : uadd col s = col + s := uadd_lt (by omega)
    have e2 : uadd s 1 = s + 1 := uadd_lt (by omega)
    simp only [_count_diagonal1_conflicts, keysFrom, _count_column_conflicts, e1, e2]
    cases hget : cs[col + s]? with
    | none => rfl
    | some c =>
      simp only []
      apply ih
      intro c' hc'
      have := h c' (List.mem_cons_of_mem _ hc')
      simp only [List.length_cons] at this
      omega

theorem d2_as_tally (offset : Nat) (q : List Nat) : ∀ (s : Nat) (cs : List Nat) (v : Nat),
    s + q.length ≤ offset + 1 → offset + 1 < W → (∀ c ∈ q, offset + c < W) →
    _count_diagonal2_conflicts offset q s cs v =
      _count_column_conflicts (keysFrom (fun r c => offset + c - r) s q) cs v := by
  induction q with
  | nil => intro s cs v _ _ _; rfl
  | cons col rest ih =>
    intro s cs v hs ho h
    have hc := h col (List.mem_cons_self _ _)
    simp only [List.length_cons] at hs
    have e0 : uadd offset col = offset + col := uadd_lt hc
    have e1 : usub (offset + col) s = offset + col - s := usub_le (by omega) hc
    have e2 : uadd s 1 = s + 1 := uadd_lt (by omega)
    simp only [_count_diagonal2_conflicts, keysFrom, _count_column_conflicts, e0, e1, e2]
    cases hget : cs[offset + col - s]? with
    | none => rfl
    | some c =>
      simp only []
      apply ih
      · omega
      · exact ho
      · intro c' hc'
        exact h c' (List.mem_cons_of_mem _ hc')


theorem keysFrom_col (q : List Nat) : ∀ s, keysFrom (fun _ c => c) s q = q := by
  induction q with
  | nil => intro s; rfl
  | cons c rest ih => intro s; rw [keysFrom, ih]

theorem getD_lt_of_cols {q : List Nat} {n : Nat} (hq : ∀ c ∈ q, c < n) {i : Nat}
    (hi : i < q.length) : q.getD i 0 < n := by
  rw [List.getD_eq_getElem _ _ hi]
  exact hq _ (List.getElem_mem _)

theorem d2_lines_card (N : Nat) (q : List Nat) (hl : q.length = N) (hq : ∀ c ∈ q, c < N) :
    (d2_lines q).card =
      ((Finset.range q.length).image (fun r => N - 1 + q.getD r 0 - r)).card := by
  have hinj : Function.Injective (fun x : Nat => (N : Int) - 1 - (x : Int)) := by
    intro x y h
    simp only at h
    omega
  rw [← Finset.card_image_of_injective _ hinj, Finset.image_image]
  unfold d2_lines
  congr 1
  apply Finset.image_congr
  intro r hr
  have hr' : r < q.length := Finset.mem_range.mp hr
  have := getD_lt_of_cols hq hr'
  simp only [Function.comp]
  omega

theorem recount_spec (b : Board) (hs : b.sized) (h1 : 1 ≤ b.N) (hN : b.N < 2147483648)
    (hq : b.cols_in_range) :
    ∃ cc d1 d2 cv d1v d2v,
      count_all_conflicts_multi b =
        some ({ b with col_counts := cc, d1_counts := d1, d2_counts := d2 },
              uadd (uadd cv d1v) d2v) ∧
      cc.length = b.N ∧ d1.length = 2 * b.N - 1 ∧ d2.length = 2 * b.N - 1 ∧
      (∀ k, cc.getD k 0 = rows_on_col b.queen k) ∧
      (∀ k, d1.getD k 0 = rows_on_d1 b.queen k) ∧
      (∀ k, d2.getD k 0 = rows_on_d2_mirrored b.N b.queen k) ∧
      cv + (col_lines b.queen).card = b.N ∧
      d1v + (d1_lines b.queen).card = b.N ∧
      d2v + (d2_lines b.queen).card = b.N := by
  obtain ⟨hql, hcl, hd1l, hd2l⟩ := hs
  have hW : W = 4294967296 := rfl
  have hqW : b.queen.length < W := by rw [hql]; omega
  have hcol : ∀ i, i < b.queen.length → b.queen.getD i 0 < b.N :=
    fun i hi => getD_lt_of_cols hq hi
  obtain ⟨cc, cv, hrun0, hccl, hccv, hcvc⟩ := tally_zero (fun _ c => c) b.queen b.N
    (fun i hi => hcol i hi) hqW
  obtain ⟨d1, d1v, hrun1, hd1l', hd1v, hd1c⟩ := tally_zero (fun r c => c + r) b.queen (2 * b.N - 1)
    (fun i hi => by have := hcol i hi; beta_reduce; omega) hqW
  obtain ⟨d2, d2v, hrun2, hd2l', hd2v, hd2c⟩ :=
    tally_zero (fun r c => b.N - 1 + c - r) b.queen (2 * b.N - 1)
    (fun i hi => by have := hcol i hi; beta_reduce; omega) hqW
  rw [keysFrom_col] at hrun0
  rw [← d1_as_tally b.queen 0 _ _ (fun c hc => by have := hq c hc; omega)] at hrun1
  rw [← d2_as_tally (b.N - 1) b.queen 0 _ _ (by omega) (by omega)
    (fun c hc => by have := hq c hc; omega)] at hrun2
  have hoff : usub b.N 1 = b.N - 1 := usub_le h1 (by omega)
  refine ⟨cc, d1, d2, cv, d1v, d2v, ?_, hccl, hd1l', hd2l', ?_, ?_, ?_, ?_, ?_, ?_⟩
  · simp only [count_all_conflicts_multi, fill, hcl, hd1l, hd2l, hoff, hrun0, hrun1, hrun2]
  · intro k; rw [hccv k]; rfl
  · intro k; rw [hd1v k]; unfold rows_on_d1
    apply List.countP_congr
    intro r _
    simp [Nat.add_comm]
  · intro k; rw [hd2v k]; rfl
  · unfold col_lines; omega
  · have : d1_lines b.queen = (Finset.range b.queen.length).image (fun r => b.queen.getD r 0 + r) := by
      unfold d1_lines
      apply Finset.image_congr
      intro r _
      simp only [Nat.add_comm]
    rw [this]; omega
  · rw [d2_lines_card b.N b.queen hql hq]; omega

/-! ## Occupied lines and validity -/

theorem excess_add_card {α : Type} [DecidableEq α] (n : Nat) (key : Nat → α) :
    excess n key + ((Finset.range n).image key).card = n := by
  have h := Finset.card_eq_sum_card_image key (Finset.range n)
  rw [Finset.card_range] at h
  unfold excess
  rw [Finset.card_eq_sum_ones ((Finset.range n).image key), ← Finset.sum_add_distrib]
  refine Eq.trans ?_ h.symm
  apply Finset.sum_congr rfl
  intro d hd
  obtain ⟨r, hr, hrd⟩ := Finset.mem_image.mp hd
  have hpos : 0 < ((Finset.range n).filter fun r => key r = d).card :=
    Finset.card_pos.mpr ⟨r, Finset.mem_filter.mpr ⟨hr, hrd⟩⟩
  omega

theorem card_image_range_le {α : Type} [DecidableEq α] (n : Nat) (key : Nat → α) :
    ((Finset.range n).image key).card ≤ n := by
  simpa using Finset.card_image_le (s := Finset.range n) (f := key)

theorem card_image_range_pos {α : Type} [DecidableEq α] (n : Nat) (key : Nat → α) (h : 1 ≤ n) :
    1 ≤ ((Finset.range n).image key).card := by
  apply Finset.card_pos.mpr
  exact ⟨key 0, Finset.mem_image.mpr ⟨0, Finset.mem_range.mpr h, rfl⟩⟩

theorem card_image_range_eq_iff {α : Type} [DecidableEq α] (n : Nat) (key : Nat → α) :
    ((Finset.range n).image key).card = n ↔ ∀ j, j < n → ∀ i, i < j → key i ≠ key j := by
  have h := Finset.card_image_iff (s := Finset.range n) (f := key)
  rw [Finset.card_range] at h
  rw [h]
  constructor
  · intro hinj j hj i hij e
    have := hinj (Finset.mem_coe.mpr (Finset.mem_range.mpr (lt_trans hij hj)))
      (Finset.mem_coe.mpr (Finset.mem_range.mpr hj)) e
    omega
  · intro hp x hx y hy e
    have hx' : x < n := Finset.mem_range.mp (Finset.mem_coe.mp hx)
    have hy' : y < n := Finset.mem_range.mp (Finset.mem_coe.mp hy)
    rcases Nat.lt_trichotomy x y with hlt | heq | hgt
    · exact absurd e (hp y hy' x hlt)
    · exact heq
    · exact absurd e.symm (hp x hx' y hgt)

theorem valid_placement_iff (q : List Nat) :
    valid_placement q ↔
      (col_lines q).card = q.length ∧ (d1_lines q).card = q.length ∧
      (d2_lines q).card = q.length := by
  unfold col_lines d1_lines d2_lines
  rw [card_image_range_eq_iff, card_image_range_eq_iff, card_image_range_eq_iff]
  unfold valid_placement
  constructor
  · intro h
    exact ⟨fun j hj i hi => (h j hj i hi).1, fun j hj i hi => (h j hj i hi).2.1,
      fun j hj i hi => (h j hj i hi).2.2⟩
  · intro h j hj i hi
    exact ⟨h.1 j hj i hi, h.2.1 j hj i hi, h.2.2 j hj i hi⟩

/-! ## The recount: validity and value -/

theorem sum3_lt_W {N cv d1v d2v a b c : Nat} (h1 : 1 ≤ N) (hN : 3 * (N - 1) < W)
    (ha : cv + a = N) (hb : d1v + b = N) (hc : d2v + c = N)
    (ha1 : 1 ≤ a) (hb1 : 1 ≤ b) (hc1 : 1 ≤ c) :
    uadd (uadd cv d1v) d2v = cv + d1v + d2v := by
  have hW : W = 4294967296 := rfl
  rw [uadd_lt (a := cv) (by omega), uadd_lt (by omega)]

/-- Claim C1, as amended. For `1 ≤ N` with `3 * (N - 1) < 2^32` (so that the
32-bit sum of the three tallies cannot wrap) and an assignment of `N` column
values below `N`, whatever the counters hold, `count_all_conflicts_multi`
returns, and it returns 0 exactly when the assignment is a valid placement: no
two rows share a column, an anti-diagonal (`row + col`) or a main diagonal
(`row - col`). -/
theorem count_all_conflicts_multi_zero_iff_valid (b : Board) (hs : b.sized) (h1 : 1 ≤ b.N)
    (hN : 3 * (b.N - 1) < W) (hq : b.cols_in_range) :
    ∃ b' v, count_all_conflicts_multi b = some (b', v) ∧ (v = 0 ↔ valid_placement b.queen) := by
  have hW : W = 4294967296 := rfl
  obtain ⟨cc, d1, d2, cv, d1v, d2v, hrun, -, -, -, -, -, -, hc, hd1, hd2⟩ :=
    recount_spec b hs h1 (by omega) hq
  have hl : b.queen.length = b.N := hs.1
  have pc := card_image_range_pos b.queen.length (fun r => b.queen.getD r 0) (by omega)
  have pd1 := card_image_range_pos b.queen.length (fun r => r + b.queen.getD r 0) (by omega)
  have pd2 := card_image_range_pos b.queen.length
    (fun (r : Nat) => (r : Int) - (b.queen.getD r 0 : Int)) (by omega)
  refine ⟨_, _, hrun, ?_⟩
  rw [sum3_lt_W h1 hN hc hd1 hd2 pc pd1 pd2, valid_placement_iff, hl]
  constructor
  · intro h; omega
  · intro h; omega

/-- An instance: a solved 4-board with stale counters. -/
theorem count_all_conflicts_multi_zero_iff_valid_witness :
    (Board.mk 4 [1, 3, 0, 2] [7, 7, 7, 7] [9, 9, 9, 9, 9, 9, 9] [5, 5, 5, 5, 5, 5, 5]).sized ∧
    ∃ b' v, count_all_conflicts_multi
        (Board.mk 4 [1, 3, 0, 2] [7, 7, 7, 7] [9, 9, 9, 9, 9, 9, 9] [5, 5, 5, 5, 5, 5, 5])
          = some (b', v) ∧
      (v = 0 ↔ valid_placement [1, 3, 0, 2]) :=
  ⟨by decide, count_all_conflicts_multi_zero_iff_valid
    (Board.mk 4 [1, 3, 0, 2] [7, 7, 7, 7] [9, 9, 9, 9, 9, 9, 9] [5, 5, 5, 5, 5, 5, 5])
    (by decide) (by decide) (by decide) (by decide)⟩

/-- Claim C5, as amended. For `1 ≤ N` with `3 * (N - 1) < 2^32` (so that the
32-bit sum cannot wrap) and an assignment of `N` column values below `N`,
whatever the counters hold before the call, `count_all_conflicts_multi` returns
the sum over the three line families (columns, anti-diagonals, main diagonals)
of the occupancy less one over every occupied line, which is `3 * N` less the
number of occupied columns, anti-diagonals and main diagonals. -/
theorem count_all_conflicts_multi_eq_excess (b : Board) (hs : b.sized) (h1 : 1 ≤ b.N)
    (hN : 3 * (b.N - 1) < W) (hq : b.cols_in_range) :
    ∃ b' v, count_all_conflicts_multi b = some (b', v) ∧
      v = excess b.N (fun r => b.queen.getD r 0) + excess b.N (fun r => r + b.queen.getD r 0) +
          excess b.N (fun (r : Nat) => (r : Int) - (b.queen.getD r 0 : Int)) ∧
      v = 3 * b.N -
          ((col_lines b.queen).card + (d1_lines b.queen).card + (d2_lines b.queen).card) := by
  have hW : W = 4294967296 := rfl
  obtain ⟨cc, d1, d2, cv, d1v, d2v, hrun, -, -, -, -, -, -, hc, hd1, hd2⟩ :=
    recount_spec b hs h1 (by omega) hq
  have hl : b.queen.length = b.N := hs.1
  have pc := card_image_range_pos b.queen.length (fun r => b.queen.getD r 0) (by omega)
  have pd1 := card_image_range_pos b.queen.length (fun r => r + b.queen.getD r 0) (by omega)
  have pd2 := card_image_range_pos b.queen.length
    (fun (r : Nat) => (r : Int) - (b.queen.getD r 0 : Int)) (by omega)
  have ec := excess_add_card b.N (fun r => b.queen.getD r 0)
  have ed1 := excess_add_card b.N (fun r => r + b.queen.getD r 0)
  have ed2 := excess_add_card b.N (fun (r : Nat) => (r : Int) - (b.queen.getD r 0 : Int))
  refine ⟨_, _, hrun, ?_, ?_⟩
  · rw [sum3_lt_W h1 hN hc hd1 hd2 pc pd1 pd2]
    unfold col_lines at hc; unfold d1_lines at hd1; unfold d2_lines at hd2
    rw [hl] at hc hd1 hd2
    omega
  · rw [sum3_lt_W h1 hN hc hd1 hd2 pc pd1 pd2]
    omega

/-- An instance: four queens in column 0 of a 4-board, with stale counters. -/
theorem count_all_conflicts_multi_eq_excess_witness :
    (Board.mk 4 [0, 0, 0, 0] [8, 1, 0, 2] [2, 2, 2, 2, 2, 2, 2] [0, 6, 0, 6, 0, 6, 0]).sized ∧
    ∃ b' v, count_all_conflicts_multi
        (Board.mk 4 [0, 0, 0, 0] [8, 1, 0, 2] [2, 2, 2, 2, 2, 2, 2] [0, 6, 0, 6, 0, 6, 0])
          = some (b', v) ∧
      v = excess 4 (fun r => [0, 0, 0, 0].getD r 0) +
          excess 4 (fun r => r + [0, 0, 0, 0].getD r 0) +
          excess 4 (fun (r : Nat) => (r : Int) - (([0, 0, 0, 0] : List Nat).getD r 0 : Int)) ∧
      v = 3 * 4 - ((col_lines [0, 0, 0, 0]).card + (d1_lines [0, 0, 0, 0]).card +
            (d2_lines [0, 0, 0, 0]).card) :=
  ⟨by decide, count_all_conflicts_multi_eq_excess
    (Board.mk 4 [0, 0, 0, 0] [8, 1, 0, 2] [2, 2, 2, 2, 2, 2, 2] [0, 6, 0, 6, 0, 6, 0])
    (by decide) (by decide) (by decide) (by decide)⟩

/-! ## The recount against the naive pairwise count -/

/-- Claim C6, at the failing input.  With every raw draw equal to 1,
`initial_placement` leaves the permutation `[1, 2, 3, 0]` on a 4-board.  The
recount then leaves the column and anti-diagonal counters consistent with the
assignment, but `d2_counts` is `[1, 0, 0, 0, 3, 0, 0]`, while the number of rows
with `(N - 1) + r - queen[r] = k` is `[0, 0, 3, 0, 0, 0, 1]` for `k = 0, ..., 6`:
the recount numbers a diagonal `(N - 1) + col - row`, the mirror image of the
numbering of `partial_conflicts`, `total_conflicts` and the swaps. -/
theorem count_all_conflicts_multi_d2_mirrored :
    initial_placement (fun _ => 1) (fresh 4) =
      some (Board.mk 4 [1, 2, 3, 0] [1, 1, 1, 1] [0, 0, 0, 4, 0, 2, 0] [0, 0, 5, 0, 0, 0, 3], 1) ∧
    count_all_conflicts_multi
        (Board.mk 4 [1, 2, 3, 0] [1, 1, 1, 1] [0, 0, 0, 4, 0, 2, 0] [0, 0, 5, 0, 0, 0, 3]) =
      some (Board.mk 4 [1, 2, 3, 0] [1, 1, 1, 1] [0, 1, 0, 2, 0, 1, 0] [1, 0, 0, 0, 3, 0, 0], 3) ∧
    (Board.mk 4 [1, 2, 3, 0] [1, 1, 1, 1] [0, 1, 0, 2, 0, 1, 0] [1, 0, 0, 0, 3, 0, 0]).col_consistent ∧
    (Board.mk 4 [1, 2, 3, 0] [1, 1, 1, 1] [0, 1, 0, 2, 0, 1, 0] [1, 0, 0, 0, 3, 0, 0]).d1_consistent ∧
    ¬ (Board.mk 4 [1, 2, 3, 0] [1, 1, 1, 1] [0, 1, 0, 2, 0, 1, 0] [1, 0, 0, 0, 3, 0, 0]).d2_consistent ∧
    (List.range 7).map (rows_on_d2 4 [1, 2, 3, 0]) = [0, 0, 3, 0, 0, 0, 1] ∧
    (List.range 7).map (rows_on_d2_mirrored 4 [1, 2, 3, 0]) = [1, 0, 0, 0, 3, 0, 0] := by
  decide

/-- Claim C3, at the failing input.  With every raw draw equal to 0,
`initial_placement` leaves all queens of a 4-board on the main diagonal, and the
recount leaves counters that are consistent with the assignment.  The row scan
of `main` then stops at row 1, and `total_conflicts(1, 0)`, the first candidate
of `min_conflicts_assignment(1)`, is `4294967293`, that is `-3` as an
`unsigned`, while swapping rows 1 and 0 and recounting gives 2 violations. -/
theorem total_conflicts_ne_recount :
    initial_placement (fun _ => 0) (fresh 4) =
      some (Board.mk 4 [0, 1, 2, 3] [1, 1, 1, 1] [1, 0, 3, 0, 3, 0, 3] [0, 0, 0, 5, 0, 0, 0], 1) ∧
    count_all_conflicts_multi
        (Board.mk 4 [0, 1, 2, 3] [1, 1, 1, 1] [1, 0, 3, 0, 3, 0, 3] [0, 0, 0, 5, 0, 0, 0]) =
      some (Board.mk 4 [0, 1, 2, 3] [1, 1, 1, 1] [1, 0, 1, 0, 1, 0, 1] [0, 0, 0, 4, 0, 0, 0], 3) ∧
    (Board.mk 4 [0, 1, 2, 3] [1, 1, 1, 1] [1, 0, 1, 0, 1, 0, 1] [0, 0, 0, 4, 0, 0, 0]).consistent ∧
    find_conflicted_row
      (Board.mk 4 [0, 1, 2, 3] [1, 1, 1, 1] [1, 0, 1, 0, 1, 0, 1] [0, 0, 0, 4, 0, 0, 0]) 1
        (usub 1 1) = some 1 ∧
    total_conflicts
      (Board.mk 4 [0, 1, 2, 3] [1, 1, 1, 1] [1, 0, 1, 0, 1, 0, 1] [0, 0, 0, 4, 0, 0, 0]) 1 0
        = some 4294967293 ∧
    swap_colummns
      (Board.mk 4 [0, 1, 2, 3] [1, 1, 1, 1] [1, 0, 1, 0, 1, 0, 1] [0, 0, 0, 4, 0, 0, 0]) 1 0
        = some (Board.mk 4 [1, 0, 2, 3] [1, 1, 1, 1] [0, 2, 0, 0, 1, 0, 1] [0, 0, 1, 2, 1, 0, 0]) ∧
    count_all_conflicts_multi
      (Board.mk 4 [1, 0, 2, 3] [1, 1, 1, 1] [0, 2, 0, 0, 1, 0, 1] [0, 0, 1, 2, 1, 0, 0])
        = some (Board.mk 4 [1, 0, 2, 3] [1, 1, 1, 1] [0, 2, 0, 0, 1, 0, 1] [0, 0, 1, 2, 1, 0, 0], 2) := by
  decide

/-! ## Occupancy under a swap -/

theorem countP_range_update (n : Nat) (p p' : Nat → Bool) (i : Nat) (hi : i < n)
    (h : ∀ r, r < n → r ≠ i → p' r = p r) :
    (List.range n).countP p' + (if p i then 1 else 0) =
      (List.range n).countP p + (if p' i then 1 else 0) := by
  induction n with
  | zero => omega
  | succ n ih =>
    rw [List.range_succ, List.countP_append, List.countP_append]
    simp only [List.countP_cons, List.countP_nil, Nat.zero_add]
    rcases Nat.lt_succ_iff_lt_or_eq.mp hi with hlt | heq
    · have := ih hlt (fun r hr hne => h r (Nat.lt_succ_of_lt hr) hne)
      have hn : p' n = p n := h n (Nat.lt_succ_self n) (by omega)
      rw [hn]
      omega
    · subst heq
      have hc : (List.range i).countP p' = (List.range i).countP p := by
        apply List.countP_congr
        intro r hr
        have hr' : r < i := List.mem_range.mp hr
        rw [h r (Nat.lt_succ_of_lt hr') (by omega)]
      rw [hc]
      omega

theorem countP_range_update2 (n : Nat) (p p' : Nat → Bool) (r1 r2 : Nat) (h1 : r1 < n)
    (h2 : r2 < n) (hne : r1 ≠ r2) (h : ∀ r, r < n → r ≠ r1 → r ≠ r2 → p' r = p r) :
    (List.range n).countP p' + (if p r1 then 1 else 0) + (if p r2 then 1 else 0) =
      (List.range n).countP p + (if p' r1 then 1 else 0) + (if p' r2 then 1 else 0) := by
  have ha := countP_range_update n p (fun r => if r = r1 then p' r else p r) r1 h1
    (fun r _ hr => by simp [hr])
  have hb := countP_range_update n (fun r => if r = r1 then p' r else p r) p' r2 h2
    (fun r hr hr2 => by
      by_cases e : r = r1
      · simp [e]
      · simp [e, h r hr e hr2])
  simp only [if_true, if_neg (Ne.symm hne)] at ha hb
  omega

theorem countP_range_ge (n : Nat) (p : Nat → Bool) (i : Nat) (hi : i < n) :
    (if p i then 1 else 0) ≤ (List.range n).countP p := by
  have := countP_range_update n p (fun r => if r = i then false else p r) i hi
    (fun r _ hr => by simp [hr])
  simp only [if_true, Bool.false_eq_true, if_false] at this
  omega

theorem countP_range_ge2 (n : Nat) (p : Nat → Bool) (r1 r2 : Nat) (h1 : r1 < n) (h2 : r2 < n)
    (hne : r1 ≠ r2) :
    (if p r1 then 1 else 0) + (if p r2 then 1 else 0) ≤ (List.range n).countP p := by
  have := countP_range_update2 n p (fun r => if r = r1 ∨ r = r2 then false else p r) r1 r2 h1 h2
    hne (fun r _ hr1 hr2 => by simp [hr1, hr2])
  simp only [true_or, or_true, if_true, Bool.false_eq_true, if_false] at this
  omega

/-- The assignment after `std::swap(queen[r1], queen[r2])`. -/
theorem swap_queen_getD (q : List Nat) (r1 r2 : Nat) (h1 : r1 < q.length) (h2 : r2 < q.length) :
    ∃ q', swap_queen q r1 r2 = some q' ∧ q'.length = q.length ∧
      ∀ r, q'.getD r 0 =
        if r = r2 then q.getD r1 0 else if r = r1 then q.getD r2 0 else q.getD r 0 := by
  refine ⟨(q.set r1 (q.getD r2 0)).set r2 (q.getD r1 0), ?_, by simp, ?_⟩
  · unfold swap_queen
    rw [List.getElem?_eq_getElem h1, List.getElem?_eq_getElem h2]
    simp only [List.getD_eq_getElem _ _ h1, List.getD_eq_getElem _ _ h2]
  · intro r
    rw [getD_set_eq _ _ _ _ (by simpa using h2), getD_set_eq _ _ _ _ h1]

/-- Occupancy of a line after a swap of two distinct rows, for any way `key` of
naming the line of a square. -/
theorem occupancy_swap {α : Type} [DecidableEq α] (key : Nat → Nat → α) (q q' : List Nat)
    (r1 r2 : Nat) (h1 : r1 < q.length) (h2 : r2 < q.length) (hne : r1 ≠ r2)
    (hl : q'.length = q.length)
    (hq' : ∀ r, q'.getD r 0 =
        if r = r2 then q.getD r1 0 else if r = r1 then q.getD r2 0 else q.getD r 0) (d : α) :
    (List.range q'.length).countP (fun r => key r (q'.getD r 0) = d) +
        (if key r1 (q.getD r1 0) = d then 1 else 0) +
        (if key r2 (q.getD r2 0) = d then 1 else 0) =
      (List.range q.length).countP (fun r => key r (q.getD r 0) = d) +
        (if key r1 (q.getD r2 0) = d then 1 else 0) +
        (if key r2 (q.getD r1 0) = d then 1 else 0) := by
  have := countP_range_update2 q.length (fun r => decide (key r (q.getD r 0) = d))
    (fun r => decide (key r (q'.getD r 0) = d)) r1 r2 h1 h2 hne
    (fun r _ hr1 hr2 => by simp only [hq' r, if_neg hr1, if_neg hr2])
  simp only [decide_eq_true_eq, hq' r1, hq' r2, if_true, if_neg hne] at this
  rw [hl]
  exact this

/-! ## Counter updates -/

theorem getElem?_of_getD {v : List Nat} {i : Nat} (hi : i < v.length) :
    v[i]? = some (v.getD i 0) := by
  rw [List.getElem?_eq_getElem hi, List.getD_eq_getElem _ _ hi]

theorem at_decr_guarded_ok (v : List Nat) (i : Nat) (hi : i < v.length) (hpos : 1 ≤ v.getD i 0)
    (hlt : v.getD i 0 < W) :
    ∃ v', at_decr_guarded v i = some v' ∧ v'.length = v.length ∧
      ∀ k, v'.getD k 0 + (if i = k then 1 else 0) = v.getD k 0 := by
  refine ⟨v.set i (v.getD i 0 - 1), ?_, by simp, ?_⟩
  · unfold at_decr_guarded
    rw [getElem?_of_getD hi]
    simp only [ne_eq]
    rw [if_pos (by omega), usub_le hpos hlt]
  · intro k
    rw [getD_set_eq _ _ _ _ hi]
    by_cases e : i = k
    · subst e; simp only [if_true]; omega
    · rw [if_neg e, if_neg (fun h => e h.symm)]; rfl

theorem at_incr_ok (v : List Nat) (i : Nat) (hi : i < v.length) (hlt : v.getD i 0 + 1 < W) :
    ∃ v', at_incr v i = some v' ∧ v'.length = v.length ∧
      ∀ k, v'.getD k 0 = v.getD k 0 + (if i = k then 1 else 0) := by
  refine ⟨v.set i (v.getD i 0 + 1), ?_, by simp, ?_⟩
  · unfold at_incr
    rw [getElem?_of_getD hi]
    simp only [uadd_lt hlt]
  · intro k
    rw [getD_set_eq _ _ _ _ hi]
    by_cases e : i = k
    · subst e; simp only [if_true]
    · rw [if_neg e, if_neg (fun h => e h.symm)]; rfl

/-- Two guarded decrements followed by two increments of one counter vector. -/
theorem counter_update (v : List Nat) (x1 x2 y1 y2 : Nat) (hx1 : x1 < v.length)
    (hx2 : x2 < v.length) (hy1 : y1 < v.length) (hy2 : y2 < v.length)
    (hpos : ∀ k, (if x1 = k then 1 else 0) + (if x2 = k then 1 else 0) ≤ v.getD k 0)
    (hW : ∀ k, v.getD k 0 + 2 < W) :
    ∃ v1 v2 v3 v4, at_decr_guarded v x1 = some v1 ∧ at_decr_guarded v1 x2 = some v2 ∧
      at_incr v2 y1 = some v3 ∧ at_incr v3 y2 = some v4 ∧ v4.length = v.length ∧
      ∀ k, v4.getD k 0 + (if x1 = k then 1 else 0) + (if x2 = k then 1 else 0) =
        v.getD k 0 + (if y1 = k then 1 else 0) + (if y2 = k then 1 else 0) := by
  obtain ⟨v1, e1, l1, g1⟩ := at_decr_guarded_ok v x1 hx1
    (by have a := hpos x1; rw [if_pos rfl] at a; omega) (by have := hW x1; omega)
  obtain ⟨v2, e2, l2, g2⟩ := at_decr_guarded_ok v1 x2 (by omega)
    (by
      have a := hpos x2; have c := g1 x2
      rw [if_pos rfl] at a
      by_cases e : x1 = x2
      · rw [if_pos e] at a c; omega
      · rw [if_neg e] at a c; omega)
    (by have := hW x2; have := g1 x2; omega)
  obtain ⟨v3, e3, l3, g3⟩ := at_incr_ok v2 y1 (by omega)
    (by have := hW y1; have := g1 y1; have := g2 y1; omega)
  obtain ⟨v4, e4, l4, g4⟩ := at_incr_ok v3 y2 (by omega)
    (by
      have := hW y2; have := g1 y2; have := g2 y2; have c := g3 y2
      by_cases e : y1 = y2
      · rw [if_pos e] at c; omega
      · rw [if_neg e] at c; omega)
  refine ⟨v1, v2, v3, v4, e1, e2, e3, e4, by omega, ?_⟩
  intro k
  have := g1 k; have := g2 k; have := g3 k; have := g4 k
  omega

theorem d1_index_eq {r c : Nat} (h : r + c < W) : d1_index r c = r + c := uadd_lt h

theorem d2_index_eq {N r c : Nat} (h1 : 1 ≤ N) (hr : r < N) (hc : c < N) (hN : N < 2147483648) :
    d2_index N r c = N - 1 + r - c := by
  have hW : W = 4294967296 := rfl
  unfold d2_index
  rw [usub_le h1 (by omega), uadd_lt (by omega), usub_le (by omega) (by omega)]

/-! ## C7: the full swap keeps the counters consistent -/

theorem rows_on_d1_le (q : List Nat) (k : Nat) : rows_on_d1 q k ≤ q.length := by
  unfold rows_on_d1
  simpa using List.countP_le_length (p := fun r => decide (r + q.getD r 0 = k)) (l := List.range q.length)

theorem rows_on_d2_le (N : Nat) (q : List Nat) (k : Nat) : rows_on_d2 N q k ≤ q.length := by
  unfold rows_on_d2
  simpa using List.countP_le_length (p := fun r => decide (N - 1 + r - q.getD r 0 = k))
    (l := List.range q.length)

theorem getD_eq_zero_of_le (v : List Nat) (k : Nat) (h : v.length ≤ k) : v.getD k 0 = 0 := by
  rw [List.getD_eq_getElem?_getD, List.getElem?_eq_none h]; rfl

/-- Claim C7. On a board whose three counters are consistent with the assignment
(vectors sized as in `main`, columns below `N`, `N` below `2^31`), for two
distinct rows `r1, r2 < N`, `swap_colummns(r1, r2)` returns, exchanges the column
values of `r1` and `r2`, leaves the column of every other row unchanged, and
leaves the column, anti-diagonal and diagonal counters consistent with the new
assignment. -/
theorem swap_colummns_consistent (b : Board) (hs : b.sized) (hN : b.N < 2147483648)
    (hq : b.cols_in_range) (hc : b.consistent) (r1 r2 : Nat) (h1 : r1 < b.N) (h2 : r2 < b.N)
    (hne : r1 ≠ r2) :
    ∃ b', swap_colummns b r1 r2 = some b' ∧
      b'.queen.getD r1 0 = b.queen.getD r2 0 ∧ b'.queen.getD r2 0 = b.queen.getD r1 0 ∧
      (∀ r, r ≠ r1 → r ≠ r2 → b'.queen.getD r 0 = b.queen.getD r 0) ∧
      b'.N = b.N ∧ b'.sized ∧ b'.consistent := by
  have hW : W = 4294967296 := rfl
  obtain ⟨hql, hcl, hd1l, hd2l⟩ := hs
  obtain ⟨hcc, hc1, hc2⟩ := hc
  have h1' : r1 < b.queen.length := by omega
  have h2' : r2 < b.queen.length := by omega
  have hq1 : b.queen.getD r1 0 < b.N := getD_lt_of_cols hq h1'
  have hq2 : b.queen.getD r2 0 < b.N := getD_lt_of_cols hq h2'
  obtain ⟨q', hsw, hl', hq'⟩ := swap_queen_getD b.queen r1 r2 h1' h2'
  -- the four squares
  have i11 : d1_index r1 (b.queen.getD r1 0) = r1 + b.queen.getD r1 0 := d1_index_eq (by omega)
  have i22 : d1_index r2 (b.queen.getD r2 0) = r2 + b.queen.getD r2 0 := d1_index_eq (by omega)
  have i12 : d1_index r1 (b.queen.getD r2 0) = r1 + b.queen.getD r2 0 := d1_index_eq (by omega)
  have i21 : d1_index r2 (b.queen.getD r1 0) = r2 + b.queen.getD r1 0 := d1_index_eq (by omega)
  have j11 := d2_index_eq (by omega) h1 hq1 hN
  have j22 := d2_index_eq (by omega) h2 hq2 hN
  have j12 := d2_index_eq (by omega) h1 hq2 hN
  have j21 := d2_index_eq (by omega) h2 hq1 hN
  -- the stored counts
  have hv1 : ∀ k, b.d1_counts.getD k 0 = rows_on_d1 b.queen k ∨
      (b.d1_counts.length ≤ k ∧ b.d1_counts.getD k 0 = 0) := by
    intro k
    by_cases hk : k < b.d1_counts.length
    · exact Or.inl (hc1 k hk)
    · exact Or.inr ⟨by omega, getD_eq_zero_of_le _ _ (by omega)⟩
  have hv2 : ∀ k, b.d2_counts.getD k 0 = rows_on_d2 b.N b.queen k ∨
      (b.d2_counts.length ≤ k ∧ b.d2_counts.getD k 0 = 0) := by
    intro k
    by_cases hk : k < b.d2_counts.length
    · exact Or.inl (hc2 k hk)
    · exact Or.inr ⟨by omega, getD_eq_zero_of_le _ _ (by omega)⟩
  have ge1 : ∀ k, (if r1 + b.queen.getD r1 0 = k then 1 else 0) +
      (if r2 + b.queen.getD r2 0 = k then 1 else 0) ≤ rows_on_d1 b.queen k := by
    intro k
    have := countP_range_ge2 b.queen.length (fun r => decide (r + b.queen.getD r 0 = k)) r1 r2
      h1' h2' hne
    simpa only [decide_eq_true_eq] using this
  have ge2 : ∀ k, (if b.N - 1 + r1 - b.queen.getD r1 0 = k then 1 else 0) +
      (if b.N - 1 + r2 - b.queen.getD r2 0 = k then 1 else 0) ≤ rows_on_d2 b.N b.queen k := by
    intro k
    have := countP_range_ge2 b.queen.length
      (fun r => decide (b.N - 1 + r - b.queen.getD r 0 = k)) r1 r2 h1' h2' hne
    simpa only [decide_eq_true_eq] using this
  obtain ⟨u1, u2, u3, u4, e1, e2, e3, e4, ul, ug⟩ := counter_update b.d1_counts
    (r1 + b.queen.getD r1 0) (r2 + b.queen.getD r2 0) (r1 + b.queen.getD r2 0)
    (r2 + b.queen.getD r1 0) (by omega) (by omega) (by omega) (by omega)
    (by
      intro k
      rcases hv1 k with h | ⟨hk, _⟩
      · rw [h]; exact ge1 k
      · rw [if_neg (by omega), if_neg (by omega)]; omega)
    (by
      intro k
      rcases hv1 k with h | ⟨_, h⟩
      · rw [h]; have := rows_on_d1_le b.queen k; omega
      · rw [h]; omega)
  obtain ⟨w1, w2, w3, w4, f1, f2, f3, f4, wl, wg⟩ := counter_update b.d2_counts
    (b.N - 1 + r1 - b.queen.getD r1 0) (b.N - 1 + r2 - b.queen.getD r2 0)
    (b.N - 1 + r1 - b.queen.getD r2 0) (b.N - 1 + r2 - b.queen.getD r1 0)
    (by omega) (by omega) (by omega) (by omega)
    (by
      intro k
      rcases hv2 k with h | ⟨hk, _⟩
      · rw [h]; exact ge2 k
      · rw [if_neg (by omega), if_neg (by omega)]; omega)
    (by
      intro k
      rcases hv2 k with h | ⟨_, h⟩
      · rw [h]; have := rows_on_d2_le b.N b.queen k; omega
      · rw [h]; omega)
  refine ⟨{ b with queen := q', d1_counts := u4, d2_counts := w4 }, ?_, ?_, ?_, ?_, rfl, ?_, ?_⟩
  · simp only [swap_colummns, getElem?_of_getD h1', getElem?_of_getD h2', i11, i22, i12, i21,
      j11, j22, j12, j21, e1, e2, e3, e4, f1, f2, f3, f4, hsw, Option.some_bind]
  · show q'.getD r1 0 = _
    rw [hq' r1, if_neg hne, if_pos rfl]
  · show q'.getD r2 0 = _
    rw [hq' r2, if_pos rfl]
  · intro r hr1 hr2
    show q'.getD r 0 = _
    rw [hq' r, if_neg hr2, if_neg hr1]
  · show q'.length = b.N ∧ b.col_counts.length = b.N ∧ u4.length = 2 * b.N - 1 ∧
      w4.length = 2 * b.N - 1
    omega
  · refine ⟨?_, ?_, ?_⟩
    · intro c hc'
      show b.col_counts.getD c 0 = rows_on_col q' c
      rw [hcc c hc']
      have := occupancy_swap (fun _ c => c) b.queen q' r1 r2 h1' h2' hne hl' hq' c
      unfold rows_on_col
      omega
    · intro k hk
      show u4.getD k 0 = rows_on_d1 q' k
      have hk' : k < u4.length := hk
      have := occupancy_swap (fun r c => r + c) b.queen q' r1 r2 h1' h2' hne hl' hq' k
      have := ug k
      have := hc1 k (by omega)
      unfold rows_on_d1 at *
      omega
    · intro k hk
      show w4.getD k 0 = rows_on_d2 b.N q' k
      have hk' : k < w4.length := hk
      have := occupancy_swap (fun r c => b.N - 1 + r - c) b.queen q' r1 r2 h1' h2' hne hl' hq' k
      have := wg k
      have := hc2 k (by omega)
      unfold rows_on_d2 at *
      omega

/-- An instance: rows 1 and 3 of the 4-board with all queens on the main diagonal. -/
theorem swap_colummns_consistent_witness :
    (Board.mk 4 [0, 1, 2, 3] [1, 1, 1, 1] [1, 0, 1, 0, 1, 0, 1] [0, 0, 0, 4, 0, 0, 0]).consistent ∧
    ∃ b', swap_colummns
        (Board.mk 4 [0, 1, 2, 3] [1, 1, 1, 1] [1, 0, 1, 0, 1, 0, 1] [0, 0, 0, 4, 0, 0, 0]) 1 3
          = some b' ∧
      b'.queen.getD 1 0 = 3 ∧ b'.queen.getD 3 0 = 1 ∧
      (∀ r, r ≠ 1 → r ≠ 3 → b'.queen.getD r 0 = [0, 1, 2, 3].getD r 0) ∧
      b'.N = 4 ∧ b'.sized ∧ b'.consistent :=
  ⟨by decide, swap_colummns_consistent
    (Board.mk 4 [0, 1, 2, 3] [1, 1, 1, 1] [1, 0, 1, 0, 1, 0, 1] [0, 0, 0, 4, 0, 0, 0])
    (by decide) (by decide) (by decide) (by decide) 1 3 (by decide) (by decide) (by decide)⟩

/-! ## C10: partial conflicts -/

theorem rows_on_d1_self (q : List Nat) (i : Nat) (hi : i < q.length) :
    rows_on_d1 q (i + q.getD i 0) = others_on_d1 q i + 1 := by
  have := countP_range_update q.length (fun r => decide (r + q.getD r 0 = i + q.getD i 0))
    (fun r => decide (r ≠ i ∧ r + q.getD r 0 = i + q.getD i 0)) i hi
    (fun r _ hr => by simp [hr])
  simp only [decide_eq_true_eq, ne_eq, not_true_eq_false, false_and, if_true, if_false] at this
  unfold rows_on_d1 others_on_d1
  simp only [ne_eq]
  omega

theorem rows_on_d2_self (N : Nat) (q : List Nat) (hq : ∀ c ∈ q, c < N) (i : Nat)
    (hi : i < q.length) :
    rows_on_d2 N q (N - 1 + i - q.getD i 0) = others_on_d2 q i + 1 := by
  have hcol : ∀ r, r < q.length → q.getD r 0 < N := fun r hr => getD_lt_of_cols hq hr
  have := countP_range_update q.length
    (fun r => decide (N - 1 + r - q.getD r 0 = N - 1 + i - q.getD i 0))
    (fun r => decide (r ≠ i ∧ (r : Int) - (q.getD r 0 : Int) = (i : Int) - (q.getD i 0 : Int)))
    i hi
    (fun r hr hne => by
      have := hcol r hr; have := hcol i hi
      simp only [ne_eq, hne, not_false_eq_true, true_and, decide_eq_decide]
      omega)
  simp only [decide_eq_true_eq, ne_eq, not_true_eq_false, false_and, if_true, if_false] at this
  unfold rows_on_d2 others_on_d2
  simp only [ne_eq]
  omega

/-- Claim C10. On a board whose diagonal counters are consistent with the
assignment (vectors sized as in `main`, columns below `N`, `N` below `2^31`), for
a row `i < N`: the two counter entries read by `partial_conflicts(i)` sum to at
least 2, so the subtraction of 2 does not wrap; `partial_conflicts(i)` is the
number of other rows on the anti-diagonal of row `i` plus the number of other
rows on its main diagonal; and it is 0 exactly when no other row shares a
diagonal with row `i`. -/
theorem partial_conflicts_counts_others (b : Board) (hs : b.sized) (hN : b.N < 2147483648)
    (hq : b.cols_in_range) (hc1 : b.d1_consistent) (hc2 : b.d2_consistent) (i : Nat)
    (hi : i < b.N) :
    ∃ a m, b.d1_counts[i + b.queen.getD i 0]? = some a ∧
      b.d2_counts[b.N - 1 + i - b.queen.getD i 0]? = some m ∧
      2 ≤ a + m ∧ a + m < W ∧
      partial_conflicts b i = some (a + m - 2) ∧
      a + m - 2 = others_on_d1 b.queen i + others_on_d2 b.queen i ∧
      (partial_conflicts b i = some 0 ↔
        ∀ r, r < b.N → r ≠ i →
          r + b.queen.getD r 0 ≠ i + b.queen.getD i 0 ∧
          (r : Int) - (b.queen.getD r 0 : Int) ≠ (i : Int) - (b.queen.getD i 0 : Int)) := by
  have hW : W = 4294967296 := rfl
  obtain ⟨hql, hcl, hd1l, hd2l⟩ := hs
  have hi' : i < b.queen.length := by omega
  have hqi : b.queen.getD i 0 < b.N := getD_lt_of_cols hq hi'
  have k1 : i + b.queen.getD i 0 < b.d1_counts.length := by omega
  have k2 : b.N - 1 + i - b.queen.getD i 0 < b.d2_counts.length := by omega
  have ea := hc1 _ k1
  have em := hc2 _ k2
  rw [rows_on_d1_self b.queen i hi'] at ea
  rw [rows_on_d2_self b.N b.queen hq i hi'] at em
  have l1 := rows_on_d1_le b.queen (i + b.queen.getD i 0)
  have l2 := rows_on_d2_le b.N b.queen (b.N - 1 + i - b.queen.getD i 0)
  rw [rows_on_d1_self b.queen i hi'] at l1
  rw [rows_on_d2_self b.N b.queen hq i hi'] at l2
  have hpc : partial_conflicts b i =
      some (b.d1_counts.getD (i + b.queen.getD i 0) 0 +
        b.d2_counts.getD (b.N - 1 + i - b.queen.getD i 0) 0 - 2) := by
    simp only [partial_conflicts, getElem?_of_getD hi', d1_index_eq (show i + b.queen.getD i 0 < W by omega),
      d2_index_eq (show 1 ≤ b.N by omega) hi hqi hN, getElem?_of_getD k1, getElem?_of_getD k2]
    rw [uadd_lt (by omega), usub_le (by omega) (by omega)]
  refine ⟨_, _, getElem?_of_getD k1, getElem?_of_getD k2, by omega, by omega, hpc, by omega, ?_⟩
  rw [hpc, Option.some.injEq]
  have hz : b.d1_counts.getD (i + b.queen.getD i 0) 0 +
      b.d2_counts.getD (b.N - 1 + i - b.queen.getD i 0) 0 - 2 = 0 ↔
      others_on_d1 b.queen i = 0 ∧ others_on_d2 b.queen i = 0 := by omega
  rw [hz]
  unfold others_on_d1 others_on_d2
  rw [List.countP_eq_zero, List.countP_eq_zero]
  simp only [List.mem_range, decide_eq_true_eq, not_and, hql]
  constructor
  · intro h r hr hne
    exact ⟨h.1 r hr hne, h.2 r hr hne⟩
  · intro h
    exact ⟨fun r hr hne => (h r hr hne).1, fun r hr hne => (h r hr hne).2⟩

/-- An instance: row 2 of the 4-board `[1, 0, 2, 3]`, which shares its main diagonal with row 3. -/
theorem partial_conflicts_counts_others_witness :
    (Board.mk 4 [1, 0, 2, 3] [1, 1, 1, 1] [0, 2, 0, 0, 1, 0, 1] [0, 0, 1, 2, 1, 0, 0]).d1_consistent ∧
    (Board.mk 4 [1, 0, 2, 3] [1, 1, 1, 1] [0, 2, 0, 0, 1, 0, 1] [0, 0, 1, 2, 1, 0, 0]).d2_consistent ∧
    ∃ a m, ([0, 2, 0, 0, 1, 0, 1] : List Nat)[2 + [1, 0, 2, 3].getD 2 0]? = some a ∧
      ([0, 0, 1, 2, 1, 0, 0] : List Nat)[4 - 1 + 2 - [1, 0, 2, 3].getD 2 0]? = some m ∧
      2 ≤ a + m ∧ a + m < W ∧
      partial_conflicts
        (Board.mk 4 [1, 0, 2, 3] [1, 1, 1, 1] [0, 2, 0, 0, 1, 0, 1] [0, 0, 1, 2, 1, 0, 0]) 2
          = some (a + m - 2) ∧
      a + m - 2 = others_on_d1 [1, 0, 2, 3] 2 + others_on_d2 [1, 0, 2, 3] 2 ∧
      (partial_conflicts
        (Board.mk 4 [1, 0, 2, 3] [1, 1, 1, 1] [0, 2, 0, 0, 1, 0, 1] [0, 0, 1, 2, 1, 0, 0]) 2
          = some 0 ↔
        ∀ r, r < 4 → r ≠ 2 →
          r + [1, 0, 2, 3].getD r 0 ≠ 2 + [1, 0, 2, 3].getD 2 0 ∧
          (r : Int) - (([1, 0, 2, 3] : List Nat).getD r 0 : Int) ≠
            (2 : Int) - (([1, 0, 2, 3] : List Nat).getD 2 0 : Int)) :=
  ⟨by decide, by decide, partial_conflicts_counts_others
    (Board.mk 4 [1, 0, 2, 3] [1, 1, 1, 1] [0, 2, 0, 0, 1, 0, 1] [0, 0, 1, 2, 1, 0, 0])
    (by decide) (by decide) (by decide) (by decide) (by decide) 2 (by decide)⟩

/-! ## Shape and permutation are preserved -/

theorem same_shape_refl (b : Board) : b.same_shape b := ⟨rfl, rfl, rfl, rfl, rfl⟩

theorem same_shape_trans {a b c : Board} (h1 : a.same_shape b) (h2 : b.same_shape c) :
    a.same_shape c := by
  unfold Board.same_shape at *
  omega

theorem sized_of_same_shape {b b' : Board} (h : b.same_shape b') (hs : b.sized) : b'.sized := by
  unfold Board.same_shape at h
  unfold Board.sized at *
  omega

theorem at_incr_length {v v' : List Nat} {i : Nat} (h : at_incr v i = some v') :
    v'.length = v.length := by
  unfold at_incr at h
  split at h
  · cases h
  · cases h; simp

theorem at_decr_length {v v' : List Nat} {i : Nat} (h : at_decr v i = some v') :
    v'.length = v.length := by
  unfold at_decr at h
  split at h
  · cases h
  · cases h; simp

theorem at_decr_guarded_length {v v' : List Nat} {i : Nat} (h : at_decr_guarded v i = some v') :
    v'.length = v.length := by
  unfold at_decr_guarded at h
  split at h
  · cases h
  · split at h
    · cases h; simp
    · cases h; rfl

theorem swap_queen_eq {q q' : List Nat} {r1 r2 : Nat} (h : swap_queen q r1 r2 = some q') :
    r1 < q.length ∧ r2 < q.length ∧ q' = (q.set r1 (q.getD r2 0)).set r2 (q.getD r1 0) := by
  unfold swap_queen at h
  split at h
  · rename_i c1 c2 e1 e2
    have h1 : r1 < q.length := (List.getElem?_eq_some_iff.mp e1).1
    have h2 : r2 < q.length := (List.getElem?_eq_some_iff.mp e2).1
    rw [getElem?_of_getD h1] at e1
    rw [getElem?_of_getD h2] at e2
    cases e1; cases e2; cases h
    exact ⟨h1, h2, rfl⟩
  · cases h

theorem count_set_add (l : List Nat) (i x a : Nat) (h : i < l.length) :
    (l.set i x).count a + (if l.getD i 0 = a then 1 else 0) =
      l.count a + (if x = a then 1 else 0) := by
  rw [List.count_set _ _ _ _ h, List.getD_eq_getElem _ _ h]
  have b1 := List.boole_getElem_le_countP (fun y => y == a) l i h
  rw [← List.count_eq_countP] at b1
  simp only [beq_iff_eq] at b1 ⊢
  by_cases e : l[i] = a
  · rw [if_pos e] at b1 ⊢; omega
  · rw [if_neg e] at b1 ⊢; omega

theorem set_set_perm (q : List Nat) (r1 r2 : Nat) (h1 : r1 < q.length) (h2 : r2 < q.length) :
    ((q.set r1 (q.getD r2 0)).set r2 (q.getD r1 0)).Perm q := by
  rw [List.perm_iff_count]
  intro a
  have hl : r2 < (q.set r1 (q.getD r2 0)).length := by simpa using h2
  have c1 := count_set_add (q.set r1 (q.getD r2 0)) r2 (q.getD r1 0) a hl
  have c2 := count_set_add q r1 (q.getD r2 0) a h1
  rw [getD_set_eq _ _ _ _ h1] at c1
  by_cases e : r2 = r1
  · subst e
    rw [if_pos rfl] at c1
    omega
  · rw [if_neg e] at c1
    omega

theorem swap_queen_perm {q q' : List Nat} {r1 r2 : Nat} (h : swap_queen q r1 r2 = some q') :
    q'.Perm q ∧ q'.length = q.length := by
  obtain ⟨h1, h2, rfl⟩ := swap_queen_eq h
  exact ⟨set_set_perm q r1 r2 h1 h2, by simp⟩

theorem partial_swap_shape {b b' : Board} {r1 r2 : Nat} (h : partial_swap b r1 r2 = some b') :
    b.same_shape b' ∧ b'.queen.Perm b.queen ∧ b'.col_counts = b.col_counts := by
  unfold partial_swap at h
  split at h
  · cases h
  · split at h
    · cases h
    · rename_i d1 e1
      split at h
      · cases h
      · rename_i d2 e2
        split at h
        · cases h
        · rename_i q eq
          cases h
          have := swap_queen_perm eq
          exact ⟨⟨rfl, this.2, rfl, at_incr_length e1, at_incr_length e2⟩, this.1, rfl⟩

theorem undo_partial_swap_shape {b b' : Board} {r1 r2 : Nat}
    (h : undo_partial_swap b r1 r2 = some b') :
    b.same_shape b' ∧ b'.queen.Perm b.queen ∧ b'.col_counts = b.col_counts := by
  unfold undo_partial_swap at h
  split at h
  · cases h
  · rename_i q eq
    split at h
    · cases h
    · split at h
      · cases h
      · rename_i d1 e1
        split at h
        · cases h
        · rename_i d2 e2
          cases h
          have := swap_queen_perm eq
          exact ⟨⟨rfl, this.2, rfl, at_decr_length e1, at_decr_length e2⟩, this.1, rfl⟩

theorem swap_colummns_shape {b b' : Board} {r1 r2 : Nat} (h : swap_colummns b r1 r2 = some b') :
    b.same_shape b' ∧ b'.queen.Perm b.queen ∧ b'.col_counts = b.col_counts := by
  unfold swap_colummns at h
  split at h
  · simp only [Option.bind_eq_some] at h
    obtain ⟨u1, e1, u2, e2, w1, f1, w2, f2, u3, e3, u4, e4, w3, f3, w4, f4, q, eq, hb⟩ := h
    cases hb
    have := swap_queen_perm eq
    refine ⟨⟨rfl, this.2, rfl, ?_, ?_⟩, this.1, rfl⟩
    · show u4.length = _
      rw [at_incr_length e4, at_incr_length e3, at_decr_guarded_length e2,
        at_decr_guarded_length e1]
    · show w4.length = _
      rw [at_incr_length f4, at_incr_length f3, at_decr_guarded_length f2,
        at_decr_guarded_length f1]
  · cases h

theorem _count_column_conflicts_length (ks : List Nat) : ∀ (cs : List Nat) (v : Nat)
    (cs' : List Nat) (v' : Nat), _count_column_conflicts ks cs v = some (cs', v') →
    cs'.length = cs.length := by
  induction ks with
  | nil => intro cs v cs' v' h; cases h; rfl
  | cons k ks ih =>
    intro cs v cs' v' h
    unfold _count_column_conflicts at h
    split at h
    · cases h
    · rw [ih _ _ _ _ h]; simp

theorem _count_diagonal1_conflicts_length (q : List Nat) : ∀ (s : Nat) (cs : List Nat) (v : Nat)
    (cs' : List Nat) (v' : Nat), _count_diagonal1_conflicts q s cs v = some (cs', v') →
    cs'.length = cs.length := by
  induction q with
  | nil => intro s cs v cs' v' h; cases h; rfl
  | cons k ks ih =>
    intro s cs v cs' v' h
    unfold _count_diagonal1_conflicts at h
    split at h
    · cases h
    · rw [ih _ _ _ _ _ h]; simp

theorem _count_diagonal2_conflicts_length (o : Nat) (q : List Nat) : ∀ (s : Nat) (cs : List Nat)
    (v : Nat) (cs' : List Nat) (v' : Nat),
    _count_diagonal2_conflicts o q s cs v = some (cs', v') → cs'.length = cs.length := by
  induction q with
  | nil => intro s cs v cs' v' h; cases h; rfl
  | cons k ks ih =>
    intro s cs v cs' v' h
    unfold _count_diagonal2_conflicts at h
    split at h
    · cases h
    · rw [ih _ _ _ _ _ h]; simp

theorem count_all_conflicts_multi_shape {b b' : Board} {v : Nat}
    (h : count_all_conflicts_multi b = some (b', v)) :
    b.same_shape b' ∧ b'.queen = b.queen := by
  unfold count_all_conflicts_multi at h
  split at h
  · rename_i cc cv d1 d1v d2 d2v e0 e1 e2
    cases h
    refine ⟨⟨rfl, rfl, ?_, ?_, ?_⟩, rfl⟩
    · show cc.length = _
      rw [_count_column_conflicts_length _ _ _ _ _ e0]; simp [fill]
    · show d1.length = _
      rw [_count_diagonal1_conflicts_length _ _ _ _ _ _ e1]; simp [fill]
    · show d2.length = _
      rw [_count_diagonal2_conflicts_length _ _ _ _ _ _ _ e2]; simp [fill]
  · cases h

theorem min_conflicts_assignment_shape {b b' : Board} {row1 v : Nat}
    (h : min_conflicts_assignment b row1 = some (b', v)) :
    b.same_shape b' ∧ b'.queen.Perm b.queen ∧ b'.col_counts = b.col_counts := by
  unfold min_conflicts_assignment at h
  split at h
  · cases h
  · split at h
    · split at h
      · cases h
      · rename_i b1 e
        cases h
        exact swap_colummns_shape e
    · cases h
      exact ⟨same_shape_refl _, List.Perm.refl _, rfl⟩

/-! ## The loops preserve shape and permutation -/

theorem placement_search_shape (rnd : Nat → Nat) (n : Nat) : ∀ (k lo : Nat) (b : Board)
    (row1 : Nat) (res : Board × Nat × Nat), placement_search rnd n k lo b row1 = some res →
    b.same_shape res.1 ∧ res.1.queen.Perm b.queen := by
  induction n with
  | zero =>
    intro k lo b row1 res h
    cases h
    exact ⟨same_shape_refl _, List.Perm.refl _⟩
  | succ n ih =>
    intro k lo b row1 res h
    unfold placement_search at h
    split at h
    · cases h
    · split at h
      · cases h
      · rename_i b1 e1
        have s1 := partial_swap_shape e1
        split at h
        · cases h
        · split at h
          · split at h
            · cases h
              exact ⟨s1.1, s1.2.1⟩
            · have := ih _ _ _ _ _ h
              exact ⟨same_shape_trans s1.1 this.1, this.2.trans s1.2.1⟩
          · split at h
            · cases h
            · rename_i b2 e2
              have s2 := undo_partial_swap_shape e2
              have := ih _ _ _ _ _ h
              exact ⟨same_shape_trans (same_shape_trans s1.1 s2.1) this.1,
                this.2.trans (s2.2.1.trans s1.2.1)⟩

theorem placement_force_shape (rnd : Nat → Nat) (n : Nat) : ∀ (k : Nat) (b : Board) (i : Nat)
    (b' : Board), placement_force rnd n k b i = some b' →
    b.same_shape b' ∧ b'.queen.Perm b.queen := by
  induction n with
  | zero =>
    intro k b i b' h
    cases h
    exact ⟨same_shape_refl _, List.Perm.refl _⟩
  | succ n ih =>
    intro k b i b' h
    unfold placement_force at h
    split at h
    · cases h
    · split at h
      · cases h
      · rename_i b1 e1
        have s1 := swap_colummns_shape e1
        split at h
        · cases h
        · split at h
          · rename_i d1 d2 f1 f2
            have := ih _ _ _ _ h
            refine ⟨same_shape_trans (same_shape_trans s1.1 ?_) this.1, this.2.trans s1.2.1⟩
            exact ⟨rfl, rfl, rfl, at_incr_length f1, at_incr_length f2⟩
          · cases h

theorem initial_placement_shape {rnd : Nat → Nat} {b b' : Board} {row1 : Nat}
    (hl : b.queen.length = b.N) (h : initial_placement rnd b = some (b', row1)) :
    b.same_shape b' ∧ b'.queen.Perm (List.range b.N) := by
  unfold initial_placement at h
  split at h
  · simp only at h
    split at h
    · cases h
    · rename_i b1 r1 k e1
      split at h
      · cases h
      · rename_i b2 e2
        cases h
        have s1 := placement_search_shape _ _ _ _ _ _ _ e1
        have s2 := placement_force_shape _ _ _ _ _ _ e2
        have hq0 : List.range b.N ++ List.drop b.N b.queen = List.range b.N := by
          rw [List.drop_of_length_le (by omega)]; simp
        simp only [hq0] at s1
        refine ⟨same_shape_trans (same_shape_trans ?_ s1.1) s2.1, s2.2.trans s1.2⟩
        exact ⟨rfl, by simp [hl], by simp [fill], by simp [fill], by simp [fill]⟩
  · cases h

theorem repair_shape (fuel0 old : Nat) (fuel : Nat) : ∀ (b : Board) (r attempt new : Nat)
    (b' : Board), repair fuel0 old fuel b r attempt new = some b' →
    b.same_shape b' ∧ b'.queen.Perm b.queen := by
  induction fuel with
  | zero => intro b r attempt new b' h; cases h
  | succ fuel ih =>
    intro b r attempt new b' h
    unfold repair at h
    split at h
    · split at h
      · cases h
      · split at h
        · cases h
        · rename_i b1 v1 e1
          have s1 := min_conflicts_assignment_shape e1
          split at h
          · cases h
          · rename_i b2 new1 e2
            have s2 := count_all_conflicts_multi_shape e2
            have s12 : b.same_shape b2 ∧ b2.queen.Perm b.queen :=
              ⟨same_shape_trans s1.1 s2.1, by rw [s2.2]; exact s1.2.1⟩
            split at h
            · cases h; exact s12
            · split at h
              · have := ih _ _ _ _ _ h
                exact ⟨same_shape_trans s12.1 this.1, this.2.trans s12.2⟩
              · have := ih _ _ _ _ _ h
                exact ⟨same_shape_trans s12.1 this.1, this.2.trans s12.2⟩
    · cases h
      exact ⟨same_shape_refl _, List.Perm.refl _⟩

/-- What a terminated restart loop delivers: the result of a recount that
returned 0 on a permutation. -/
theorem search_spec (seeds : Nat → Nat → Nat) (fuel : Nat) : ∀ (t restarts : Nat) (b b' : Board)
    (rs : Nat), b.queen.length = b.N → search seeds fuel t restarts b = some (b', rs) →
    b.same_shape b' ∧ b'.queen.Perm (List.range b.N) ∧
      ∃ b3, b.same_shape b3 ∧ b3.queen = b'.queen ∧
        count_all_conflicts_multi b3 = some (b', 0) := by
  induction fuel with
  | zero => intro t restarts b b' rs _ h; cases h
  | succ fuel ih =>
    intro t restarts b b' rs hl h
    unfold search at h
    split at h
    · cases h
    · rename_i b1 row1 e1
      have s1 := initial_placement_shape hl e1
      split at h
      · cases h
      · rename_i b2 new e2
        have s2 := count_all_conflicts_multi_shape e2
        split at h
        · cases h
        · rename_i b3 e3
          have s3 := repair_shape _ _ _ _ _ _ _ _ e3
          split at h
          · cases h
          · rename_i b4 c e4
            have s4 := count_all_conflicts_multi_shape e4
            have sh3 : b.same_shape b3 := same_shape_trans (same_shape_trans s1.1 s2.1) s3.1
            have sh4 : b.same_shape b4 := same_shape_trans sh3 s4.1
            split at h
            · have hl4 : b4.queen.length = b4.N := by
                unfold Board.same_shape at sh4; omega
              obtain ⟨a1, a2, a3⟩ := ih _ _ _ _ _ hl4 h
              have hN4 : b4.N = b.N := sh4.1
              rw [hN4] at a2
              obtain ⟨b5, a4, a5, a6⟩ := a3
              exact ⟨same_shape_trans sh4 a1, a2, b5, same_shape_trans sh4 a4, a5, a6⟩
            · rename_i hc
              have hc0 : c = 0 := by simpa using hc
              cases h
              subst hc0
              refine ⟨sh4, ?_, b3, sh3, s4.2.symm, e4⟩
              rw [s4.2]
              have : b3.queen.Perm b2.queen := s3.2
              rw [s2.2] at this
              exact this.trans s1.2

/-! ## C2: the controller stops only on a solution -/

theorem cols_in_range_of_perm {b : Board} (hp : b.queen.Perm (List.range b.N)) :
    b.cols_in_range := by
  intro c hc
  exact List.mem_range.mp (hp.mem_iff.mp hc)

theorem cols_distinct_of_perm {q : List Nat} {n : Nat} (hp : q.Perm (List.range n)) :
    ∀ j, j < q.length → ∀ i, i < j → q.getD i 0 ≠ q.getD j 0 := by
  intro j hj i hij e
  have hnd : q.Nodup := hp.nodup_iff.mpr (List.nodup_range n)
  have hi : i < q.length := lt_trans hij hj
  rw [List.getD_eq_getElem _ _ hi, List.getD_eq_getElem _ _ hj] at e
  have := (List.Nodup.getElem_inj_iff hnd).mp e
  omega

/-- The recount on a permutation: the column tally is 0, and the sum cannot wrap
for any `N` below `2^31`. -/
theorem recount_perm (b : Board) (hs : b.sized) (h1 : 1 ≤ b.N) (hN : b.N < 2147483648)
    (hp : b.queen.Perm (List.range b.N)) :
    ∃ b' v, count_all_conflicts_multi b = some (b', v) ∧
      (v = 0 ↔ valid_placement b.queen) ∧
      ∃ cc, _count_column_conflicts b.queen (fill b.col_counts 0) 0 = some (cc, 0) := by
  have hW : W = 4294967296 := rfl
  have hq := cols_in_range_of_perm hp
  obtain ⟨cc, d1, d2, cv, d1v, d2v, hrun, -, -, -, -, -, -, hc, hd1, hd2⟩ :=
    recount_spec b hs h1 hN hq
  have hl : b.queen.length = b.N := hs.1
  have hcard : (col_lines b.queen).card = b.queen.length :=
    (card_image_range_eq_iff _ _).mpr (cols_distinct_of_perm hp)
  have pd1 := card_image_range_pos b.queen.length (fun r => r + b.queen.getD r 0) (by omega)
  have pd2 := card_image_range_pos b.queen.length
    (fun (r : Nat) => (r : Int) - (b.queen.getD r 0 : Int)) (by omega)
  have hcv : cv = 0 := by omega
  subst hcv
  have hsum : uadd (uadd 0 d1v) d2v = d1v + d2v := by
    unfold d1_lines at hd1; unfold d2_lines at hd2
    rw [uadd_lt (a := 0) (by omega), uadd_lt (by omega)]; omega
  refine ⟨_, _, hrun, ?_, ?_⟩
  · rw [hsum, valid_placement_iff, hcard, hl]
    constructor
    · intro h; omega
    · intro h; omega
  · obtain ⟨cs', v', r0, _, _, hcnt⟩ := tally_zero (fun _ c => c) b.queen b.N
      (fun i hi => getD_lt_of_cols hq hi) (by omega)
    rw [keysFrom_col] at r0
    have hfill : fill b.col_counts 0 = List.replicate b.N 0 := by
      unfold fill; rw [hs.2.1]
    unfold col_lines at hcard
    have : v' = 0 := by omega
    subst this
    rw [hfill]
    exact ⟨cs', r0⟩

theorem fresh_sized (N : Nat) (h1 : 1 ≤ N) (hN : N < 2147483648) : (fresh N).sized := by
  have hW : W = 4294967296 := rfl
  have e : usub (2 * N % W) 1 = 2 * N - 1 := by
    rw [Nat.mod_eq_of_lt (by omega), usub_le (by omega) (by omega)]
  unfold Board.sized fresh
  simp only [List.length_replicate, e, and_self]

/-- Claim C2. Partial correctness of the controller.  For every `N` that `main`
accepts (not 2 or 3; below `2^31`, since it is parsed as an `int`), every family
of streams of random draws and every bound on the number of iterations: if the
restart loop of `main` terminates, then the final assignment is a permutation of
`0, ..., N - 1` in which no two rows share a column, a value of `row + col` or a
value of `row - col`, and a recount of the final board returns 0. -/
theorem main_terminates_only_on_solution (seeds : Nat → Nat → Nat) (fuel N : Nat)
    (res : Board × Nat) (hN : N < 2147483648) (h : main seeds fuel N = some (some res)) :
    N ≠ 2 ∧ N ≠ 3 ∧ res.1.N = N ∧ res.1.queen.Perm (List.range N) ∧
      valid_placement res.1.queen ∧
      ∃ b', count_all_conflicts_multi res.1 = some (b', 0) := by
  unfold main at h
  split at h
  · cases h
  · rename_i hacc
    split at h
    · cases h
    · rename_i r e
      have hr : r = res := by injection h with h; injection h
      subst hr
      obtain ⟨b', rs⟩ := r
      have hl0 : (fresh N).queen.length = (fresh N).N := by simp [fresh]
      obtain ⟨sh, hp, b3, sh3, hq3, hc3⟩ := search_spec seeds fuel _ _ _ _ _ hl0 e
      have hNf : (fresh N).N = N := rfl
      rw [hNf] at hp
      refine ⟨fun h2 => hacc (Or.inl h2), fun h3 => hacc (Or.inr h3), sh.1, hp, ?_⟩
      show valid_placement b'.queen ∧ ∃ b'', count_all_conflicts_multi b' = some (b'', 0)
      by_cases h1 : 1 ≤ N
      · have hs0 := fresh_sized N h1 hN
        have hs3 : b3.sized := sized_of_same_shape sh3 hs0
        have hs' : b'.sized := sized_of_same_shape sh hs0
        have hN3 : b3.N = N := sh3.1
        have hN' : b'.N = N := sh.1
        obtain ⟨b4, v, r1, i1, _⟩ := recount_perm b3 hs3 (by omega) (by omega)
          (by rw [hq3, hN3]; exact hp)
        rw [hc3] at r1
        cases r1
        have hv : valid_placement b'.queen := by rw [← hq3]; exact i1.mp rfl
        obtain ⟨b5, v', r2, i2, _⟩ := recount_perm b' hs' (by omega) (by omega)
          (by rw [hN']; exact hp)
        have : v' = 0 := i2.mpr hv
        subst this
        exact ⟨hv, b5, r2⟩
      · have hN0 : N = 0 := by omega
        subst hN0
        have hnil : b'.queen = [] := List.Perm.eq_nil hp
        refine ⟨?_, ?_⟩
        · intro j hj; rw [hnil] at hj; simp at hj
        · refine ⟨{ b' with col_counts := fill b'.col_counts 0, d1_counts := fill b'.d1_counts 0,
                              d2_counts := fill b'.d2_counts 0 }, ?_⟩
          simp only [count_all_conflicts_multi, hnil, _count_column_conflicts,
            _count_diagonal1_conflicts, _count_diagonal2_conflicts]
          rfl

/-- An instance: a run for `N = 4` in which the first placement is already a solution. -/
theorem main_terminates_only_on_solution_witness :
    main (fun _ k => [1, 2, 1, 0].getD k 0) 1 4 =
      some (some (Board.mk 4 [1, 3, 0, 2] [1, 1, 1, 1] [0, 1, 1, 0, 1, 1, 0] [0, 1, 1, 0, 1, 1, 0], 0)) ∧
    (4 ≠ 2 ∧ 4 ≠ 3 ∧
      (Board.mk 4 [1, 3, 0, 2] [1, 1, 1, 1] [0, 1, 1, 0, 1, 1, 0] [0, 1, 1, 0, 1, 1, 0]).N = 4 ∧
      [1, 3, 0, 2].Perm (List.range 4) ∧ valid_placement [1, 3, 0, 2] ∧
      ∃ b', count_all_conflicts_multi
        (Board.mk 4 [1, 3, 0, 2] [1, 1, 1, 1] [0, 1, 1, 0, 1, 1, 0] [0, 1, 1, 0, 1, 1, 0])
          = some (b', 0)) :=
  ⟨by decide, main_terminates_only_on_solution (fun _ k => [1, 2, 1, 0].getD k 0) 1 4
    (Board.mk 4 [1, 3, 0, 2] [1, 1, 1, 1] [0, 1, 1, 0, 1, 1, 0] [0, 1, 1, 0, 1, 1, 0], 0)
    (by decide) (by decide)⟩

/-! ## C9: the move selector -/

theorem uadd_lt_W (a b : Nat) : uadd a b < W := Nat.mod_lt _ (by decide)

theorem usub_lt_W (a b : Nat) : usub a b < W := Nat.mod_lt _ (by decide)

theorem d1_index_lt {N r c : Nat} (hr : r < N) (hc : c < N) (hN : N < 2147483648) :
    d1_index r c < 2 * N - 1 := by
  have hW : W = 4294967296 := rfl
  rw [d1_index_eq (by omega)]; omega

theorem d2_index_lt {N r c : Nat} (hr : r < N) (hc : c < N) (hN : N < 2147483648) :
    d2_index N r c < 2 * N - 1 := by
  rw [d2_index_eq (by omega) hr hc hN]; omega

theorem at_incr_some (v : List Nat) (i : Nat) (hi : i < v.length) :
    ∃ v', at_incr v i = some v' := by
  unfold at_incr; rw [getElem?_of_getD hi]; exact ⟨_, rfl⟩

theorem at_decr_some (v : List Nat) (i : Nat) (hi : i < v.length) :
    ∃ v', at_decr v i = some v' := by
  unfold at_decr; rw [getElem?_of_getD hi]; exact ⟨_, rfl⟩

theorem at_decr_guarded_some (v : List Nat) (i : Nat) (hi : i < v.length) :
    ∃ v', at_decr_guarded v i = some v' := by
  unfold at_decr_guarded; rw [getElem?_of_getD hi]
  simp only
  split
  · exact ⟨_, rfl⟩
  · exact ⟨_, rfl⟩

/-- `total_conflicts` returns on a well-formed board, and what it returns is a
32-bit word. -/
theorem total_conflicts_some (b : Board) (hs : b.sized) (hN : b.N < 2147483648)
    (hq : b.cols_in_range) (r1 r2 : Nat) (h1 : r1 < b.N) (h2 : r2 < b.N) :
    ∃ v, total_conflicts b r1 r2 = some v ∧ v < W := by
  obtain ⟨hql, hcl, hd1l, hd2l⟩ := hs
  have h1' : r1 < b.queen.length := by omega
  have h2' : r2 < b.queen.length := by omega
  have hq1 : b.queen.getD r1 0 < b.N := getD_lt_of_cols hq h1'
  have hq2 : b.queen.getD r2 0 < b.N := getD_lt_of_cols hq h2'
  have a1 : d1_index r1 (b.queen.getD r2 0) < b.d1_counts.length := by
    rw [hd1l]; exact d1_index_lt h1 hq2 hN
  have a2 : d1_index r2 (b.queen.getD r1 0) < b.d1_counts.length := by
    rw [hd1l]; exact d1_index_lt h2 hq1 hN
  have m1 : d2_index b.N r1 (b.queen.getD r2 0) < b.d2_counts.length := by
    rw [hd2l]; exact d2_index_lt h1 hq2 hN
  have m2 : d2_index b.N r2 (b.queen.getD r1 0) < b.d2_counts.length := by
    rw [hd2l]; exact d2_index_lt h2 hq1 hN
  simp only [total_conflicts, getElem?_of_getD h1', getElem?_of_getD h2', getElem?_of_getD a1,
    getElem?_of_getD a2, getElem?_of_getD m1, getElem?_of_getD m2]
  refine ⟨_, rfl, ?_⟩
  split <;> split <;> exact uadd_lt_W _ _

theorem filter_range_succ (p : Nat → Bool) (n : Nat) :
    (List.range (n + 1)).filter p = (List.range n).filter p ++ (if p n then [n] else []) := by
  rw [List.range_succ, List.filter_append]
  by_cases h : p n = true
  · simp [h]
  · simp [h]

/-- The loop of `min_conflicts_assignment`, from any state reached without a
zero candidate: `tc r` is what `total_conflicts(row1, r)` returns. -/
theorem min_conflicts_scan_spec (b : Board) (row1 : Nat) (tc : Nat → Nat)
    (htc : ∀ r, r < b.N → r ≠ row1 → total_conflicts b row1 r = some (tc r))
    (hle : ∀ r, tc r ≤ W - 1) (hN : b.N < W - 1) (n : Nat) :
    ∀ (row2 lowest best : Nat) (examined : List Nat), row2 + n = b.N →
      (∀ r, r < row2 → r ≠ row1 → lowest ≤ tc r ∧ 0 < tc r) →
      ((lowest = W - 1 ∧ best = W - 1 ∧ ∀ r, r < row2 → r ≠ row1 → tc r = W - 1) ∨
        (best < row2 ∧ best ≠ row1 ∧ tc best = lowest ∧ lowest < W - 1 ∧
          ∀ r, r < best → r ≠ row1 → lowest < tc r)) →
      examined = (List.range row2).filter (fun r => decide (r ≠ row1)) →
      ∃ m best' ex', min_conflicts_scan b row1 n row2 lowest best examined = some (m, best', ex') ∧
        (∀ r, r < b.N → r ≠ row1 → m ≤ tc r) ∧
        ((m = W - 1 ∧ best' = W - 1 ∧ ∀ r, r < b.N → r ≠ row1 → tc r = W - 1) ∨
          (best' < b.N ∧ best' ≠ row1 ∧ tc best' = m ∧ m < W - 1 ∧
            ∀ r, r < best' → r ≠ row1 → m < tc r)) ∧
        ex' = (List.range (if m = 0 then best' + 1 else b.N)).filter
          (fun r => decide (r ≠ row1)) := by
  have hW : W = 4294967296 := rfl
  induction n with
  | zero =>
    intro row2 lowest best examined hrow i1 i2 i3
    have e : row2 = b.N := by omega
    subst e
    refine ⟨lowest, best, examined, rfl, fun r hr hne => (i1 r hr hne).1, i2, ?_⟩
    have hpos : lowest ≠ 0 := by
      rcases i2 with ⟨h, _, _⟩ | ⟨h1, h2, h3, _, _⟩
      · omega
      · have := (i1 best h1 h2).2; omega
    rw [if_neg hpos]; exact i3
  | succ n ih =>
    intro row2 lowest best examined hrow i1 i2 i3
    have hr2 : row2 < b.N := by omega
    have hs : uadd row2 1 = row2 + 1 := uadd_lt (by omega)
    unfold min_conflicts_scan
    by_cases e : row1 = row2
    · rw [if_pos e, hs]
      apply ih (row2 + 1) lowest best examined (by omega)
      · intro r hr hne
        exact i1 r (by omega) hne
      · rcases i2 with ⟨h1, h2, h3⟩ | ⟨h1, h2, h3, h4, h5⟩
        · exact Or.inl ⟨h1, h2, fun r hr hne => h3 r (by omega) hne⟩
        · exact Or.inr ⟨by omega, h2, h3, h4, h5⟩
      · rw [filter_range_succ, i3]
        simp [e]
    · rw [if_neg e, htc row2 hr2 (fun h => e h.symm), hs]
      simp only
      have hex : examined ++ [row2] =
          (List.range (row2 + 1)).filter (fun r => decide (r ≠ row1)) := by
        rw [filter_range_succ, i3]
        have : decide (row2 ≠ row1) = true := by simpa using fun h => e h.symm
        rw [if_pos this]
      by_cases hlt : tc row2 < lowest
      · rw [if_pos hlt]
        by_cases hz : tc row2 = 0
        · rw [if_pos hz]
          refine ⟨tc row2, row2, _, rfl, ?_, ?_, ?_⟩
          · intro r _ _; omega
          · refine Or.inr ⟨hr2, fun h => e h.symm, rfl, by omega, ?_⟩
            intro r hr hne
            have := (i1 r hr hne).2
            omega
          · rw [if_pos hz]; exact hex
        · rw [if_neg hz]
          apply ih (row2 + 1) (tc row2) row2 _ (by omega)
          · intro r hr hne
            rcases Nat.lt_succ_iff_lt_or_eq.mp hr with h | h
            · have := i1 r h hne; omega
            · subst h; omega
          · refine Or.inr ⟨by omega, fun h => e h.symm, rfl, ?_, ?_⟩
            · have := hle row2
              rcases i2 with ⟨h1, _, _⟩ | ⟨_, _, _, h4, _⟩ <;> omega
            · intro r hr hne
              have := i1 r hr hne; omega
          · exact hex
      · rw [if_neg hlt]
        apply ih (row2 + 1) lowest best _ (by omega)
        · intro r hr hne
          rcases Nat.lt_succ_iff_lt_or_eq.mp hr with h | h
          · exact i1 r h hne
          · subst h
            have hpos : 0 < lowest := by
              rcases i2 with ⟨h, _, _⟩ | ⟨h1, h2, h3, _, _⟩
              · omega
              · have := (i1 best h1 h2).2; omega
            omega
        · rcases i2 with ⟨h1, h2, h3⟩ | ⟨h1, h2, h3, h4, h5⟩
          · refine Or.inl ⟨h1, h2, ?_⟩
            intro r hr hne
            rcases Nat.lt_succ_iff_lt_or_eq.mp hr with h | h
            · exact h3 r h hne
            · subst h; have := hle r; omega
          · exact Or.inr ⟨by omega, h2, h3, h4, h5⟩
        · exact hex


theorem usub_zero_one : usub 0 1 = W - 1 := by decide

theorem swap_queen_some (q : List Nat) (r1 r2 : Nat) (h1 : r1 < q.length) (h2 : r2 < q.length) :
    ∃ q', swap_queen q r1 r2 = some q' := by
  obtain ⟨q', h, _⟩ := swap_queen_getD q r1 r2 h1 h2
  exact ⟨q', h⟩

/-- `swap_colummns` returns on a well-formed board, whatever the counters hold. -/
theorem swap_colummns_some (b : Board) (hs : b.sized) (hN : b.N < 2147483648)
    (hq : b.cols_in_range) (r1 r2 : Nat) (h1 : r1 < b.N) (h2 : r2 < b.N) :
    ∃ b', swap_colummns b r1 r2 = some b' := by
  obtain ⟨hql, hcl, hd1l, hd2l⟩ := hs
  have h1' : r1 < b.queen.length := by omega
  have h2' : r2 < b.queen.length := by omega
  have hq1 : b.queen.getD r1 0 < b.N := getD_lt_of_cols hq h1'
  have hq2 : b.queen.getD r2 0 < b.N := getD_lt_of_cols hq h2'
  obtain ⟨u1, e1⟩ := at_decr_guarded_some b.d1_counts (d1_index r1 (b.queen.getD r1 0))
    (by rw [hd1l]; exact d1_index_lt h1 hq1 hN)
  obtain ⟨u2, e2⟩ := at_decr_guarded_some u1 (d1_index r2 (b.queen.getD r2 0))
    (by rw [at_decr_guarded_length e1, hd1l]; exact d1_index_lt h2 hq2 hN)
  obtain ⟨w1, f1⟩ := at_decr_guarded_some b.d2_counts (d2_index b.N r1 (b.queen.getD r1 0))
    (by rw [hd2l]; exact d2_index_lt h1 hq1 hN)
  obtain ⟨w2, f2⟩ := at_decr_guarded_some w1 (d2_index b.N r2 (b.queen.getD r2 0))
    (by rw [at_decr_guarded_length f1, hd2l]; exact d2_index_lt h2 hq2 hN)
  obtain ⟨u3, e3⟩ := at_incr_some u2 (d1_index r1 (b.queen.getD r2 0))
    (by rw [at_decr_guarded_length e2, at_decr_guarded_length e1, hd1l]
        exact d1_index_lt h1 hq2 hN)
  obtain ⟨u4, e4⟩ := at_incr_some u3 (d1_index r2 (b.queen.getD r1 0))
    (by rw [at_incr_length e3, at_decr_guarded_length e2, at_decr_guarded_length e1, hd1l]
        exact d1_index_lt h2 hq1 hN)
  obtain ⟨w3, f3⟩ := at_incr_some w2 (d2_index b.N r1 (b.queen.getD r2 0))
    (by rw [at_decr_guarded_length f2, at_decr_guarded_length f1, hd2l]
        exact d2_index_lt h1 hq2 hN)
  obtain ⟨w4, f4⟩ := at_incr_some w3 (d2_index b.N r2 (b.queen.getD r1 0))
    (by rw [at_incr_length f3, at_decr_guarded_length f2, at_decr_guarded_length f1, hd2l]
        exact d2_index_lt h2 hq1 hN)
  obtain ⟨q', eq⟩ := swap_queen_some b.queen r1 r2 h1' h2'
  refine ⟨{ b with queen := q', d1_counts := u4, d2_counts := w4 }, ?_⟩
  simp only [swap_colummns, getElem?_of_getD h1', getElem?_of_getD h2', e1, e2, e3, e4,
    f1, f2, f3, f4, eq, Option.some_bind]

/-- `min_conflicts_assignment` returns on a well-formed board, whatever the
counters hold. -/
theorem min_conflicts_assignment_some (b : Board) (hs : b.sized) (hN : b.N < 2147483648)
    (hq : b.cols_in_range) (row1 : Nat) (h1 : row1 < b.N) :
    ∃ b' m, min_conflicts_assignment b row1 = some (b', m) := by
  have hW : W = 4294967296 := rfl
  have htc : ∀ r, r < b.N → r ≠ row1 →
      total_conflicts b row1 r =
        some (if r < b.N then (total_conflicts b row1 r).getD 0 else 0) := by
    intro r hr _
    obtain ⟨v, hv, _⟩ := total_conflicts_some b hs hN hq row1 r h1 hr
    rw [if_pos hr, hv]; rfl
  have hle : ∀ r, (if r < b.N then (total_conflicts b row1 r).getD 0 else 0) ≤ W - 1 := by
    intro r
    by_cases hr : r < b.N
    · obtain ⟨v, hv, hvW⟩ := total_conflicts_some b hs hN hq row1 r h1 hr
      rw [if_pos hr, hv]
      show v ≤ W - 1
      omega
    · rw [if_neg hr]; omega
  obtain ⟨m, best, ex, hscan, _, p2, _⟩ := min_conflicts_scan_spec b row1 _ htc hle (by omega)
    b.N 0 (W - 1) (W - 1) [] (by omega) (fun r hr _ => by omega)
    (Or.inl ⟨rfl, rfl, fun r hr _ => by omega⟩) (by simp)
  rw [← usub_zero_one] at hscan
  rcases p2 with ⟨_, hb, _⟩ | ⟨hb, _, _, _, _⟩
  · refine ⟨b, m, ?_⟩
    simp only [min_conflicts_assignment, hscan]
    rw [if_neg (by rw [hb, usub_zero_one]; simp)]
  · obtain ⟨b', hsw⟩ := swap_colummns_some b hs hN hq row1 best h1 hb
    refine ⟨b', m, ?_⟩
    simp only [min_conflicts_assignment, hscan]
    rw [if_pos (by rw [usub_zero_one]; omega)]
    simp only [hsw]

/-- Claim C9. On a well-formed board (vectors sized as in `main`, columns below
`N`) with `2 ≤ N < 2^31` and `row1 < N`, whatever the counters hold,
`min_conflicts_assignment(row1)` returns the minimum `m`, as unsigned 32-bit
values, of `total_conflicts(row1, row2)` over the rows `row2 ≠ row1`.  Whenever
`m` is below the sentinel `2^32 - 1` it commits the swap of `row1` with `best`,
the lowest-index row that attains `m`; otherwise (no candidate is below the
sentinel) it leaves the board as it is.  The rows for which `total_conflicts` is
called are the rows other than `row1` in increasing order, up to and including
`best` when `m = 0` (the first candidate that evaluates to 0), all of them
otherwise. -/
theorem min_conflicts_assignment_spec (b : Board) (hs : b.sized) (h2 : 2 ≤ b.N)
    (hN : b.N < 2147483648) (hq : b.cols_in_range) (row1 : Nat) (h1 : row1 < b.N) :
    ∃ b' m best examined,
      min_conflicts_scan b row1 b.N 0 (usub 0 1) (usub 0 1) [] = some (m, best, examined) ∧
      min_conflicts_assignment b row1 = some (b', m) ∧
      (∃ r2, r2 < b.N ∧ r2 ≠ row1 ∧ total_conflicts b row1 r2 = some m) ∧
      (∀ r2, r2 < b.N → r2 ≠ row1 → ∃ v, total_conflicts b row1 r2 = some v ∧ m ≤ v) ∧
      (m < W - 1 →
        best < b.N ∧ best ≠ row1 ∧ total_conflicts b row1 best = some m ∧
        (∀ r, r < best → r ≠ row1 → ∃ v, total_conflicts b row1 r = some v ∧ m < v) ∧
        swap_colummns b row1 best = some b') ∧
      (m = W - 1 → b' = b) ∧
      examined = (List.range (if m = 0 then best + 1 else b.N)).filter
        (fun r => decide (r ≠ row1)) := by
  have hW : W = 4294967296 := rfl
  have htc : ∀ r, r < b.N → r ≠ row1 →
      total_conflicts b row1 r =
        some (if r < b.N then (total_conflicts b row1 r).getD 0 else 0) := by
    intro r hr _
    obtain ⟨v, hv, _⟩ := total_conflicts_some b hs hN hq row1 r h1 hr
    rw [if_pos hr, hv]; rfl
  have hle : ∀ r, (if r < b.N then (total_conflicts b row1 r).getD 0 else 0) ≤ W - 1 := by
    intro r
    by_cases hr : r < b.N
    · obtain ⟨v, hv, hvW⟩ := total_conflicts_some b hs hN hq row1 r h1 hr
      rw [if_pos hr, hv]
      show v ≤ W - 1
      omega
    · rw [if_neg hr]; omega
  obtain ⟨m, best, ex, hscan, p1, p2, p3⟩ := min_conflicts_scan_spec b row1 _ htc hle (by omega)
    b.N 0 (W - 1) (W - 1) [] (by omega) (fun r hr _ => by omega)
    (Or.inl ⟨rfl, rfl, fun r hr _ => by omega⟩) (by simp)
  rw [← usub_zero_one] at hscan
  have hmin : ∀ r2, r2 < b.N → r2 ≠ row1 →
      ∃ v, total_conflicts b row1 r2 = some v ∧ m ≤ v := by
    intro r2 hr hne
    exact ⟨_, htc r2 hr hne, p1 r2 hr hne⟩
  rcases p2 with ⟨hm, hb, hall⟩ | ⟨hb, hbne, htb, hm, hfirst⟩
  · -- every candidate is the sentinel: no swap
    refine ⟨b, m, best, ex, hscan, ?_, ?_, hmin, ?_, fun _ => rfl, p3⟩
    · simp only [min_conflicts_assignment, hscan]
      rw [if_neg (by rw [hb, usub_zero_one]; simp)]
    · by_cases h0 : row1 = 0
      · refine ⟨1, by omega, by omega, ?_⟩
        rw [htc 1 (by omega) (by omega), hall 1 (by omega) (by omega), hm]
      · refine ⟨0, by omega, fun h => h0 h.symm, ?_⟩
        rw [htc 0 (by omega) (fun h => h0 h.symm), hall 0 (by omega) (fun h => h0 h.symm), hm]
    · intro h; omega
  · obtain ⟨b', hsw⟩ := swap_colummns_some b hs hN hq row1 best h1 hb
    have htb' : total_conflicts b row1 best = some m := by rw [htc best hb hbne, htb]
    refine ⟨b', m, best, ex, hscan, ?_, ⟨best, hb, hbne, htb'⟩, hmin, ?_, ?_, p3⟩
    · simp only [min_conflicts_assignment, hscan]
      rw [if_pos (by rw [usub_zero_one]; omega)]
      simp only [hsw]
    · intro _
      refine ⟨hb, hbne, htb', ?_, hsw⟩
      intro r hr hne
      exact ⟨_, htc r (by omega) hne, hfirst r hr hne⟩
    · intro h; omega

/-- An instance: row 1 of the 4-board with all queens on the main diagonal. -/
theorem min_conflicts_assignment_spec_witness :
    (Board.mk 4 [0, 1, 2, 3] [1, 1, 1, 1] [1, 0, 1, 0, 1, 0, 1] [0, 0, 0, 4, 0, 0, 0]).sized ∧
    (Board.mk 4 [0, 1, 2, 3] [1, 1, 1, 1] [1, 0, 1, 0, 1, 0, 1] [0, 0, 0, 4, 0, 0, 0]).cols_in_range ∧
    ∃ b' m best examined,
      min_conflicts_scan
        (Board.mk 4 [0, 1, 2, 3] [1, 1, 1, 1] [1, 0, 1, 0, 1, 0, 1] [0, 0, 0, 4, 0, 0, 0])
        1 4 0 (usub 0 1) (usub 0 1) [] = some (m, best, examined) ∧
      min_conflicts_assignment
        (Board.mk 4 [0, 1, 2, 3] [1, 1, 1, 1] [1, 0, 1, 0, 1, 0, 1] [0, 0, 0, 4, 0, 0, 0]) 1
          = some (b', m) ∧
      (∃ r2, r2 < 4 ∧ r2 ≠ 1 ∧ total_conflicts
        (Board.mk 4 [0, 1, 2, 3] [1, 1, 1, 1] [1, 0, 1, 0, 1, 0, 1] [0, 0, 0, 4, 0, 0, 0]) 1 r2
          = some m) ∧
      (∀ r2, r2 < 4 → r2 ≠ 1 → ∃ v, total_conflicts
        (Board.mk 4 [0, 1, 2, 3] [1, 1, 1, 1] [1, 0, 1, 0, 1, 0, 1] [0, 0, 0, 4, 0, 0, 0]) 1 r2
          = some v ∧ m ≤ v) ∧
      (m < W - 1 →
        best < 4 ∧ best ≠ 1 ∧ total_conflicts
          (Board.mk 4 [0, 1, 2, 3] [1, 1, 1, 1] [1, 0, 1, 0, 1, 0, 1] [0, 0, 0, 4, 0, 0, 0]) 1 best
            = some m ∧
        (∀ r, r < best → r ≠ 1 → ∃ v, total_conflicts
          (Board.mk 4 [0, 1, 2, 3] [1, 1, 1, 1] [1, 0, 1, 0, 1, 0, 1] [0, 0, 0, 4, 0, 0, 0]) 1 r
            = some v ∧ m < v) ∧
        swap_colummns
          (Board.mk 4 [0, 1, 2, 3] [1, 1, 1, 1] [1, 0, 1, 0, 1, 0, 1] [0, 0, 0, 4, 0, 0, 0]) 1 best
            = some b') ∧
      (m = W - 1 →
        b' = Board.mk 4 [0, 1, 2, 3] [1, 1, 1, 1] [1, 0, 1, 0, 1, 0, 1] [0, 0, 0, 4, 0, 0, 0]) ∧
      examined = (List.range (if m = 0 then best + 1 else 4)).filter
        (fun r => decide (r ≠ 1)) :=
  ⟨by decide, by decide, min_conflicts_assignment_spec
    (Board.mk 4 [0, 1, 2, 3] [1, 1, 1, 1] [1, 0, 1, 0, 1, 0, 1] [0, 0, 0, 4, 0, 0, 0])
    (by decide) (by decide) (by decide) (by decide) 1 (by decide)⟩

/-! ## C8: the assignment stays a permutation -/

theorem rand_row_some (lo hi raw : Nat) (h : lo ≤ hi) (hh : hi < 2147483648) :
    ∃ r, rand_row lo hi raw = some r ∧ lo ≤ r ∧ r ≤ hi := by
  refine ⟨lo + raw % (hi - lo + 1), ?_, by omega, ?_⟩
  · unfold rand_row; rw [if_pos ⟨h, hh⟩]
  · have := Nat.mod_lt raw (show 0 < hi - lo + 1 by omega)
    omega

theorem partial_swap_some (b : Board) (hs : b.sized) (hN : b.N < 2147483648)
    (hq : b.cols_in_range) (r1 r2 : Nat) (h1 : r1 < b.N) (h2 : r2 < b.N) :
    ∃ b', partial_swap b r1 r2 = some b' := by
  obtain ⟨hql, hcl, hd1l, hd2l⟩ := hs
  have h1' : r1 < b.queen.length := by omega
  have h2' : r2 < b.queen.length := by omega
  have hq2 : b.queen.getD r2 0 < b.N := getD_lt_of_cols hq h2'
  obtain ⟨u, e⟩ := at_incr_some b.d1_counts (d1_index r1 (b.queen.getD r2 0))
    (by rw [hd1l]; exact d1_index_lt h1 hq2 hN)
  obtain ⟨w, f⟩ := at_incr_some b.d2_counts (d2_index b.N r1 (b.queen.getD r2 0))
    (by rw [hd2l]; exact d2_index_lt h1 hq2 hN)
  obtain ⟨q', eq⟩ := swap_queen_some b.queen r1 r2 h1' h2'
  refine ⟨{ b with queen := q', d1_counts := u, d2_counts := w }, ?_⟩
  simp only [partial_swap, getElem?_of_getD h2', e, f, eq]

theorem partial_conflicts_some (b : Board) (hs : b.sized) (hN : b.N < 2147483648)
    (hq : b.cols_in_range) (i : Nat) (hi : i < b.N) :
    ∃ c, partial_conflicts b i = some c := by
  obtain ⟨hql, hcl, hd1l, hd2l⟩ := hs
  have hi' : i < b.queen.length := by omega
  have hqi : b.queen.getD i 0 < b.N := getD_lt_of_cols hq hi'
  have a : d1_index i (b.queen.getD i 0) < b.d1_counts.length := by
    rw [hd1l]; exact d1_index_lt hi hqi hN
  have m : d2_index b.N i (b.queen.getD i 0) < b.d2_counts.length := by
    rw [hd2l]; exact d2_index_lt hi hqi hN
  simp only [partial_conflicts, getElem?_of_getD hi', getElem?_of_getD a, getElem?_of_getD m]
  exact ⟨_, rfl⟩

theorem undo_partial_swap_some (b : Board) (hs : b.sized) (hN : b.N < 2147483648)
    (hq : b.cols_in_range) (r1 r2 : Nat) (h1 : r1 < b.N) (h2 : r2 < b.N) :
    ∃ b', undo_partial_swap b r1 r2 = some b' := by
  obtain ⟨hql, hcl, hd1l, hd2l⟩ := hs
  have h1' : r1 < b.queen.length := by omega
  have h2' : r2 < b.queen.length := by omega
  obtain ⟨q', eq⟩ := swap_queen_some b.queen r1 r2 h1' h2'
  obtain ⟨hp, hl⟩ := swap_queen_perm eq
  have h2q : r2 < q'.length := by omega
  have hq' : ∀ c ∈ q', c < b.N := fun c hc => hq c (hp.mem_iff.mp hc)
  have hq2 : q'.getD r2 0 < b.N := getD_lt_of_cols hq' h2q
  obtain ⟨u, e⟩ := at_decr_some b.d1_counts (d1_index r1 (q'.getD r2 0))
    (by rw [hd1l]; exact d1_index_lt h1 hq2 hN)
  obtain ⟨w, f⟩ := at_decr_some b.d2_counts (d2_index b.N r1 (q'.getD r2 0))
    (by rw [hd2l]; exact d2_index_lt h1 hq2 hN)
  refine ⟨{ b with queen := q', d1_counts := u, d2_counts := w }, ?_⟩
  simp only [undo_partial_swap, eq, getElem?_of_getD h2q, e, f]

/-- The invariant of the search: vectors sized as in `main`, and the assignment
a permutation of `0, ..., N - 1`. -/
theorem inv_step {N : Nat} {b b' : Board} (hs : b.sized) (hn : b.N = N)
    (hp : b.queen.Perm (List.range N)) (sh : b.same_shape b') (hp' : b'.queen.Perm b.queen) :
    b'.sized ∧ b'.N = N ∧ b'.queen.Perm (List.range N) :=
  ⟨sized_of_same_shape sh hs, by rw [sh.1, hn], hp'.trans hp⟩

theorem cols_of_inv {N : Nat} {b : Board} (hn : b.N = N) (hp : b.queen.Perm (List.range N)) :
    b.cols_in_range := by
  subst hn; exact cols_in_range_of_perm hp

theorem placement_search_total (rnd : Nat → Nat) (N : Nat) (hN : N < 2147483648) (n : Nat) :
    ∀ (k : Nat) (b : Board) (row1 : Nat), b.sized → b.N = N → b.queen.Perm (List.range N) →
      row1 + 1 < N →
      ∃ b' row1' k', placement_search rnd n k row1 b row1 = some (b', row1', k') ∧
        b'.sized ∧ b'.N = N ∧ b'.queen.Perm (List.range N) ∧ row1' + 1 ≤ N := by
  have hW : W = 4294967296 := rfl
  induction n with
  | zero =>
    intro k b row1 hs hn hp hr
    exact ⟨b, row1, k, rfl, hs, hn, hp, by omega⟩
  | succ n ih =>
    intro k b row1 hs hn hp hr
    have hq := cols_of_inv hn hp
    have hu : usub b.N 1 = N - 1 := by rw [hn]; exact usub_le (by omega) (by omega)
    obtain ⟨row2, e0, hlo, hhi⟩ := rand_row_some row1 (N - 1) (rnd k) (by omega) (by omega)
    obtain ⟨b1, e1⟩ := partial_swap_some b hs (by omega) hq row1 row2 (by omega) (by omega)
    obtain ⟨sh1, hp1, _⟩ := partial_swap_shape e1
    obtain ⟨hs1, hn1, hpp1⟩ := inv_step hs hn hp sh1 hp1
    obtain ⟨c, e2⟩ := partial_conflicts_some b1 hs1 (by omega) (cols_of_inv hn1 hpp1) row1
      (by omega)
    have hu1 : usub b1.N 1 = N - 1 := by rw [hn1]; exact usub_le (by omega) (by omega)
    have hs' : uadd row1 1 = row1 + 1 := uadd_lt (by omega)
    unfold placement_search
    simp only [hu, e0, e1, e2, hu1, hs']
    by_cases hc : c = 0
    · rw [if_pos hc]
      by_cases hend : row1 + 1 = N - 1
      · rw [if_pos hend]
        exact ⟨b1, row1 + 1, k + 1, rfl, hs1, hn1, hpp1, by omega⟩
      · rw [if_neg hend]
        exact ih (k + 1) b1 (row1 + 1) hs1 hn1 hpp1 (by omega)
    · rw [if_neg hc]
      obtain ⟨b2, e3⟩ := undo_partial_swap_some b1 hs1 (by omega) (cols_of_inv hn1 hpp1) row1 row2
        (by omega) (by omega)
      obtain ⟨sh2, hp2, _⟩ := undo_partial_swap_shape e3
      obtain ⟨hs2, hn2, hpp2⟩ := inv_step hs1 hn1 hpp1 sh2 hp2
      simp only [e3]
      exact ih (k + 1) b2 row1 hs2 hn2 hpp2 hr

theorem placement_force_total (rnd : Nat → Nat) (N : Nat) (hN : N < 2147483648) (n : Nat) :
    ∀ (k : Nat) (b : Board) (i : Nat), b.sized → b.N = N → b.queen.Perm (List.range N) →
      i + n = N →
      ∃ b', placement_force rnd n k b i = some b' ∧
        b'.sized ∧ b'.N = N ∧ b'.queen.Perm (List.range N) := by
  have hW : W = 4294967296 := rfl
  induction n with
  | zero =>
    intro k b i hs hn hp _
    exact ⟨b, rfl, hs, hn, hp⟩
  | succ n ih =>
    intro k b i hs hn hp hi
    have hq := cols_of_inv hn hp
    have hu : usub b.N 1 = N - 1 := by rw [hn]; exact usub_le (by omega) (by omega)
    obtain ⟨j, e0, hlo, hhi⟩ := rand_row_some i (N - 1) (rnd k) (by omega) (by omega)
    obtain ⟨b1, e1⟩ := swap_colummns_some b hs (by omega) hq i j (by omega) (by omega)
    obtain ⟨sh1, hp1, _⟩ := swap_colummns_shape e1
    obtain ⟨hs1, hn1, hpp1⟩ := inv_step hs hn hp sh1 hp1
    have hq1 := cols_of_inv hn1 hpp1
    have hi1 : i < b1.queen.length := by rw [hs1.1]; omega
    have hqi : b1.queen.getD i 0 < b1.N := getD_lt_of_cols hq1 hi1
    obtain ⟨u, e2⟩ := at_incr_some b1.d1_counts (d1_index i (b1.queen.getD i 0))
      (by rw [hs1.2.2.1]; exact d1_index_lt (by omega) hqi (by omega))
    obtain ⟨w, e3⟩ := at_incr_some b1.d2_counts (d2_index b1.N i (b1.queen.getD i 0))
      (by rw [hs1.2.2.2]; exact d2_index_lt (by omega) hqi (by omega))
    have hs' : uadd i 1 = i + 1 := uadd_lt (by omega)
    unfold placement_force
    simp only [hu, e0, e1, getElem?_of_getD hi1, e2, e3, hs']
    exact ih (k + 1) { b1 with d1_counts := u, d2_counts := w } (i + 1)
      ⟨hs1.1, hs1.2.1, by rw [at_incr_length e2]; exact hs1.2.2.1,
        by rw [at_incr_length e3]; exact hs1.2.2.2⟩ hn1 hpp1 (by omega)

theorem initial_placement_total (rnd : Nat → Nat) (b : Board) (hs : b.sized) (h2 : 2 ≤ b.N)
    (hN : b.N < 2147483648) :
    ∃ b' row1, initial_placement rnd b = some (b', row1) ∧
      b'.sized ∧ b'.N = b.N ∧ b'.queen.Perm (List.range b.N) ∧ row1 + 1 ≤ b.N := by
  have hW : W = 4294967296 := rfl
  obtain ⟨hql, hcl, hd1l, hd2l⟩ := hs
  have hq0 : List.range b.N ++ List.drop b.N b.queen = List.range b.N := by
    rw [List.drop_of_length_le (by omega)]; simp
  obtain ⟨b1, row1, k, e1, hs1, hn1, hp1, hr1⟩ := placement_search_total rnd b.N hN
    ((3 * b.N) % W) 0
    { b with queen := List.range b.N ++ b.queen.drop b.N
             col_counts := fill b.col_counts 1
             d1_counts := fill b.d1_counts 0
             d2_counts := fill b.d2_counts 0 } 0
    (by
      show (List.range b.N ++ List.drop b.N b.queen).length = b.N ∧
        (fill b.col_counts 1).length = b.N ∧ (fill b.d1_counts 0).length = 2 * b.N - 1 ∧
        (fill b.d2_counts 0).length = 2 * b.N - 1
      simp only [hq0, fill, List.length_replicate, List.length_range]
      exact ⟨trivial, hcl, hd1l, hd2l⟩)
    rfl (by simp only [hq0]; exact List.Perm.refl _) (by omega)
  have hf : usub b.N row1 = b.N - row1 := usub_le (by omega) (by omega)
  obtain ⟨b2, e2, hs2, hn2, hp2⟩ := placement_force_total rnd b.N hN (b.N - row1) k b1 row1
    hs1 hn1 hp1 (by omega)
  refine ⟨b2, row1, ?_, hs2, hn2, hp2, hr1⟩
  unfold initial_placement
  rw [if_pos (by omega)]
  simp only [e1, hf, e2]

/-- Claim C8. For `2 ≤ N < 2^31` (`N` is parsed as an `int`) and vectors sized as in
`main`: for every stream of random draws `initial_placement` returns and leaves a
permutation of `0, ..., N - 1`; and on every board holding a permutation, every
call of `swap_colummns` and of `min_conflicts_assignment` (rows below `N`)
returns and leaves a permutation again, no two rows share a column, and the
recount returns with a column tally of 0, leaving the assignment as it is. -/
theorem assignment_stays_permutation (N : Nat) (h2 : 2 ≤ N) (hN : N < 2147483648) :
    (∀ (rnd : Nat → Nat) (b : Board), b.sized → b.N = N →
      ∃ b' row1, initial_placement rnd b = some (b', row1) ∧
        b'.sized ∧ b'.N = N ∧ b'.queen.Perm (List.range N)) ∧
    (∀ b : Board, b.sized → b.N = N → b.queen.Perm (List.range N) →
      (∀ r1 r2, r1 < N → r2 < N →
        ∃ b', swap_colummns b r1 r2 = some b' ∧
          b'.sized ∧ b'.N = N ∧ b'.queen.Perm (List.range N)) ∧
      (∀ row1, row1 < N →
        ∃ b' v, min_conflicts_assignment b row1 = some (b', v) ∧
          b'.sized ∧ b'.N = N ∧ b'.queen.Perm (List.range N)) ∧
      (∀ i j, i < j → j < N → b.queen.getD i 0 ≠ b.queen.getD j 0) ∧
      (∃ b' v cc, count_all_conflicts_multi b = some (b', v) ∧
        b'.sized ∧ b'.N = N ∧ b'.queen = b.queen ∧
        _count_column_conflicts b.queen (fill b.col_counts 0) 0 = some (cc, 0))) := by
  refine ⟨?_, ?_⟩
  · intro rnd b hs hn
    subst hn
    obtain ⟨b', row1, e, hs', hn', hp', _⟩ := initial_placement_total rnd b hs h2 hN
    exact ⟨b', row1, e, hs', hn', hp'⟩
  · intro b hs hn hp
    have hq := cols_of_inv hn hp
    refine ⟨?_, ?_, ?_, ?_⟩
    · intro r1 r2 h1 h2'
      obtain ⟨b', e⟩ := swap_colummns_some b hs (by omega) hq r1 r2 (by omega) (by omega)
      obtain ⟨sh, hp', _⟩ := swap_colummns_shape e
      exact ⟨b', e, inv_step hs hn hp sh hp'⟩
    · intro row1 h1
      obtain ⟨b', m, e⟩ := min_conflicts_assignment_some b hs (by omega) hq row1 (by omega)
      obtain ⟨sh, hp', _⟩ := min_conflicts_assignment_shape e
      exact ⟨b', m, e, inv_step hs hn hp sh hp'⟩
    · intro i j hij hj
      exact cols_distinct_of_perm hp j (by rw [hs.1]; omega) i hij
    · obtain ⟨b', v, e, _, cc, ec⟩ := recount_perm b hs (by omega) (by omega) (by rw [hn]; exact hp)
      obtain ⟨sh, hq'⟩ := count_all_conflicts_multi_shape e
      exact ⟨b', v, cc, e, sized_of_same_shape sh hs, by rw [sh.1, hn], hq', ec⟩

/-- An instance: the first placement of a run for `N = 4`. -/
theorem assignment_stays_permutation_witness :
    (2 ≤ 4 ∧ 4 < 2147483648 ∧ (fresh 4).sized) ∧
    ∃ b' row1, initial_placement (fun k => [1, 2, 1, 0].getD k 0) (fresh 4) = some (b', row1) ∧
      b'.sized ∧ b'.N = 4 ∧ b'.queen.Perm (List.range 4) :=
  ⟨by decide, (assignment_stays_permutation 4 (by decide) (by decide)).1
    (fun k => [1, 2, 1, 0].getD k 0) (fresh 4) (by decide) rfl⟩

/-! ## The 32-bit sum of the tallies can wrap -/

theorem crowded_getD (N r : Nat) (hr : r < N) :
    ((List.range N).map crowded_col).getD r 0 = crowded_col r := by
  rw [List.getD_eq_getElem _ _ (by simpa using hr)]
  simp

theorem crowded_col_le (r : Nat) : crowded_col r ≤ 3 := by
  unfold crowded_col; split <;> omega

theorem crowded_col_lines (Q : Nat) (hQ : 1 ≤ Q) :
    (col_lines ((List.range (4 * Q + 1)).map crowded_col)).card = 4 := by
  have h : col_lines ((List.range (4 * Q + 1)).map crowded_col) = Finset.range 4 := by
    unfold col_lines
    ext x
    simp only [Finset.mem_image, Finset.mem_range, List.length_map, List.length_range]
    constructor
    · rintro ⟨r, hr, rfl⟩
      rw [crowded_getD _ _ hr]
      have := crowded_col_le r; omega
    · intro hx
      have key : ∀ r, r < 4 * Q + 1 → crowded_col r = x →
          ∃ a, a < 4 * Q + 1 ∧ ((List.range (4 * Q + 1)).map crowded_col).getD a 0 = x :=
        fun r hr e => ⟨r, hr, by rw [crowded_getD _ _ hr]; exact e⟩
      have hx' : x = 0 ∨ x = 1 ∨ x = 2 ∨ x = 3 := by omega
      rcases hx' with rfl | rfl | rfl | rfl
      · exact key 4 (by omega) (by decide)
      · exact key 0 (by omega) (by decide)
      · exact key 2 (by omega) (by decide)
      · exact key 1 (by omega) (by decide)
  rw [h, Finset.card_range]

theorem crowded_d1_lines (Q : Nat) :
    (d1_lines ((List.range (4 * Q + 1)).map crowded_col)).card = Q + 1 := by
  have hinj : Function.Injective (fun j : Nat => if j = 0 then 1 else 4 * j) := by
    intro a b h
    simp only at h
    split at h <;> split at h <;> omega
  have h : d1_lines ((List.range (4 * Q + 1)).map crowded_col) =
      (Finset.range (Q + 1)).image (fun j : Nat => if j = 0 then 1 else 4 * j) := by
    unfold d1_lines
    ext x
    simp only [Finset.mem_image, Finset.mem_range, List.length_map, List.length_range]
    constructor
    · rintro ⟨r, hr, rfl⟩
      rw [crowded_getD _ _ hr]
      refine ⟨if r = 0 then 0 else (r + 3) / 4, ?_, ?_⟩
      · split <;> omega
      · unfold crowded_col
        split <;> split <;> omega
    · rintro ⟨j, hj, rfl⟩
      refine ⟨4 * j, by omega, ?_⟩
      rw [crowded_getD _ _ (by omega)]
      unfold crowded_col
      split <;> split <;> omega
  rw [h, Finset.card_image_of_injective _ hinj, Finset.card_range]

theorem crowded_d2_lines (Q : Nat) (hQ : 1 ≤ Q) :
    (d2_lines ((List.range (4 * Q + 1)).map crowded_col)).card = 2 * Q + 3 := by
  have hinj : Function.Injective (fun j : Nat => if j = 0 then (-1 : Int) else 2 * (j : Int) - 4) := by
    intro a b h
    simp only at h
    split at h <;> split at h <;> omega
  have h : d2_lines ((List.range (4 * Q + 1)).map crowded_col) =
      (Finset.range (2 * Q + 3)).image
        (fun j : Nat => if j = 0 then (-1 : Int) else 2 * (j : Int) - 4) := by
    unfold d2_lines
    ext x
    simp only [Finset.mem_image, Finset.mem_range, List.length_map, List.length_range]
    constructor
    · rintro ⟨r, hr, rfl⟩
      rw [crowded_getD _ _ hr]
      refine ⟨if r = 0 then 0 else (r + 4 - crowded_col r) / 2, ?_, ?_⟩
      · unfold crowded_col
        split <;> omega
      · unfold crowded_col
        split <;> split <;> omega
    · rintro ⟨j, hj, rfl⟩
      have key : ∀ r, r < 4 * Q + 1 →
          (r : Int) - (crowded_col r : Int) = (if j = 0 then (-1 : Int) else 2 * (j : Int) - 4) →
          ∃ a, a < 4 * Q + 1 ∧
            (a : Int) - ((((List.range (4 * Q + 1)).map crowded_col).getD a 0 : Nat) : Int) =
              (if j = 0 then (-1 : Int) else 2 * (j : Int) - 4) :=
        fun r hr e => ⟨r, hr, by rw [crowded_getD _ _ hr]; exact e⟩
      by_cases h0 : j = 0
      · exact key 0 (by omega) (by subst h0; decide)
      · by_cases h1 : j = 1
        · exact key 1 (by omega) (by subst h1; decide)
        · by_cases h2 : j = 2
          · exact key 2 (by omega) (by subst h2; decide)
          · by_cases he : j % 2 = 0
            · -- value `2 * j - 4` is a multiple of 4, at least 4
              refine key (2 * j - 4) ?_ ?_
              · omega
              · unfold crowded_col
                rw [if_neg (by omega), if_neg h0]
                omega
            · refine key (2 * j - 3) ?_ ?_
              · omega
              · unfold crowded_col
                rw [if_neg (by omega), if_neg h0]
                omega
  rw [h, Finset.card_image_of_injective _ hinj, Finset.card_range]


theorem crowded_board_length (N : Nat) : (crowded_board N).queen.length = N := by
  simp [crowded_board]

theorem crowded_board_sized (N : Nat) : (crowded_board N).sized := by
  simp [Board.sized, crowded_board]

theorem crowded_board_cols (N : Nat) (h : 4 ≤ N) : (crowded_board N).cols_in_range := by
  intro c hc
  simp only [crowded_board, List.mem_map, List.mem_range] at hc
  obtain ⟨r, _, rfl⟩ := hc
  have := crowded_col_le r
  show crowded_col r < N
  omega

/-- The recount on the periodic assignment of `4 * Q + 1` rows: the three
tallies add up to `9 * Q - 5`. -/
theorem crowded_board_recount (Q : Nat) (hQ : 1 ≤ Q) (hN : 4 * Q + 1 < 2147483648) :
    ∃ b', count_all_conflicts_multi (crowded_board (4 * Q + 1)) =
        some (b', (9 * Q - 5) % W) ∧
      (col_lines (crowded_board (4 * Q + 1)).queen).card = 4 ∧
      (d1_lines (crowded_board (4 * Q + 1)).queen).card = Q + 1 ∧
      (d2_lines (crowded_board (4 * Q + 1)).queen).card = 2 * Q + 3 := by
  obtain ⟨cc, d1, d2, cv, d1v, d2v, hrun, -, -, -, -, -, -, hc, hd1, hd2⟩ :=
    recount_spec (crowded_board (4 * Q + 1)) (crowded_board_sized _) (by show 1 ≤ 4 * Q + 1; omega)
      hN (crowded_board_cols _ (by omega))
  have e0 : (crowded_board (4 * Q + 1)).queen = (List.range (4 * Q + 1)).map crowded_col := rfl
  have eN : (crowded_board (4 * Q + 1)).N = 4 * Q + 1 := rfl
  rw [e0, eN] at hc hd1 hd2
  rw [crowded_col_lines Q hQ] at hc
  rw [crowded_d1_lines Q] at hd1
  rw [crowded_d2_lines Q hQ] at hd2
  have hsum : uadd (uadd cv d1v) d2v = (9 * Q - 5) % W := by
    unfold uadd
    rw [Nat.add_mod, Nat.mod_mod, ← Nat.add_mod]
    congr 1
    omega
  rw [hsum] at hrun
  exact ⟨_, hrun, by rw [e0]; exact crowded_col_lines Q hQ, by rw [e0]; exact crowded_d1_lines Q,
    by rw [e0]; exact crowded_d2_lines Q hQ⟩


/-- Claim C1, counterexample.  On the board of `N = 1908874357` rows (below
`2^31`) that holds the periodic assignment `crowded_col`, all columns are below
`N` and the vectors have the sizes `main` gives them; the three tallies are
`N - 4`, `N - 477218590` and `N - 954437181`, which add up to `2^32`, so
`count_all_conflicts_multi` returns 0; yet the assignment is not a valid
placement (it uses four columns only). -/
theorem count_all_conflicts_multi_zero_on_invalid :
    (crowded_board 1908874357).sized ∧ (crowded_board 1908874357).cols_in_range ∧
    (∃ b', count_all_conflicts_multi (crowded_board 1908874357) = some (b', 0)) ∧
    ¬ valid_placement (crowded_board 1908874357).queen := by
  have e : 4 * 477218589 + 1 = 1908874357 := by norm_num
  have ev : (9 * 477218589 - 5) % W = 0 := by norm_num
  obtain ⟨b', hrun, hc, _, _⟩ := crowded_board_recount 477218589 (by norm_num) (by norm_num)
  rw [e] at hrun hc
  rw [ev] at hrun
  refine ⟨crowded_board_sized _, crowded_board_cols _ (by decide), ⟨b', hrun⟩, ?_⟩
  intro hv
  have h := ((valid_placement_iff _).mp hv).1
  rw [hc] at h
  rw [crowded_board_length] at h
  exact absurd h (by decide)

/-- Claim C5, counterexample.  On the same board of `N = 1908874357` rows, with 4
occupied columns, 477218590 occupied anti-diagonals and 954437181 occupied main
diagonals, the sum over the occupied lines of the occupancy less one is
`3 * N - 1431655775 = 2^32`, but `count_all_conflicts_multi` returns 0. -/
theorem count_all_conflicts_multi_wraps :
    (crowded_board 1908874357).sized ∧ (crowded_board 1908874357).cols_in_range ∧
    (∃ b', count_all_conflicts_multi (crowded_board 1908874357) = some (b', 0)) ∧
    3 * 1908874357 -
      ((col_lines (crowded_board 1908874357).queen).card +
       (d1_lines (crowded_board 1908874357).queen).card +
       (d2_lines (crowded_board 1908874357).queen).card) = 4294967296 := by
  have e : 4 * 477218589 + 1 = 1908874357 := by norm_num
  have ev : (9 * 477218589 - 5) % W = 0 := by norm_num
  obtain ⟨b', hrun, hc, hd1, hd2⟩ := crowded_board_recount 477218589 (by norm_num) (by norm_num)
  rw [e] at hrun hc hd1 hd2
  rw [ev] at hrun
  refine ⟨crowded_board_sized _, crowded_board_cols _ (by decide), ⟨b', hrun⟩, ?_⟩
  rw [hc, hd1, hd2]

/-! ## Undoing a tentative swap -/

theorem usub_uadd_one {a : Nat} (h : a < W) : usub (uadd a 1) 1 = a := by
  have hW : W = 4294967296 := rfl
  unfold usub uadd
  rw [hW] at h ⊢
  omega

theorem set_getD_self (v : List Nat) (i : Nat) : v.set i (v.getD i 0) = v := by
  apply List.ext_getElem
  · simp
  · intro n h1 h2
    rw [List.getElem_set]
    split
    · next h => subst h; rw [List.getD_eq_getElem _ _ h2]
    · rfl

theorem ext_getD {l1 l2 : List Nat} (hl : l1.length = l2.length)
    (h : ∀ r, l1.getD r 0 = l2.getD r 0) : l1 = l2 := by
  apply List.ext_getElem hl
  intro n h1 h2
  have := h n
  rwa [List.getD_eq_getElem _ _ h1, List.getD_eq_getElem _ _ h2] at this

/-- Swapping two rows twice restores the assignment. -/
theorem swap_swap (q : List Nat) (r1 r2 : Nat) (h1 : r1 < q.length) (h2 : r2 < q.length) :
    ∃ q1, swap_queen q r1 r2 = some q1 ∧ swap_queen q1 r1 r2 = some q ∧
      q1.length = q.length ∧
      ∀ r, q1.getD r 0 =
        if r = r2 then q.getD r1 0 else if r = r1 then q.getD r2 0 else q.getD r 0 := by
  obtain ⟨q1, e1, hl1, hg1⟩ := swap_queen_getD q r1 r2 h1 h2
  obtain ⟨q2, e2, hl2, hg2⟩ := swap_queen_getD q1 r1 r2 (by omega) (by omega)
  refine ⟨q1, e1, ?_, hl1, hg1⟩
  rw [e2]
  congr 1
  apply ext_getD (by omega)
  intro r
  rw [hg2, hg1 r1, hg1 r2, hg1 r]
  by_cases a : r = r2
  · subst a
    rw [if_pos rfl, if_pos rfl]
    by_cases c : r1 = r
    · subst c; rw [if_pos rfl]
    · rw [if_neg c]
  · by_cases c : r = r1
    · subst c
      rw [if_neg a, if_pos rfl, if_pos rfl]
    · rw [if_neg a, if_neg c, if_neg a, if_neg c]

/-- What `partial_swap` returns on a well-formed board. -/
theorem partial_swap_eq (b : Board) (hs : b.sized) (hN : b.N < 2147483648)
    (hq : b.cols_in_range) (r1 r2 : Nat) (h1 : r1 < b.N) (h2 : r2 < b.N) :
    ∃ q1, swap_queen b.queen r1 r2 = some q1 ∧
      partial_swap b r1 r2 = some
        { b with
          queen := q1
          d1_counts := b.d1_counts.set (d1_index r1 (b.queen.getD r2 0))
            (uadd (b.d1_counts.getD (d1_index r1 (b.queen.getD r2 0)) 0) 1)
          d2_counts := b.d2_counts.set (d2_index b.N r1 (b.queen.getD r2 0))
            (uadd (b.d2_counts.getD (d2_index b.N r1 (b.queen.getD r2 0)) 0) 1) } := by
  obtain ⟨hql, hcl, hd1l, hd2l⟩ := hs
  have h1' : r1 < b.queen.length := by omega
  have h2' : r2 < b.queen.length := by omega
  have hq2 : b.queen.getD r2 0 < b.N := getD_lt_of_cols hq h2'
  have a : d1_index r1 (b.queen.getD r2 0) < b.d1_counts.length := by
    rw [hd1l]; exact d1_index_lt h1 hq2 hN
  have m : d2_index b.N r1 (b.queen.getD r2 0) < b.d2_counts.length := by
    rw [hd2l]; exact d2_index_lt h1 hq2 hN
  obtain ⟨q1, eq⟩ := swap_queen_some b.queen r1 r2 h1' h2'
  refine ⟨q1, eq, ?_⟩
  simp only [partial_swap, at_incr, getElem?_of_getD h2', getElem?_of_getD a,
    getElem?_of_getD m, eq]

/-- The core of the undo: `undo_partial_swap` after `partial_swap` gives back
the board, when the two entries touched are `unsigned` values. -/
theorem undo_partial_swap_partial_swap (b : Board) (hs : b.sized) (hN : b.N < 2147483648)
    (hq : b.cols_in_range) (r1 r2 : Nat) (h1 : r1 < b.N) (h2 : r2 < b.N)
    (hw1 : b.d1_counts.getD (d1_index r1 (b.queen.getD r2 0)) 0 < W)
    (hw2 : b.d2_counts.getD (d2_index b.N r1 (b.queen.getD r2 0)) 0 < W) :
    ∃ b1, partial_swap b r1 r2 = some b1 ∧ undo_partial_swap b1 r1 r2 = some b := by
  obtain ⟨q1, eq, e⟩ := partial_swap_eq b hs hN hq r1 r2 h1 h2
  refine ⟨_, e, ?_⟩
  obtain ⟨hql, hcl, hd1l, hd2l⟩ := hs
  have h1' : r1 < b.queen.length := by omega
  have h2' : r2 < b.queen.length := by omega
  have hq2 : b.queen.getD r2 0 < b.N := getD_lt_of_cols hq h2'
  have a : d1_index r1 (b.queen.getD r2 0) < b.d1_counts.length := by
    rw [hd1l]; exact d1_index_lt h1 hq2 hN
  have m : d2_index b.N r1 (b.queen.getD r2 0) < b.d2_counts.length := by
    rw [hd2l]; exact d2_index_lt h1 hq2 hN
  obtain ⟨q1', eq', eb, _, _⟩ := swap_swap b.queen r1 r2 h1' h2'
  rw [eq] at eq'; cases eq'
  have a' : d1_index r1 (b.queen.getD r2 0) <
      (b.d1_counts.set (d1_index r1 (b.queen.getD r2 0))
        (uadd (b.d1_counts.getD (d1_index r1 (b.queen.getD r2 0)) 0) 1)).length := by
    simpa using a
  have m' : d2_index b.N r1 (b.queen.getD r2 0) <
      (b.d2_counts.set (d2_index b.N r1 (b.queen.getD r2 0))
        (uadd (b.d2_counts.getD (d2_index b.N r1 (b.queen.getD r2 0)) 0) 1)).length := by
    simpa using m
  simp only [undo_partial_swap, eb, at_decr, getElem?_of_getD h2', getElem?_of_getD a',
    getElem?_of_getD m', getD_set_eq _ _ _ _ a, getD_set_eq _ _ _ _ m, if_true, List.set_set,
    usub_uadd_one hw1, usub_uadd_one hw2, set_getD_self]

/-- Claim C17. On a board with vectors sized as in `main`, `N < 2^31`, column
values below `N` and counter entries that are `unsigned` values, for all rows
`row1, row2 < N` (equal or not): `partial_swap(row1, row2)` returns, then
`undo_partial_swap(row1, row2)` returns, and the assignment and both diagonal
counters (indeed the whole board) are what they were before. -/
theorem undo_partial_swap_reverts (b : Board) (hs : b.sized) (hN : b.N < 2147483648)
    (hq : b.cols_in_range) (hw : b.words) (row1 row2 : Nat) (h1 : row1 < b.N)
    (h2 : row2 < b.N) :
    ∃ b1 b2, partial_swap b row1 row2 = some b1 ∧ undo_partial_swap b1 row1 row2 = some b2 ∧
      b2.queen = b.queen ∧ b2.d1_counts = b.d1_counts ∧ b2.d2_counts = b.d2_counts ∧
      b2 = b := by
  have hq2 : b.queen.getD row2 0 < b.N := getD_lt_of_cols hq (by rw [hs.1]; exact h2)
  have a : d1_index row1 (b.queen.getD row2 0) < b.d1_counts.length := by
    rw [hs.2.2.1]; exact d1_index_lt h1 hq2 hN
  have m : d2_index b.N row1 (b.queen.getD row2 0) < b.d2_counts.length := by
    rw [hs.2.2.2]; exact d2_index_lt h1 hq2 hN
  obtain ⟨b1, e1, e2⟩ := undo_partial_swap_partial_swap b hs hN hq row1 row2 h1 h2
    (by rw [List.getD_eq_getElem _ _ a]; exact hw.1 _ (List.getElem_mem _))
    (by rw [List.getD_eq_getElem _ _ m]; exact hw.2 _ (List.getElem_mem _))
  exact ⟨b1, b, e1, e2, rfl, rfl, rfl, rfl⟩

/-- An instance: a row swapped with itself, on a board with a counter entry at
the largest `unsigned` value. -/
theorem undo_partial_swap_reverts_witness :
    ((Board.mk 3 [2, 0, 1] [1, 1, 1] [0, 1, 4294967295, 1, 0] [1, 0, 1, 0, 1]).sized ∧
      (Board.mk 3 [2, 0, 1] [1, 1, 1] [0, 1, 4294967295, 1, 0] [1, 0, 1, 0, 1]).words) ∧
    ∃ b1 b2,
      partial_swap (Board.mk 3 [2, 0, 1] [1, 1, 1] [0, 1, 4294967295, 1, 0] [1, 0, 1, 0, 1]) 0 0
        = some b1 ∧
      undo_partial_swap b1 0 0 = some b2 ∧
      b2.queen = [2, 0, 1] ∧ b2.d1_counts = [0, 1, 4294967295, 1, 0] ∧
      b2.d2_counts = [1, 0, 1, 0, 1] ∧
      b2 = Board.mk 3 [2, 0, 1] [1, 1, 1] [0, 1, 4294967295, 1, 0] [1, 0, 1, 0, 1] :=
  ⟨by decide, undo_partial_swap_reverts
    (Board.mk 3 [2, 0, 1] [1, 1, 1] [0, 1, 4294967295, 1, 0] [1, 0, 1, 0, 1])
    (by decide) (by decide) (by decide) (by decide) 0 0 (by decide) (by decide)⟩

/-! ## The frontier of the initial placement -/

/-- What `partial_swap` does to a well-formed board, entry by entry. -/
theorem partial_swap_desc (b : Board) (hs : b.sized) (h1N : 1 ≤ b.N) (hN : b.N < 2147483648)
    (hq : b.cols_in_range) (r1 r2 : Nat) (h1 : r1 < b.N) (h2 : r2 < b.N) :
    ∃ b1, partial_swap b r1 r2 = some b1 ∧ b1.sized ∧ b1.N = b.N ∧ b1.queen.Perm b.queen ∧
      (∀ r, b1.queen.getD r 0 =
        if r = r2 then b.queen.getD r1 0 else if r = r1 then b.queen.getD r2 0
        else b.queen.getD r 0) ∧
      (∀ x, b1.d1_counts.getD x 0 =
        if x = r1 + b.queen.getD r2 0 then uadd (b.d1_counts.getD x 0) 1
        else b.d1_counts.getD x 0) ∧
      (∀ x, b1.d2_counts.getD x 0 =
        if x = b.N - 1 + r1 - b.queen.getD r2 0 then uadd (b.d2_counts.getD x 0) 1
        else b.d2_counts.getD x 0) := by
  have hW : W = 4294967296 := rfl
  obtain ⟨q1, eq, e⟩ := partial_swap_eq b hs hN hq r1 r2 h1 h2
  obtain ⟨q1', eq', _, hg⟩ := swap_queen_getD b.queen r1 r2 (by rw [hs.1]; exact h1)
    (by rw [hs.1]; exact h2)
  rw [eq] at eq'; cases eq'
  have hq2 : b.queen.getD r2 0 < b.N := getD_lt_of_cols hq (by rw [hs.1]; exact h2)
  have ea : d1_index r1 (b.queen.getD r2 0) = r1 + b.queen.getD r2 0 :=
    d1_index_eq (by omega)
  have em : d2_index b.N r1 (b.queen.getD r2 0) = b.N - 1 + r1 - b.queen.getD r2 0 :=
    d2_index_eq h1N h1 hq2 hN
  rw [ea, em] at e
  obtain ⟨sh, hp, _⟩ := partial_swap_shape e
  refine ⟨_, e, sized_of_same_shape sh hs, rfl, hp, hg, ?_, ?_⟩
  · intro x
    show (b.d1_counts.set _ _).getD x 0 = _
    rw [getD_set_eq _ _ _ _ (by rw [hs.2.2.1]; omega)]
    by_cases hx : x = r1 + b.queen.getD r2 0
    · rw [if_pos hx, if_pos hx, hx]
    · rw [if_neg hx, if_neg hx]
  · intro x
    show (b.d2_counts.set _ _).getD x 0 = _
    rw [getD_set_eq _ _ _ _ (by rw [hs.2.2.2]; omega)]
    by_cases hx : x = b.N - 1 + r1 - b.queen.getD r2 0
    · rw [if_pos hx, if_pos hx, hx]
    · rw [if_neg hx, if_neg hx]

/-- What `partial_conflicts` returns on a well-formed board. -/
theorem partial_conflicts_desc (b : Board) (hs : b.sized) (h1N : 1 ≤ b.N)
    (hN : b.N < 2147483648) (hq : b.cols_in_range) (i : Nat) (hi : i < b.N) :
    partial_conflicts b i = some (usub (uadd
      (b.d1_counts.getD (i + b.queen.getD i 0) 0)
      (b.d2_counts.getD (b.N - 1 + i - b.queen.getD i 0) 0)) 2) := by
  have hW : W = 4294967296 := rfl
  obtain ⟨hql, hcl, hd1l, hd2l⟩ := hs
  have hi' : i < b.queen.length := by omega
  have hqi : b.queen.getD i 0 < b.N := getD_lt_of_cols hq hi'
  have ea : d1_index i (b.queen.getD i 0) = i + b.queen.getD i 0 := d1_index_eq (by omega)
  have em : d2_index b.N i (b.queen.getD i 0) = b.N - 1 + i - b.queen.getD i 0 :=
    d2_index_eq h1N hi hqi hN
  have a : i + b.queen.getD i 0 < b.d1_counts.length := by omega
  have m : b.N - 1 + i - b.queen.getD i 0 < b.d2_counts.length := by omega
  simp only [partial_conflicts, getElem?_of_getD hi', ea, em, getElem?_of_getD a,
    getElem?_of_getD m]

theorem tentative_conflicts {a m : Nat} (ha : a ≤ 1) (hm : m ≤ 1) :
    usub (uadd (uadd a 1) (uadd m 1)) 2 = a + m := by
  have hW : W = 4294967296 := rfl
  unfold usub uadd
  rw [hW]
  omega

/-- The first loop of `initial_placement` returns, and the rows below the `row1`
it returns lie on pairwise distinct anti-diagonals and main diagonals. -/
theorem placement_search_prefix (rnd : Nat → Nat) (N : Nat) (hN : N < 2147483648) (n : Nat) :
    ∀ (k : Nat) (b : Board) (row1 : Nat), b.sized → b.N = N → b.queen.Perm (List.range N) →
      row1 + 1 < N →
      (∀ x, b.d1_counts.getD x 0 ≤ 1) → (∀ x, b.d2_counts.getD x 0 ≤ 1) →
      (∀ r, r < row1 → b.d1_counts.getD (r + b.queen.getD r 0) 0 ≠ 0 ∧
        b.d2_counts.getD (N - 1 + r - b.queen.getD r 0) 0 ≠ 0) →
      (∀ j, j < row1 → ∀ i, i < j →
        i + b.queen.getD i 0 ≠ j + b.queen.getD j 0 ∧
        N - 1 + i - b.queen.getD i 0 ≠ N - 1 + j - b.queen.getD j 0) →
      ∃ b' row1' k', placement_search rnd n k row1 b row1 = some (b', row1', k') ∧
        b'.sized ∧ b'.N = N ∧ b'.queen.Perm (List.range N) ∧ row1' + 1 ≤ N ∧
        (∀ j, j < row1' → ∀ i, i < j →
          i + b'.queen.getD i 0 ≠ j + b'.queen.getD j 0 ∧
          N - 1 + i - b'.queen.getD i 0 ≠ N - 1 + j - b'.queen.getD j 0) := by
  have hW : W = 4294967296 := rfl
  induction n with
  | zero =>
    intro k b row1 hs hn hp hr _ _ _ hfree
    exact ⟨b, row1, k, rfl, hs, hn, hp, by omega, hfree⟩
  | succ n ih =>
    intro k b row1 hs hn hp hr hb1 hb2 hocc hfree
    have hq := cols_of_inv hn hp
    have hu : usub b.N 1 = N - 1 := by rw [hn]; exact usub_le (by omega) (by omega)
    obtain ⟨row2, e0, hlo, hhi⟩ := rand_row_some row1 (N - 1) (rnd k) (by omega) (by omega)
    obtain ⟨b1, e1, hs1, hn1, hp1, hg, hd1, hd2⟩ :=
      partial_swap_desc b hs (by omega) (by omega) hq row1 row2 (by omega) (by omega)
    rw [hn] at hn1 hd2
    have hpp1 : b1.queen.Perm (List.range N) := hp1.trans hp
    have hq1 := cols_of_inv hn1 hpp1
    have hc1 : b1.queen.getD row1 0 = b.queen.getD row2 0 := by
      rw [hg row1]
      by_cases h : row1 = row2
      · rw [if_pos h, h]
      · rw [if_neg h, if_pos rfl]
    have hold : ∀ r, r < row1 → b1.queen.getD r 0 = b.queen.getD r 0 := by
      intro r hr'
      rw [hg r, if_neg (by omega), if_neg (by omega)]
    have e2 := partial_conflicts_desc b1 hs1 (by omega) (by omega) hq1 row1 (by omega)
    rw [hn1, hc1, hd1, if_pos rfl, hd2, if_pos rfl,
      tentative_conflicts (hb1 _) (hb2 _)] at e2
    have hu1 : usub b1.N 1 = N - 1 := by rw [hn1]; exact usub_le (by omega) (by omega)
    have hs' : uadd row1 1 = row1 + 1 := uadd_lt (by omega)
    unfold placement_search
    simp only [hu, e0, e1, e2, hu1, hs']
    by_cases hc : b.d1_counts.getD (row1 + b.queen.getD row2 0) 0 +
        b.d2_counts.getD (N - 1 + row1 - b.queen.getD row2 0) 0 = 0
    · rw [if_pos hc]
      have ha0 : b.d1_counts.getD (row1 + b.queen.getD row2 0) 0 = 0 := by omega
      have hm0 : b.d2_counts.getD (N - 1 + row1 - b.queen.getD row2 0) 0 = 0 := by omega
      have hfree1 : ∀ j, j < row1 + 1 → ∀ i, i < j →
          i + b1.queen.getD i 0 ≠ j + b1.queen.getD j 0 ∧
          N - 1 + i - b1.queen.getD i 0 ≠ N - 1 + j - b1.queen.getD j 0 := by
        intro j hj i hij
        by_cases hjr : j = row1
        · subst hjr
          rw [hold i hij, hc1]
          obtain ⟨o1, o2⟩ := hocc i hij
          constructor
          · intro e; rw [e] at o1; exact o1 ha0
          · intro e; rw [e] at o2; exact o2 hm0
        · rw [hold i (by omega), hold j (by omega)]
          exact hfree j (by omega) i hij
      by_cases hend : row1 + 1 = N - 1
      · rw [if_pos hend]
        exact ⟨b1, row1 + 1, k + 1, rfl, hs1, hn1, hpp1, by omega, hfree1⟩
      · rw [if_neg hend]
        refine ih (k + 1) b1 (row1 + 1) hs1 hn1 hpp1 (by omega) ?_ ?_ ?_ hfree1
        · intro x
          rw [hd1 x]
          by_cases hx : x = row1 + b.queen.getD row2 0
          · rw [if_pos hx, hx, ha0]; decide
          · rw [if_neg hx]; exact hb1 x
        · intro x
          rw [hd2 x]
          by_cases hx : x = N - 1 + row1 - b.queen.getD row2 0
          · rw [if_pos hx, hx, hm0]; decide
          · rw [if_neg hx]; exact hb2 x
        · intro r hr'
          by_cases hrr : r = row1
          · subst hrr
            rw [hc1, hd1, if_pos rfl, hd2, if_pos rfl, ha0, hm0]
            decide
          · rw [hold r (by omega), hd1, hd2]
            obtain ⟨o1, o2⟩ := hocc r (by omega)
            constructor
            · by_cases hx : r + b.queen.getD r 0 = row1 + b.queen.getD row2 0
              · rw [if_pos hx, hx, ha0]; decide
              · rw [if_neg hx]; exact o1
            · by_cases hx : N - 1 + r - b.queen.getD r 0 = N - 1 + row1 - b.queen.getD row2 0
              · rw [if_pos hx, hx, hm0]; decide
              · rw [if_neg hx]; exact o2
    · rw [if_neg hc]
      obtain ⟨b1', e1', e3⟩ := undo_partial_swap_partial_swap b hs (by omega) hq row1 row2
        (by omega) (by omega)
        (by have := hb1 (d1_index row1 (b.queen.getD row2 0)); omega)
        (by have := hb2 (d2_index b.N row1 (b.queen.getD row2 0)); omega)
      rw [e1] at e1'; cases e1'
      simp only [e3]
      exact ih (k + 1) b row1 hs hn hp hr hb1 hb2 hocc hfree

theorem swap_colummns_queen {b b' : Board} {r1 r2 : Nat} (h : swap_colummns b r1 r2 = some b') :
    swap_queen b.queen r1 r2 = some b'.queen := by
  unfold swap_colummns at h
  split at h
  · simp only [Option.bind_eq_some] at h
    obtain ⟨u1, e1, u2, e2, w1, f1, w2, f2, u3, e3, u4, e4, w3, f3, w4, f4, q, eq, hb⟩ := h
    cases hb
    exact eq
  · cases h

theorem rand_row_bounds {lo hi raw j : Nat} (h : rand_row lo hi raw = some j) :
    lo ≤ j ∧ lo ≤ hi ∧ hi < 2147483648 := by
  unfold rand_row at h
  split at h
  · rename_i hc
    cases h
    exact ⟨by omega, hc.1, hc.2⟩
  · cases h

/-- The second loop of `initial_placement` leaves the rows below its loop
variable as they are. -/
theorem placement_force_frame (rnd : Nat → Nat) (n : Nat) : ∀ (k : Nat) (b : Board) (i : Nat)
    (b' : Board), placement_force rnd n k b i = some b' →
      ∀ r, r < i → b'.queen.getD r 0 = b.queen.getD r 0 := by
  have hW : W = 4294967296 := rfl
  induction n with
  | zero =>
    intro k b i b' h r _
    cases h; rfl
  | succ n ih =>
    intro k b i b' h r hr
    unfold placement_force at h
    split at h
    · cases h
    · rename_i j e0
      obtain ⟨hij, hihi, hhi⟩ := rand_row_bounds e0
      split at h
      · cases h
      · rename_i b1 e1
        split at h
        · cases h
        · rename_i qi eqi
          split at h
          · rename_i u w e2 e3
            have := ih _ _ _ _ h r (by rw [uadd_lt (by omega)]; omega)
            rw [this]
            show b1.queen.getD r 0 = b.queen.getD r 0
            obtain ⟨h1, h2, eq⟩ := swap_queen_eq (swap_colummns_queen e1)
            rw [eq, getD_set_eq _ _ _ _ (by simpa using h2), getD_set_eq _ _ _ _ h1,
              if_neg (by omega), if_neg (by omega)]
          · cases h

/-- Claim C12. For vectors sized as in `main` and `2 ≤ N < 2^31`, for every stream
of random draws `initial_placement` returns a frontier index `f ≤ N - 1`, and in
the assignment it leaves the rows `0, ..., f - 1` are pairwise conflict-free: no
two of them share a column, an anti-diagonal or a main diagonal. -/
theorem initial_placement_prefix_free (rnd : Nat → Nat) (b : Board) (hs : b.sized)
    (h2 : 2 ≤ b.N) (hN : b.N < 2147483648) :
    ∃ b' f, initial_placement rnd b = some (b', f) ∧ f ≤ b.N - 1 ∧
      prefix_free b'.queen f := by
  have hW : W = 4294967296 := rfl
  obtain ⟨hql, hcl, hd1l, hd2l⟩ := hs
  have hq0 : List.range b.N ++ List.drop b.N b.queen = List.range b.N := by
    rw [List.drop_of_length_le (by omega)]; simp
  obtain ⟨b1, row1, k, e1, hs1, hn1, hp1, hr1, hfree⟩ := placement_search_prefix rnd b.N hN
    ((3 * b.N) % W) 0
    { b with queen := List.range b.N ++ b.queen.drop b.N
             col_counts := fill b.col_counts 1
             d1_counts := fill b.d1_counts 0
             d2_counts := fill b.d2_counts 0 } 0
    (by
      show (List.range b.N ++ List.drop b.N b.queen).length = b.N ∧
        (fill b.col_counts 1).length = b.N ∧ (fill b.d1_counts 0).length = 2 * b.N - 1 ∧
        (fill b.d2_counts 0).length = 2 * b.N - 1
      simp only [hq0, fill, List.length_replicate, List.length_range]
      exact ⟨trivial, hcl, hd1l, hd2l⟩)
    rfl (by simp only [hq0]; exact List.Perm.refl _) (by omega)
    (by intro x; show (fill b.d1_counts 0).getD x 0 ≤ 1
        unfold fill; rw [getD_replicate_zero]; exact Nat.zero_le _)
    (by intro x; show (fill b.d2_counts 0).getD x 0 ≤ 1
        unfold fill; rw [getD_replicate_zero]; exact Nat.zero_le _)
    (by intro r hr; exact absurd hr (Nat.not_lt_zero _))
    (by intro j hj; exact absurd hj (Nat.not_lt_zero _))
  have hf : usub b.N row1 = b.N - row1 := usub_le (by omega) (by omega)
  obtain ⟨b2, e2, hs2, hn2, hp2⟩ := placement_force_total rnd b.N hN (b.N - row1) k b1 row1
    hs1 hn1 hp1 (by omega)
  have hfr := placement_force_frame rnd (b.N - row1) k b1 row1 b2 e2
  refine ⟨b2, row1, ?_, by omega, ?_⟩
  · unfold initial_placement
    rw [if_pos (by omega)]
    simp only [e1, hf, e2]
  · intro j hj i hij
    have hq2 : ∀ c ∈ b2.queen, c < b.N := fun c hc => List.mem_range.mp (hp2.mem_iff.mp hc)
    have hqi : b2.queen.getD i 0 < b.N := getD_lt_of_cols hq2 (by rw [hs2.1]; omega)
    have hqj : b2.queen.getD j 0 < b.N := getD_lt_of_cols hq2 (by rw [hs2.1]; omega)
    obtain ⟨f1, f2⟩ := hfree j hj i hij
    rw [← hfr i (by omega), ← hfr j hj] at f1 f2
    refine ⟨cols_distinct_of_perm hp2 j (by rw [hs2.1]; omega) i hij, f1, ?_⟩
    intro e
    apply f2
    omega

/-- An instance: the first placement of a run for `N = 4`. -/
theorem initial_placement_prefix_free_witness :
    ((fresh 4).sized ∧ 2 ≤ (fresh 4).N ∧ (fresh 4).N < 2147483648) ∧
    ∃ b' f, initial_placement (fun k => [1, 2, 1, 0].getD k 0) (fresh 4) = some (b', f) ∧
      f ≤ (fresh 4).N - 1 ∧ prefix_free b'.queen f :=
  ⟨by decide, initial_placement_prefix_free (fun k => [1, 2, 1, 0].getD k 0) (fresh 4)
    (by decide) (by decide) (by decide)⟩

/-! ## Counter indices and the row scan -/

/-- Claim C19. On a board with vectors sized as in `main` (the diagonal counters
have `2N - 1` entries), `1 ≤ N < 2^31` and column values below `N`: for every
row and column below `N` the index `row + col` is computed without wrap and is at
most `2N - 2`, and the index `N - 1 + row - col` is computed without wrap (the
subtrahend `col` is at most `N - 1 + row`) and is at most `2N - 2`; and for all
rows `row1, row2 < N` each of `total_conflicts`, `partial_conflicts`,
`partial_swap`, `undo_partial_swap` and `swap_colummns` returns, so that none of
their bounds-checked accesses fails. -/
theorem counter_indices_in_range (b : Board) (hs : b.sized) (h1 : 1 ≤ b.N)
    (hN : b.N < 2147483648) (hq : b.cols_in_range) (row1 row2 : Nat) (hr1 : row1 < b.N)
    (hr2 : row2 < b.N) :
    (∀ r c, r < b.N → c < b.N →
      d1_index r c = r + c ∧ d1_index r c ≤ 2 * b.N - 2 ∧
      d2_index b.N r c = b.N - 1 + r - c ∧ c ≤ b.N - 1 + r ∧ b.N - 1 + r < W ∧
      d2_index b.N r c ≤ 2 * b.N - 2) ∧
    (∃ v, total_conflicts b row1 row2 = some v) ∧
    (∃ v, partial_conflicts b row1 = some v) ∧
    (∃ b', partial_swap b row1 row2 = some b') ∧
    (∃ b', undo_partial_swap b row1 row2 = some b') ∧
    (∃ b', swap_colummns b row1 row2 = some b') := by
  have hW : W = 4294967296 := rfl
  refine ⟨?_, ?_, partial_conflicts_some b hs hN hq row1 hr1,
    partial_swap_some b hs hN hq row1 row2 hr1 hr2,
    undo_partial_swap_some b hs hN hq row1 row2 hr1 hr2,
    swap_colummns_some b hs hN hq row1 row2 hr1 hr2⟩
  · intro r c hr hc
    have e1 : d1_index r c = r + c := d1_index_eq (by omega)
    have e2 : d2_index b.N r c = b.N - 1 + r - c := d2_index_eq h1 hr hc hN
    rw [e1, e2]
    exact ⟨rfl, by omega, rfl, by omega, by omega, by omega⟩
  · obtain ⟨v, e, _⟩ := total_conflicts_some b hs hN hq row1 row2 hr1 hr2
    exact ⟨v, e⟩

/-- An instance: the single-queen board, rows `0` and `0`. -/
theorem counter_indices_in_range_witness :
    ((Board.mk 1 [0] [1] [1] [1]).sized ∧ (Board.mk 1 [0] [1] [1] [1]).cols_in_range) ∧
    ((∀ r c, r < 1 → c < 1 →
      d1_index r c = r + c ∧ d1_index r c ≤ 2 * 1 - 2 ∧
      d2_index 1 r c = 1 - 1 + r - c ∧ c ≤ 1 - 1 + r ∧ 1 - 1 + r < W ∧
      d2_index 1 r c ≤ 2 * 1 - 2) ∧
    (∃ v, total_conflicts (Board.mk 1 [0] [1] [1] [1]) 0 0 = some v) ∧
    (∃ v, partial_conflicts (Board.mk 1 [0] [1] [1] [1]) 0 = some v) ∧
    (∃ b', partial_swap (Board.mk 1 [0] [1] [1] [1]) 0 0 = some b') ∧
    (∃ b', undo_partial_swap (Board.mk 1 [0] [1] [1] [1]) 0 0 = some b') ∧
    (∃ b', swap_colummns (Board.mk 1 [0] [1] [1] [1]) 0 0 = some b')) :=
  ⟨by decide, counter_indices_in_range (Board.mk 1 [0] [1] [1] [1]) (by decide) (by decide)
    (by decide) (by decide) 0 0 (by decide) (by decide)⟩

/-- On a board with consistent diagonal counters `partial_conflicts(i)` is the
number of other rows on the two diagonals of row `i`. -/
theorem partial_conflicts_eq_others (b : Board) (hs : b.sized) (hN : b.N < 2147483648)
    (hq : b.cols_in_range) (hc1 : b.d1_consistent) (hc2 : b.d2_consistent) (i : Nat)
    (hi : i < b.N) :
    partial_conflicts b i = some (others_on_d1 b.queen i + others_on_d2 b.queen i) := by
  have hW : W = 4294967296 := rfl
  rw [partial_conflicts_desc b hs (by omega) hN hq i hi]
  obtain ⟨hql, hcl, hd1l, hd2l⟩ := hs
  have hi' : i < b.queen.length := by omega
  have hqi : b.queen.getD i 0 < b.N := getD_lt_of_cols hq hi'
  have ea := hc1 (i + b.queen.getD i 0) (by omega)
  have em := hc2 (b.N - 1 + i - b.queen.getD i 0) (by omega)
  have l1 := rows_on_d1_le b.queen (i + b.queen.getD i 0)
  have l2 := rows_on_d2_le b.N b.queen (b.N - 1 + i - b.queen.getD i 0)
  rw [rows_on_d1_self b.queen i hi'] at ea l1
  rw [rows_on_d2_self b.N b.queen hq i hi'] at em l2
  rw [ea, em, uadd_lt (by omega), usub_le (by omega) (by omega)]
  congr 1
  omega

/-- The cyclic scan reaches a row with non-zero `partial_conflicts` when there is
one among the rows `0, ..., N - 2`. -/
theorem find_conflicted_row_finds (b : Board) (hs : b.sized) (h2 : 2 ≤ b.N)
    (hN : b.N < 2147483648) (hq : b.cols_in_range) (t : Nat)
    (hpt : ∃ c, partial_conflicts b t = some c ∧ c ≠ 0) (fuel : Nat) :
    ∀ r, r < b.N → (∃ d, d < fuel ∧ (r + 1 + d) % (b.N - 1) = t) →
      ∃ r', find_conflicted_row b fuel r = some r' ∧ r' + 2 ≤ b.N ∧
        ∃ c, partial_conflicts b r' = some c ∧ c ≠ 0 := by
  have hW : W = 4294967296 := rfl
  have hu : usub b.N 1 = b.N - 1 := usub_le (by omega) (by omega)
  induction fuel with
  | zero =>
    intro r _ hd
    obtain ⟨d, hd0, _⟩ := hd
    exact absurd hd0 (Nat.not_lt_zero _)
  | succ fuel ih =>
    intro r hr hd
    obtain ⟨d, hdl, hdt⟩ := hd
    have hr1 : uadd r 1 = r + 1 := uadd_lt (by omega)
    have hm : (r + 1) % (b.N - 1) < b.N - 1 := Nat.mod_lt _ (by omega)
    obtain ⟨c1, e1⟩ := partial_conflicts_some b hs hN hq ((r + 1) % (b.N - 1)) (by omega)
    have hne : ¬ b.N - 1 = 0 := by omega
    simp only [find_conflicted_row, hu, hr1, e1, if_neg hne]
    by_cases hc : c1 = 0
    · rw [if_pos hc]
      apply ih _ (by omega)
      cases d with
      | zero =>
        obtain ⟨c, ec, hcn⟩ := hpt
        rw [Nat.add_zero] at hdt
        rw [hdt, ec] at e1
        cases e1
        exact absurd hc hcn
      | succ d' =>
        refine ⟨d', by omega, ?_⟩
        rw [Nat.add_assoc, Nat.mod_add_mod,
          show r + 1 + (1 + d') = r + 1 + (d' + 1) by omega]
        exact hdt
    · rw [if_neg hc]
      exact ⟨_, rfl, by omega, c1, e1, hc⟩

theorem cyclic_distance (n x t : Nat) (ht : t < n) :
    ∃ d, d < n ∧ (x + d) % n = t := by
  have hx : x % n < n := Nat.mod_lt _ (by omega)
  by_cases h : x % n ≤ t
  · refine ⟨t - x % n, by omega, ?_⟩
    rw [← Nat.mod_add_mod, show x % n + (t - x % n) = t by omega]
    exact Nat.mod_eq_of_lt ht
  · refine ⟨t + n - x % n, by omega, ?_⟩
    rw [← Nat.mod_add_mod, show x % n + (t + n - x % n) = t + n by omega,
      Nat.add_mod_right]
    exact Nat.mod_eq_of_lt ht

/-- The row scan on consistent counters.  On a board with vectors sized as in
`main`, `2 ≤ N < 2^31`, an assignment that is a permutation of `0, ..., N - 1`,
counters consistent with the assignment, and a recount that does not give 0:
some row `r` in `[0, N - 2]` has `partial_conflicts(r) != 0`, and the cyclic scan
of `main`, started from any `r0 < N`, returns such a row within `N - 1` rounds. -/
theorem row_scan_terminates (b : Board) (hs : b.sized) (h2 : 2 ≤ b.N)
    (hN : b.N < 2147483648) (hp : b.queen.Perm (List.range b.N)) (hc : b.consistent)
    (hv : (count_all_conflicts_multi b).map Prod.snd ≠ some 0) :
    (∃ r, r ≤ b.N - 2 ∧ ∃ c, partial_conflicts b r = some c ∧ c ≠ 0) ∧
    ∀ r0, r0 < b.N →
      ∃ r, find_conflicted_row b (b.N - 1) r0 = some r ∧ r ≤ b.N - 2 ∧
        ∃ c, partial_conflicts b r = some c ∧ c ≠ 0 := by
  have hq := cols_in_range_of_perm hp
  have hl : b.queen.length = b.N := hs.1
  have hfind : ∃ t, t + 2 ≤ b.N ∧ ∃ c, partial_conflicts b t = some c ∧ c ≠ 0 := by
    by_contra hcon
    apply hv
    obtain ⟨b', v, e, hiff, _⟩ := recount_perm b hs (by omega) hN hp
    rw [e]
    show some v = some 0
    congr 1
    rw [hiff]
    intro j hj i hij
    have hi : i < b.N := by omega
    have epc := partial_conflicts_eq_others b hs hN hq hc.2.1 hc.2.2 i hi
    refine ⟨cols_distinct_of_perm hp j hj i hij, ?_, ?_⟩
    · intro e1
      apply hcon
      refine ⟨i, by omega, _, epc, ?_⟩
      have := countP_range_ge b.queen.length
        (fun r => decide (r ≠ i ∧ r + b.queen.getD r 0 = i + b.queen.getD i 0)) j hj
      beta_reduce at this
      rw [decide_eq_true (show j ≠ i ∧ j + b.queen.getD j 0 = i + b.queen.getD i 0 from
        ⟨by omega, e1.symm⟩)] at this
      unfold others_on_d1
      simp only [if_true] at this
      omega
    · intro e1
      apply hcon
      refine ⟨i, by omega, _, epc, ?_⟩
      have := countP_range_ge b.queen.length
        (fun r => decide (r ≠ i ∧
          (r : Int) - (b.queen.getD r 0 : Int) = (i : Int) - (b.queen.getD i 0 : Int))) j hj
      beta_reduce at this
      rw [decide_eq_true (show j ≠ i ∧
          (j : Int) - (b.queen.getD j 0 : Int) = (i : Int) - (b.queen.getD i 0 : Int) from
        ⟨by omega, e1.symm⟩)] at this
      unfold others_on_d2
      simp only [if_true] at this
      omega
  obtain ⟨t, ht, hpt⟩ := hfind
  refine ⟨⟨t, by omega, hpt⟩, ?_⟩
  intro r0 hr0
  obtain ⟨d, hd, hdt⟩ := cyclic_distance (b.N - 1) (r0 + 1) t (by omega)
  obtain ⟨r, e, hr, hpc⟩ :=
    find_conflicted_row_finds b hs h2 hN hq t hpt (b.N - 1) r0 hr0 ⟨d, hd, hdt⟩
  exact ⟨r, e, by omega, hpc⟩

/-- An instance: the 4-board `[1, 0, 2, 3]`, three violations; the scan started
at row 0 stops at row 2. -/
theorem row_scan_terminates_instance :
    ((Board.mk 4 [1, 0, 2, 3] [1, 1, 1, 1] [0, 2, 0, 0, 1, 0, 1] [0, 0, 1, 2, 1, 0, 0]).consistent ∧
      (count_all_conflicts_multi
        (Board.mk 4 [1, 0, 2, 3] [1, 1, 1, 1] [0, 2, 0, 0, 1, 0, 1] [0, 0, 1, 2, 1, 0, 0])).map
          Prod.snd ≠ some 0) ∧
    ((∃ r, r ≤ 4 - 2 ∧ ∃ c, partial_conflicts
      (Board.mk 4 [1, 0, 2, 3] [1, 1, 1, 1] [0, 2, 0, 0, 1, 0, 1] [0, 0, 1, 2, 1, 0, 0]) r
        = some c ∧ c ≠ 0) ∧
    ∀ r0, r0 < 4 →
      ∃ r, find_conflicted_row
        (Board.mk 4 [1, 0, 2, 3] [1, 1, 1, 1] [0, 2, 0, 0, 1, 0, 1] [0, 0, 1, 2, 1, 0, 0])
          (4 - 1) r0 = some r ∧ r ≤ 4 - 2 ∧
        ∃ c, partial_conflicts
          (Board.mk 4 [1, 0, 2, 3] [1, 1, 1, 1] [0, 2, 0, 0, 1, 0, 1] [0, 0, 1, 2, 1, 0, 0]) r
            = some c ∧ c ≠ 0) :=
  ⟨by decide, row_scan_terminates
    (Board.mk 4 [1, 0, 2, 3] [1, 1, 1, 1] [0, 2, 0, 0, 1, 0, 1] [0, 0, 1, 2, 1, 0, 0])
    (by decide) (by decide) (by decide) (by decide) (by decide) (by decide)⟩

/-! ## The single-queen instance -/

theorem rand_row_zero_zero (raw : Nat) : rand_row 0 0 raw = some 0 := by
  unfold rand_row
  rw [if_pos ⟨Nat.le_refl _, by decide⟩]
  show some (0 + raw % 1) = some 0
  rw [Nat.mod_one]

theorem rand_row_empty (lo hi raw : Nat) (h : hi < lo) : rand_row lo hi raw = none := by
  unfold rand_row
  rw [if_neg (by omega)]

theorem placement_search_single (rnd : Nat → Nat) (n : Nat) :
    placement_search rnd (n + 2) 0 0 (Board.mk 1 [0] [1] [0] [0]) 0 = none := by
  have e1 : partial_swap (Board.mk 1 [0] [1] [0] [0]) 0 0 = some (Board.mk 1 [0] [1] [1] [1]) := by
    decide
  have e2 : partial_conflicts (Board.mk 1 [0] [1] [1] [1]) 0 = some 0 := by decide
  have e3 : usub 1 1 = 0 := by decide
  have e4 : uadd 0 1 = 1 := by decide
  rw [placement_search]
  simp only [e3, rand_row_zero_zero, e1, e2, e4, if_true]
  rw [if_neg (by decide), placement_search]
  simp only [e3, rand_row_empty 1 0 _ (by decide)]

/-- Claim C11, at the failing input `N = 1`. For every stream of random draws:
the first round of `initial_placement` places row 0 and advances `row1` to 1,
which is not `N - 1 = 0`, so the loop goes on with the distribution set to the
empty range `(1, 0)`; no draw from it is defined, and with the counters as they
then are `partial_swap(1, row2)` makes an out-of-range access whatever `row2`
is.  So `initial_placement` does not return on the vectors `main` sizes for
`N = 1`, and `main` yields no result, whatever the number of restarts allowed. -/
theorem initial_placement_single_queen :
    (∀ rnd : Nat → Nat, placement_search rnd 1 0 0 (Board.mk 1 [0] [1] [0] [0]) 0 =
      some (Board.mk 1 [0] [1] [1] [1], 1, 1)) ∧
    (∀ raw, rand_row 1 (usub 1 1) raw = none) ∧
    (∀ row2, partial_swap (Board.mk 1 [0] [1] [1] [1]) 1 row2 = none) ∧
    (∀ rnd : Nat → Nat, initial_placement rnd (fresh 1) = none) ∧
    (∀ (seeds : Nat → Nat → Nat) (fuel : Nat), main seeds fuel 1 = none) := by
  have hf : fresh 1 = Board.mk 1 [0] [0] [0] [0] := by decide
  have hip : ∀ rnd : Nat → Nat, initial_placement rnd (fresh 1) = none := by
    intro rnd
    rw [hf]
    unfold initial_placement
    rw [if_pos (by decide)]
    have hb : ({ Board.mk 1 [0] [0] [0] [0] with
        queen := List.range 1 ++ List.drop 1 [0]
        col_counts := fill [0] 1
        d1_counts := fill [0] 0
        d2_counts := fill [0] 0 } : Board) = Board.mk 1 [0] [1] [0] [0] := by decide
    have h3 : (3 * 1) % W = 1 + 2 := by decide
    simp only [hb, h3, placement_search_single]
  refine ⟨?_, ?_, ?_, hip, ?_⟩
  · intro rnd
    have e1 : partial_swap (Board.mk 1 [0] [1] [0] [0]) 0 0 =
        some (Board.mk 1 [0] [1] [1] [1]) := by decide
    have e2 : partial_conflicts (Board.mk 1 [0] [1] [1] [1]) 0 = some 0 := by decide
    have e3 : usub 1 1 = 0 := by decide
    have e4 : uadd 0 1 = 1 := by decide
    rw [placement_search]
    simp only [e3, rand_row_zero_zero, e1, e2, e4, if_true]
    rw [if_neg (by decide), placement_search]
  · intro raw
    exact rand_row_empty 1 (usub 1 1) raw (by decide)
  · intro row2
    unfold partial_swap
    cases h : (Board.mk 1 [0] [1] [1] [1]).queen[row2]? with
    | none => rfl
    | some q2 =>
      have hd : at_incr (Board.mk 1 [0] [1] [1] [1]).d1_counts (d1_index 1 q2) = none := by
        have hr : row2 = 0 := by
          have := (List.getElem?_eq_some_iff.mp h).1
          simpa using this
        subst hr
        cases h
        decide
      simp only [hd]
  · intro seeds fuel
    unfold main
    rw [if_neg (by decide)]
    cases fuel with
    | zero => rfl
    | succ fuel =>
      unfold search
      simp only [hip]

/-! ## A successful run for eight queens -/

/-- Claim C14. For `N = 8` there is a stream of random draws (the first eight
draws are `0, 3, 5, 2, 3, 1, 1, 0`) for which the search of `main` terminates,
with no restart after the first placement: the final recount gives 0, and the
final assignment `0, 4, 7, 5, 2, 6, 1, 3` consists of 8 distinct values, each in
`[0, 7]`, with no two rows of equal `row + col` and no two of equal `row - col`. -/
theorem main_succeeds_for_eight :
    ∃ (seeds : Nat → Nat → Nat) (fuel : Nat) (b : Board) (restarts : Nat),
      main seeds fuel 8 = some (some (b, restarts)) ∧
      (∃ b', count_all_conflicts_multi b = some (b', 0)) ∧
      b.queen.length = 8 ∧ b.queen.Nodup ∧ (∀ c ∈ b.queen, c ≤ 7) ∧
      (∀ j : Nat, j < 8 → ∀ i : Nat, i < j → i + b.queen.getD i 0 ≠ j + b.queen.getD j 0) ∧
      (∀ j : Nat, j < 8 → ∀ i : Nat, i < j →
        (i : Int) - (b.queen.getD i 0 : Int) ≠ (j : Int) - (b.queen.getD j 0 : Int)) ∧
      valid_placement b.queen :=
  ⟨fun _ k => [0, 3, 5, 2, 3, 1, 1, 0].getD k 0, 1,
    Board.mk 8 [0, 4, 7, 5, 2, 6, 1, 3] [1, 1, 1, 1, 1, 1, 1, 1]
      [1, 0, 0, 0, 0, 1, 1, 1, 1, 1, 1, 1, 0, 0, 0]
      [0, 0, 1, 1, 0, 1, 0, 1, 1, 1, 1, 0, 1, 0, 0], 0,
    by decide,
    ⟨Board.mk 8 [0, 4, 7, 5, 2, 6, 1, 3] [1, 1, 1, 1, 1, 1, 1, 1]
      [1, 0, 0, 0, 0, 1, 1, 1, 1, 1, 1, 1, 0, 0, 0]
      [0, 0, 1, 1, 0, 1, 0, 1, 1, 1, 1, 0, 1, 0, 0], by decide⟩,
    by decide, by decide, by decide, by decide, by decide, by decide⟩

/-! ## The repair budget and the sentinel -/

/-- The repair loop runs `repair_round` while its condition holds. -/
theorem repair_succ (fuel0 old fuel : Nat) (b : Board) (r attempt new : Nat) :
    repair fuel0 old (fuel + 1) b r attempt new =
      if attempt < 2000 ∧ new ≠ 0 then
        match repair_round fuel0 old b r attempt with
        | none => none
        | some (b2, r1, attempt1, new1) =>
          if new1 = 0 then some b2 else repair fuel0 old fuel b2 r1 attempt1 new1
      else some b := by
  rw [repair]
  unfold repair_round
  by_cases hc : attempt < 2000 ∧ new ≠ 0
  · rw [if_pos hc, if_pos hc]
    cases h1 : find_conflicted_row b fuel0 r with
    | none => rfl
    | some r1 =>
      dsimp only
      cases h2 : min_conflicts_assignment b r1 with
      | none => rfl
      | some p =>
        obtain ⟨b1, m⟩ := p
        dsimp only
        cases h3 : count_all_conflicts_multi b1 with
        | none => rfl
        | some p2 =>
          obtain ⟨b2, new1⟩ := p2
          dsimp only
          by_cases h0 : new1 = 0
          · simp only [h0, if_true]
          · by_cases hge : new1 ≥ old
            · simp only [h0, hge, if_true, if_false]
            · simp only [h0, hge, if_false]
  · rw [if_neg hc, if_neg hc]

/-- What a round of the repair loop charges: the `attempt` counter goes up by
one, and by `1 + 2 * (new_conflicts - old_conflicts)` more when the violations
after the move are non-zero and not below `old_conflicts`, the count taken
before the loop was entered. -/
theorem repair_round_budget (fuel0 old : Nat) (b : Board) (r attempt : Nat) (b2 : Board)
    (r1 attempt1 new1 : Nat) (h : repair_round fuel0 old b r attempt = some (b2, r1, attempt1, new1)) :
    attempt1 =
      if new1 ≠ 0 ∧ old ≤ new1 then
        uadd (uadd attempt 1) (uadd 1 ((usub new1 old * 2) % W))
      else uadd attempt 1 := by
  unfold repair_round at h
  split at h
  · cases h
  · split at h
    · cases h
    · split at h
      · cases h
      · rename_i b2' new1' _
        by_cases h0 : new1' = 0
        · rw [if_pos h0] at h
          cases h
          rw [if_neg (fun hh => hh.1 h0)]
        · rw [if_neg h0] at h
          by_cases hge : new1' ≥ old
          · rw [if_pos hge] at h
            cases h
            rw [if_pos ⟨h0, hge⟩]
          · rw [if_neg hge] at h
            cases h
            rw [if_neg (fun hh => hge hh.2)]

/-- Claim C13, at the failing input: the run for `N = 4` in which every draw is 0.
The first placement is the identity, with 3 violations, and `old_conflicts` is 3
for the whole attempt.  The first two moves lower the violations to 2 and to 1
and are charged one attempt each.  The third move raises the violations from 1
to 2 and is charged one attempt only (`attempt` goes from 2 to 3), since 2 is
below `old_conflicts`.  The fourth move raises them from 2 to 3 and is charged
two attempts (`attempt` goes from 3 to 5): the penalty is `1 + 2 * (3 - 3)`,
the rise being measured from `old_conflicts`. -/
theorem repair_round_budget_from_first_count :
    initial_placement (fun _ => 0) (fresh 4) =
      some (Board.mk 4 [0, 1, 2, 3] [1, 1, 1, 1] [1, 0, 3, 0, 3, 0, 3] [0, 0, 0, 5, 0, 0, 0], 1) ∧
    count_all_conflicts_multi
        (Board.mk 4 [0, 1, 2, 3] [1, 1, 1, 1] [1, 0, 3, 0, 3, 0, 3] [0, 0, 0, 5, 0, 0, 0]) =
      some (Board.mk 4 [0, 1, 2, 3] [1, 1, 1, 1] [1, 0, 1, 0, 1, 0, 1] [0, 0, 0, 4, 0, 0, 0], 3) ∧
    repair_round 4 3
        (Board.mk 4 [0, 1, 2, 3] [1, 1, 1, 1] [1, 0, 1, 0, 1, 0, 1] [0, 0, 0, 4, 0, 0, 0]) 0 0 =
      some (Board.mk 4 [1, 0, 2, 3] [1, 1, 1, 1] [0, 2, 0, 0, 1, 0, 1] [0, 0, 1, 2, 1, 0, 0],
        1, 1, 2) ∧
    repair_round 4 3
        (Board.mk 4 [1, 0, 2, 3] [1, 1, 1, 1] [0, 2, 0, 0, 1, 0, 1] [0, 0, 1, 2, 1, 0, 0]) 1 1 =
      some (Board.mk 4 [2, 0, 1, 3] [1, 1, 1, 1] [0, 1, 1, 1, 0, 0, 1] [0, 0, 2, 1, 0, 1, 0],
        2, 2, 1) ∧
    repair_round 4 3
        (Board.mk 4 [2, 0, 1, 3] [1, 1, 1, 1] [0, 1, 1, 1, 0, 0, 1] [0, 0, 2, 1, 0, 1, 0]) 2 2 =
      some (Board.mk 4 [0, 2, 1, 3] [1, 1, 1, 1] [1, 0, 0, 2, 0, 0, 1] [0, 0, 1, 2, 1, 0, 0],
        0, 3, 2) ∧
    repair_round 4 3
        (Board.mk 4 [0, 2, 1, 3] [1, 1, 1, 1] [1, 0, 0, 2, 0, 0, 1] [0, 0, 1, 2, 1, 0, 0]) 0 3 =
      some (Board.mk 4 [0, 1, 2, 3] [1, 1, 1, 1] [1, 0, 1, 0, 1, 0, 1] [0, 0, 0, 4, 0, 0, 0],
        1, 5, 3) := by
  refine ⟨by decide, by decide, by decide, by decide, by decide, by decide⟩

/-- Claim C15, at the failing input: `N = 6`, the assignment `4, 1, 3, 2, 0, 5`
with counters consistent with it, `row1 = 1`.  The board is the one a run
reaches after the first placement and recount when the draws are 4, then
seventeen times 2, then 0, 1 and 0 from there on, and row 1 is the row the scan
of `main` selects.  For every other row `total_conflicts` returns 4294967295,
the sentinel, which is not below the sentinel: no row is recorded as best and
`min_conflicts_assignment` returns with the board as it was. -/
theorem min_conflicts_assignment_commits_no_swap :
    initial_placement (fun k => if k = 0 then 4 else if k ≤ 17 then 2 else if k = 19 then 1 else 0)
        (fresh 6) =
      some (Board.mk 6 [4, 1, 3, 2, 0, 5] [1, 1, 1, 1, 1, 1] [0, 0, 3, 0, 3, 4, 0, 0, 0, 0, 3]
        [0, 1, 0, 0, 2, 3, 3, 0, 0, 3, 0], 1) ∧
    count_all_conflicts_multi
        (Board.mk 6 [4, 1, 3, 2, 0, 5] [1, 1, 1, 1, 1, 1] [0, 0, 3, 0, 3, 4, 0, 0, 0, 0, 3]
          [0, 1, 0, 0, 2, 3, 3, 0, 0, 3, 0]) =
      some (Board.mk 6 [4, 1, 3, 2, 0, 5] [1, 1, 1, 1, 1, 1] [0, 0, 1, 0, 2, 2, 0, 0, 0, 0, 1]
        [0, 1, 0, 0, 1, 2, 1, 0, 0, 1, 0], 3) ∧
    (Board.mk 6 [4, 1, 3, 2, 0, 5] [1, 1, 1, 1, 1, 1] [0, 0, 1, 0, 2, 2, 0, 0, 0, 0, 1]
      [0, 1, 0, 0, 1, 2, 1, 0, 0, 1, 0]).consistent ∧
    find_conflicted_row
        (Board.mk 6 [4, 1, 3, 2, 0, 5] [1, 1, 1, 1, 1, 1] [0, 0, 1, 0, 2, 2, 0, 0, 0, 0, 1]
          [0, 1, 0, 0, 1, 2, 1, 0, 0, 1, 0]) 5 0 = some 1 ∧
    (∀ row2, row2 < 6 → row2 ≠ 1 →
      total_conflicts
        (Board.mk 6 [4, 1, 3, 2, 0, 5] [1, 1, 1, 1, 1, 1] [0, 0, 1, 0, 2, 2, 0, 0, 0, 0, 1]
          [0, 1, 0, 0, 1, 2, 1, 0, 0, 1, 0]) 1 row2 = some 4294967295) ∧
    usub 0 1 = 4294967295 ∧
    min_conflicts_scan
        (Board.mk 6 [4, 1, 3, 2, 0, 5] [1, 1, 1, 1, 1, 1] [0, 0, 1, 0, 2, 2, 0, 0, 0, 0, 1]
          [0, 1, 0, 0, 1, 2, 1, 0, 0, 1, 0]) 1 6 0 (usub 0 1) (usub 0 1) [] =
      some (4294967295, 4294967295, [0, 2, 3, 4, 5]) ∧
    min_conflicts_assignment
        (Board.mk 6 [4, 1, 3, 2, 0, 5] [1, 1, 1, 1, 1, 1] [0, 0, 1, 0, 2, 2, 0, 0, 0, 0, 1]
          [0, 1, 0, 0, 1, 2, 1, 0, 0, 1, 0]) 1 =
      some (Board.mk 6 [4, 1, 3, 2, 0, 5] [1, 1, 1, 1, 1, 1] [0, 0, 1, 0, 2, 2, 0, 0, 0, 0, 1]
        [0, 1, 0, 0, 1, 2, 1, 0, 0, 1, 0], 4294967295) := by
  refine ⟨by decide, by decide, by decide, by decide, by decide, by decide, by decide, by decide⟩

/-! ## The guarded decrements -/

/-- The guarded decrements of `d2_counts` in the repair loop.  In the run for
`N = 4` in which every draw is 0, the third round of the repair loop works on
the board that the recount left for the assignment `2, 0, 1, 3`: `d1_counts` is
consistent with the assignment, `d2_counts` is numbered from the other end and
is not.  The round selects row 0, `min_conflicts_assignment(0)` chooses row 1,
and in its call `swap_colummns(0, 1)` no guarded decrement of `d1_counts` and
both guarded decrements of `d2_counts` are skipped. -/
theorem swap_colummns_d2_guards_after_recount :
    initial_placement (fun _ => 0) (fresh 4) =
      some (Board.mk 4 [0, 1, 2, 3] [1, 1, 1, 1] [1, 0, 3, 0, 3, 0, 3] [0, 0, 0, 5, 0, 0, 0], 1) ∧
    count_all_conflicts_multi
        (Board.mk 4 [0, 1, 2, 3] [1, 1, 1, 1] [1, 0, 3, 0, 3, 0, 3] [0, 0, 0, 5, 0, 0, 0]) =
      some (Board.mk 4 [0, 1, 2, 3] [1, 1, 1, 1] [1, 0, 1, 0, 1, 0, 1] [0, 0, 0, 4, 0, 0, 0], 3) ∧
    repair_round 4 3
        (Board.mk 4 [0, 1, 2, 3] [1, 1, 1, 1] [1, 0, 1, 0, 1, 0, 1] [0, 0, 0, 4, 0, 0, 0]) 0 0 =
      some (Board.mk 4 [1, 0, 2, 3] [1, 1, 1, 1] [0, 2, 0, 0, 1, 0, 1] [0, 0, 1, 2, 1, 0, 0],
        1, 1, 2) ∧
    repair_round 4 3
        (Board.mk 4 [1, 0, 2, 3] [1, 1, 1, 1] [0, 2, 0, 0, 1, 0, 1] [0, 0, 1, 2, 1, 0, 0]) 1 1 =
      some (Board.mk 4 [2, 0, 1, 3] [1, 1, 1, 1] [0, 1, 1, 1, 0, 0, 1] [0, 0, 2, 1, 0, 1, 0],
        2, 2, 1) ∧
    (Board.mk 4 [2, 0, 1, 3] [1, 1, 1, 1] [0, 1, 1, 1, 0, 0, 1] [0, 0, 2, 1, 0, 1, 0]).d1_consistent ∧
    ¬ (Board.mk 4 [2, 0, 1, 3] [1, 1, 1, 1] [0, 1, 1, 1, 0, 0, 1] [0, 0, 2, 1, 0, 1, 0]).d2_consistent ∧
    find_conflicted_row
        (Board.mk 4 [2, 0, 1, 3] [1, 1, 1, 1] [0, 1, 1, 1, 0, 0, 1] [0, 0, 2, 1, 0, 1, 0]) 4 2 =
      some 0 ∧
    min_conflicts_scan
        (Board.mk 4 [2, 0, 1, 3] [1, 1, 1, 1] [0, 1, 1, 1, 0, 0, 1] [0, 0, 2, 1, 0, 1, 0]) 0 4 0
        (usub 0 1) (usub 0 1) [] = some (0, 1, [1]) ∧
    swap_colummns_skips
        (Board.mk 4 [2, 0, 1, 3] [1, 1, 1, 1] [0, 1, 1, 1, 0, 0, 1] [0, 0, 2, 1, 0, 1, 0]) 0 1 =
      some (0, 2) := by
  refine ⟨by decide, by decide, by decide, by decide, by decide, by decide, by decide, by decide,
    by decide⟩

/-! ## A row swapped with itself -/

/-- Two guarded decrements and two increments of one and the same entry: the
entry ends at the larger of its value and 2. -/
theorem same_entry_update (v : List Nat) (i : Nat) (hi : i < v.length)
    (hw : v.getD i 0 < W) :
    ∃ v1 v2 v3 v4, at_decr_guarded v i = some v1 ∧ at_decr_guarded v1 i = some v2 ∧
      at_incr v2 i = some v3 ∧ at_incr v3 i = some v4 ∧
      v4 = v.set i (max (v.getD i 0) 2) := by
  have hW : W = 4294967296 := rfl
  have hset : ∀ x, i < (v.set i x).length := fun x => by simpa using hi
  have g : ∀ x, (v.set i x).getD i 0 = x := fun x => by
    rw [getD_set_eq _ _ _ _ hi, if_pos rfl]
  have u01 : uadd 0 1 = 1 := by decide
  have u12 : uadd 1 1 = 2 := by decide
  have s11 : usub 1 1 = 0 := by decide
  by_cases h0 : v.getD i 0 = 0
  · refine ⟨v, v, v.set i 1, v.set i 2, ?_, ?_, ?_, ?_, ?_⟩
    · simp only [at_decr_guarded, getElem?_of_getD hi, h0, ne_eq, not_true_eq_false, if_false]
    · simp only [at_decr_guarded, getElem?_of_getD hi, h0, ne_eq, not_true_eq_false, if_false]
    · simp only [at_incr, getElem?_of_getD hi, h0, u01]
    · simp only [at_incr, getElem?_of_getD (hset 1), g, u12, List.set_set]
    · rw [h0]; rfl
  · by_cases h1 : v.getD i 0 = 1
    · refine ⟨v.set i 0, v.set i 0, v.set i 1, v.set i 2, ?_, ?_, ?_, ?_, ?_⟩
      · simp only [at_decr_guarded, getElem?_of_getD hi, h1, ne_eq, one_ne_zero,
          not_false_eq_true, if_true, s11]
      · simp only [at_decr_guarded, getElem?_of_getD (hset 0), g, ne_eq, not_true_eq_false,
          if_false]
      · simp only [at_incr, getElem?_of_getD (hset 0), g, u01, List.set_set]
      · simp only [at_incr, getElem?_of_getD (hset 1), g, u12, List.set_set]
      · rw [h1]; rfl
    · have e1 : usub (v.getD i 0) 1 = v.getD i 0 - 1 := usub_le (by omega) hw
      have e2 : usub (v.getD i 0 - 1) 1 = v.getD i 0 - 2 := by
        rw [usub_le (by omega) (by omega)]; omega
      have e3 : uadd (v.getD i 0 - 2) 1 = v.getD i 0 - 1 := by
        rw [uadd_lt (by omega)]; omega
      have e4 : uadd (v.getD i 0 - 1) 1 = v.getD i 0 := by
        rw [uadd_lt (by omega)]; omega
      have n1 : v.getD i 0 - 1 ≠ 0 := by omega
      refine ⟨v.set i (v.getD i 0 - 1), v.set i (v.getD i 0 - 2), v.set i (v.getD i 0 - 1),
        v.set i (v.getD i 0), ?_, ?_, ?_, ?_, ?_⟩
      · simp only [at_decr_guarded, getElem?_of_getD hi, ne_eq, h0, not_false_eq_true, if_true,
          e1]
      · simp only [at_decr_guarded, getElem?_of_getD (hset _), g, ne_eq, n1, not_false_eq_true,
          if_true, e2, List.set_set]
      · simp only [at_incr, getElem?_of_getD (hset _), g, e3, List.set_set]
      · simp only [at_incr, getElem?_of_getD (hset _), g, e4, List.set_set]
      · rw [Nat.max_eq_left (by omega)]

theorem set_eq_self_iff (v : List Nat) (i x : Nat) (hi : i < v.length) :
    v.set i x = v ↔ x = v.getD i 0 := by
  constructor
  · intro h
    have := congrArg (fun l => l.getD i 0) h
    simp only [getD_set_eq _ _ _ _ hi, if_true] at this
    exact this
  · intro h
    rw [h]; exact set_getD_self v i

/-- Claim C20, counterexample. On the solved 4-board `1, 3, 0, 2` with consistent
counters, `swap_colummns(1, 1)` leaves the assignment as it is, but the first
guarded decrement of each diagonal counter takes the entry of row 1 from 1 to 0,
the second one is skipped, and the two increments take it to 2: the entries
`d1_counts[4]` and `d2_counts[1]` go from 1 to 2, and the counters are no longer
consistent with the assignment. -/
theorem swap_colummns_same_row_changes_counters :
    (Board.mk 4 [1, 3, 0, 2] [1, 1, 1, 1] [0, 1, 1, 0, 1, 1, 0] [0, 1, 1, 0, 1, 1, 0]).consistent ∧
    swap_colummns
        (Board.mk 4 [1, 3, 0, 2] [1, 1, 1, 1] [0, 1, 1, 0, 1, 1, 0] [0, 1, 1, 0, 1, 1, 0]) 1 1 =
      some (Board.mk 4 [1, 3, 0, 2] [1, 1, 1, 1] [0, 1, 1, 0, 2, 1, 0] [0, 2, 1, 0, 1, 1, 0]) ∧
    swap_colummns_skips
        (Board.mk 4 [1, 3, 0, 2] [1, 1, 1, 1] [0, 1, 1, 0, 1, 1, 0] [0, 1, 1, 0, 1, 1, 0]) 1 1 =
      some (1, 1) ∧
    ¬ (Board.mk 4 [1, 3, 0, 2] [1, 1, 1, 1] [0, 1, 1, 0, 2, 1, 0] [0, 2, 1, 0, 1, 1, 0]).consistent := by
  refine ⟨by decide, by decide, by decide, by decide⟩

/-- Claim C20, as amended. For vectors sized as in `main`, `N < 2^31`, column
values below `N`, counter entries that are `unsigned` values and a row `r < N`:
`swap_colummns(r, r)` returns and leaves `N`, the assignment and the column
counter unchanged; of the diagonal counters it changes at most the two entries of
row `r`, `d1_counts[r + queen[r]]` and `d2_counts[N - 1 + r - queen[r]]`, each of
which becomes the larger of its value and 2.  So the call leaves the board
unchanged exactly when both entries are at least 2; on counters consistent with
the assignment, exactly when another row shares the anti-diagonal of row `r` and
another row shares its main diagonal. -/
theorem swap_colummns_same_row (b : Board) (hs : b.sized) (hN : b.N < 2147483648)
    (hq : b.cols_in_range) (hw : b.words) (r : Nat) (hr : r < b.N) :
    ∃ b', swap_colummns b r r = some b' ∧
      b'.N = b.N ∧ b'.queen = b.queen ∧ b'.col_counts = b.col_counts ∧
      b'.d1_counts = b.d1_counts.set (r + b.queen.getD r 0)
        (max (b.d1_counts.getD (r + b.queen.getD r 0) 0) 2) ∧
      b'.d2_counts = b.d2_counts.set (b.N - 1 + r - b.queen.getD r 0)
        (max (b.d2_counts.getD (b.N - 1 + r - b.queen.getD r 0) 0) 2) ∧
      (b' = b ↔ 2 ≤ b.d1_counts.getD (r + b.queen.getD r 0) 0 ∧
        2 ≤ b.d2_counts.getD (b.N - 1 + r - b.queen.getD r 0) 0) ∧
      (b.d1_consistent → b.d2_consistent →
        (b' = b ↔ others_on_d1 b.queen r ≠ 0 ∧ others_on_d2 b.queen r ≠ 0)) := by
  have hW : W = 4294967296 := rfl
  obtain ⟨hql, hcl, hd1l, hd2l⟩ := hs
  have hr' : r < b.queen.length := by omega
  have hqr : b.queen.getD r 0 < b.N := getD_lt_of_cols hq hr'
  have i1 : d1_index r (b.queen.getD r 0) = r + b.queen.getD r 0 := d1_index_eq (by omega)
  have j1 := d2_index_eq (by omega) hr hqr hN
  have ha : r + b.queen.getD r 0 < b.d1_counts.length := by omega
  have hm : b.N - 1 + r - b.queen.getD r 0 < b.d2_counts.length := by omega
  obtain ⟨u1, u2, u3, u4, e1, e2, e3, e4, eu⟩ := same_entry_update b.d1_counts
    (r + b.queen.getD r 0) ha
    (by rw [List.getD_eq_getElem _ _ ha]; exact hw.1 _ (List.getElem_mem _))
  obtain ⟨w1, w2, w3, w4, f1, f2, f3, f4, ew⟩ := same_entry_update b.d2_counts
    (b.N - 1 + r - b.queen.getD r 0) hm
    (by rw [List.getD_eq_getElem _ _ hm]; exact hw.2 _ (List.getElem_mem _))
  have hsw : swap_queen b.queen r r = some b.queen := by
    simp only [swap_queen, getElem?_of_getD hr', List.set_set, set_getD_self]
  have hrun : swap_colummns b r r =
      some { b with queen := b.queen, d1_counts := u4, d2_counts := w4 } := by
    simp only [swap_colummns, getElem?_of_getD hr', i1, j1, e1, e2, e3, e4, f1, f2, f3, f4,
      Option.some_bind, hsw]
  have hiff : ({ b with queen := b.queen, d1_counts := u4, d2_counts := w4 } : Board) = b ↔
      2 ≤ b.d1_counts.getD (r + b.queen.getD r 0) 0 ∧
        2 ≤ b.d2_counts.getD (b.N - 1 + r - b.queen.getD r 0) 0 := by
    have k1 := set_eq_self_iff b.d1_counts (r + b.queen.getD r 0)
      (max (b.d1_counts.getD (r + b.queen.getD r 0) 0) 2) ha
    have k2 := set_eq_self_iff b.d2_counts (b.N - 1 + r - b.queen.getD r 0)
      (max (b.d2_counts.getD (b.N - 1 + r - b.queen.getD r 0) 0) 2) hm
    rw [← eu] at k1
    rw [← ew] at k2
    constructor
    · intro h
      have h1 : u4 = b.d1_counts := congrArg Board.d1_counts h
      have h2 : w4 = b.d2_counts := congrArg Board.d2_counts h
      have := k1.mp h1
      have := k2.mp h2
      omega
    · intro h
      have h1 : u4 = b.d1_counts := k1.mpr (by omega)
      have h2 : w4 = b.d2_counts := k2.mpr (by omega)
      rw [h1, h2]
  refine ⟨_, hrun, rfl, rfl, rfl, eu, ew, hiff, ?_⟩
  intro hc1 hc2
  rw [hiff, hc1 _ ha, hc2 _ hm, rows_on_d1_self b.queen r hr',
    rows_on_d2_self b.N b.queen hq r hr']
  omega

/-- An instance: row 0 of the 4-board `1, 0, 2, 3`, which shares its
anti-diagonal with row 1 and is alone on its main diagonal. -/
theorem swap_colummns_same_row_witness :
    ((Board.mk 4 [1, 0, 2, 3] [1, 1, 1, 1] [0, 2, 0, 0, 1, 0, 1] [0, 0, 1, 2, 1, 0, 0]).sized ∧
      (Board.mk 4 [1, 0, 2, 3] [1, 1, 1, 1] [0, 2, 0, 0, 1, 0, 1] [0, 0, 1, 2, 1, 0, 0]).words ∧
      (Board.mk 4 [1, 0, 2, 3] [1, 1, 1, 1] [0, 2, 0, 0, 1, 0, 1]
        [0, 0, 1, 2, 1, 0, 0]).cols_in_range) ∧
    ∃ b', swap_colummns
        (Board.mk 4 [1, 0, 2, 3] [1, 1, 1, 1] [0, 2, 0, 0, 1, 0, 1] [0, 0, 1, 2, 1, 0, 0]) 0 0 =
        some b' ∧
      b'.N = 4 ∧ b'.queen = [1, 0, 2, 3] ∧ b'.col_counts = [1, 1, 1, 1] ∧
      b'.d1_counts = [0, 2, 0, 0, 1, 0, 1].set (0 + 1) (max 2 2) ∧
      b'.d2_counts = [0, 0, 1, 2, 1, 0, 0].set (4 - 1 + 0 - 1) (max 1 2) ∧
      (b' = Board.mk 4 [1, 0, 2, 3] [1, 1, 1, 1] [0, 2, 0, 0, 1, 0, 1] [0, 0, 1, 2, 1, 0, 0] ↔
        2 ≤ 2 ∧ 2 ≤ 1) ∧
      ((Board.mk 4 [1, 0, 2, 3] [1, 1, 1, 1] [0, 2, 0, 0, 1, 0, 1]
          [0, 0, 1, 2, 1, 0, 0]).d1_consistent →
        (Board.mk 4 [1, 0, 2, 3] [1, 1, 1, 1] [0, 2, 0, 0, 1, 0, 1]
          [0, 0, 1, 2, 1, 0, 0]).d2_consistent →
        (b' = Board.mk 4 [1, 0, 2, 3] [1, 1, 1, 1] [0, 2, 0, 0, 1, 0, 1] [0, 0, 1, 2, 1, 0, 0] ↔
          others_on_d1 [1, 0, 2, 3] 0 ≠ 0 ∧ others_on_d2 [1, 0, 2, 3] 0 ≠ 0)) :=
  ⟨by decide, swap_colummns_same_row
    (Board.mk 4 [1, 0, 2, 3] [1, 1, 1, 1] [0, 2, 0, 0, 1, 0, 1] [0, 0, 1, 2, 1, 0, 0])
    (by decide) (by decide) (by decide) (by decide) 0 (by decide)⟩

/-! ## The row scan after a recount -/

theorem find_conflicted_row_stuck (b : Board) (n : Nat) (hn : usub b.N 1 = n)
    (hz : ∀ x, x < n → partial_conflicts b x = some 0) (fuel : Nat) :
    ∀ r, find_conflicted_row b fuel r = none := by
  induction fuel with
  | zero => intro r; rfl
  | succ fuel ih =>
    intro r
    rw [find_conflicted_row]
    by_cases h0 : usub b.N 1 = 0
    · rw [if_pos h0]
    · rw [if_neg h0, hn, hz _ (Nat.mod_lt _ (by omega))]
      simp only [if_true]
      exact ih _

theorem stuck_placement :
    initial_placement (fun k => if k ≤ 15 then 3 else if k = 16 then 2 else if k = 17 then 1 else 0) (fresh 5) =
      some ((Board.mk 5 [3, 4, 1, 2, 0] [1, 1, 1, 1, 1] [0, 0, 0, 2, 3, 4, 0, 0, 0]
      [0, 3, 0, 0, 0, 4, 0, 0, 3]), 1) := by
  decide

theorem stuck_recount :
    count_all_conflicts_multi (Board.mk 5 [3, 4, 1, 2, 0] [1, 1, 1, 1, 1] [0, 0, 0, 2, 3, 4, 0, 0, 0]
      [0, 3, 0, 0, 0, 4, 0, 0, 3]) =
      some ((Board.mk 5 [3, 4, 1, 2, 0] [1, 1, 1, 1, 1] [0, 0, 0, 2, 1, 2, 0, 0, 0]
      [1, 0, 0, 2, 0, 0, 0, 2, 0]), 4) := by
  decide

theorem stuck_mirrored :
    ¬ (Board.mk 5 [3, 4, 1, 2, 0] [1, 1, 1, 1, 1] [0, 0, 0, 2, 1, 2, 0, 0, 0]
      [1, 0, 0, 2, 0, 0, 0, 2, 0]).d2_consistent := by
  intro h
  have h0 : [1, 0, 0, 2, 0, 0, 0, 2, 0].getD 0 0 = rows_on_d2 5 [3, 4, 1, 2, 0] 0 :=
    h 0 (by decide)
  revert h0
  decide

theorem stuck_rows :
    ∀ r, r < 4 → partial_conflicts (Board.mk 5 [3, 4, 1, 2, 0] [1, 1, 1, 1, 1] [0, 0, 0, 2, 1, 2, 0, 0, 0]
      [1, 0, 0, 2, 0, 0, 0, 2, 0]) r = some 0 := by
  decide

theorem stuck_scan (fuel r : Nat) :
    find_conflicted_row (Board.mk 5 [3, 4, 1, 2, 0] [1, 1, 1, 1, 1] [0, 0, 0, 2, 1, 2, 0, 0, 0]
      [1, 0, 0, 2, 0, 0, 0, 2, 0]) fuel r = none :=
  find_conflicted_row_stuck _ 4 (by decide) stuck_rows fuel r

theorem stuck_search (seeds : Nat → Nat → Nat)
    (hseed : seeds 0 =
      (fun k => if k ≤ 15 then 3 else if k = 16 then 2 else if k = 17 then 1 else 0))
    (fuel : Nat) : main seeds fuel 5 = none := by
  unfold main
  rw [if_neg (by decide)]
  cases fuel with
  | zero => rfl
  | succ fuel =>
    rw [search, hseed, stuck_placement]
    simp only [stuck_recount]
    rw [repair, if_pos (by decide), stuck_scan]

theorem stuck_main (seeds : Nat → Nat → Nat) (fuel : Nat) :
    main (fun t => if t = 0 then
        (fun k => if k ≤ 15 then 3 else if k = 16 then 2 else if k = 17 then 1 else 0)
      else seeds t) fuel 5 = none :=
  stuck_search _ (if_pos rfl) fuel

/-- Claim C18, at the failing input: the run for `N = 5` whose first placement
draws sixteen times 3, then 2, 1 and 0 from there on.  The first placement is
`3, 4, 1, 2, 0`, a permutation, and the recount gives 4 violations, so the repair
loop and its row scan are entered.  The recount leaves the column and
anti-diagonal counters consistent with the assignment, but the diagonal counter
numbered from the other end: `partial_conflicts` is 0 for each of the rows
`0, ..., 3`, the scan does not return whatever the number of rounds and the row
it starts from, and `main` yields no result whatever the number of restarts
allowed and the draws of later placements. -/
theorem row_scan_stuck_after_recount :
    initial_placement (fun k => if k ≤ 15 then 3 else if k = 16 then 2 else if k = 17 then 1 else 0) (fresh 5) =
      some ((Board.mk 5 [3, 4, 1, 2, 0] [1, 1, 1, 1, 1] [0, 0, 0, 2, 3, 4, 0, 0, 0]
      [0, 3, 0, 0, 0, 4, 0, 0, 3]), 1) ∧
    count_all_conflicts_multi (Board.mk 5 [3, 4, 1, 2, 0] [1, 1, 1, 1, 1] [0, 0, 0, 2, 3, 4, 0, 0, 0]
      [0, 3, 0, 0, 0, 4, 0, 0, 3]) =
      some ((Board.mk 5 [3, 4, 1, 2, 0] [1, 1, 1, 1, 1] [0, 0, 0, 2, 1, 2, 0, 0, 0]
      [1, 0, 0, 2, 0, 0, 0, 2, 0]), 4) ∧
    ((Board.mk 5 [3, 4, 1, 2, 0] [1, 1, 1, 1, 1] [0, 0, 0, 2, 1, 2, 0, 0, 0]
      [1, 0, 0, 2, 0, 0, 0, 2, 0]).col_consistent ∧
      (Board.mk 5 [3, 4, 1, 2, 0] [1, 1, 1, 1, 1] [0, 0, 0, 2, 1, 2, 0, 0, 0]
      [1, 0, 0, 2, 0, 0, 0, 2, 0]).d1_consistent ∧
      ¬ (Board.mk 5 [3, 4, 1, 2, 0] [1, 1, 1, 1, 1] [0, 0, 0, 2, 1, 2, 0, 0, 0]
      [1, 0, 0, 2, 0, 0, 0, 2, 0]).d2_consistent) ∧
    partial_conflicts (Board.mk 5 [3, 4, 1, 2, 0] [1, 1, 1, 1, 1] [0, 0, 0, 2, 1, 2, 0, 0, 0]
      [1, 0, 0, 2, 0, 0, 0, 2, 0]) 0 = some 0 ∧
    partial_conflicts (Board.mk 5 [3, 4, 1, 2, 0] [1, 1, 1, 1, 1] [0, 0, 0, 2, 1, 2, 0, 0, 0]
      [1, 0, 0, 2, 0, 0, 0, 2, 0]) 1 = some 0 ∧
    partial_conflicts (Board.mk 5 [3, 4, 1, 2, 0] [1, 1, 1, 1, 1] [0, 0, 0, 2, 1, 2, 0, 0, 0]
      [1, 0, 0, 2, 0, 0, 0, 2, 0]) 2 = some 0 ∧
    partial_conflicts (Board.mk 5 [3, 4, 1, 2, 0] [1, 1, 1, 1, 1] [0, 0, 0, 2, 1, 2, 0, 0, 0]
      [1, 0, 0, 2, 0, 0, 0, 2, 0]) 3 = some 0 ∧
    (∀ fuel r, find_conflicted_row (Board.mk 5 [3, 4, 1, 2, 0] [1, 1, 1, 1, 1] [0, 0, 0, 2, 1, 2, 0, 0, 0]
      [1, 0, 0, 2, 0, 0, 0, 2, 0]) fuel r = none) ∧
    (∀ (seeds : Nat → Nat → Nat) (fuel : Nat),
      main (fun t => if t = 0 then
          (fun k => if k ≤ 15 then 3 else if k = 16 then 2 else if k = 17 then 1 else 0)
        else seeds t) fuel 5 = none) :=
  ⟨stuck_placement, stuck_recount, ⟨by decide, by decide, stuck_mirrored⟩,
    stuck_rows 0 (by decide), stuck_rows 1 (by decide), stuck_rows 2 (by decide),
    stuck_rows 3 (by decide), stuck_scan, stuck_main⟩

end Queens
